import Mathlib

/-!
Verification development for the processorSim pipeline simulator.

This file gives a shallow embedding of the simulator core
(`src/sim_services.py`), its container support (`src/container_utils.py`)
and the register-access plan it consumes, and proves properties of the
per-cycle state machine: utilization bounds, hazard marking, memory
arbitration, stall detection and termination.

Modelling conventions:
* Python lists become `List`, dictionaries become association lists or
  finitely supported functions (a `defaultdict(list)` lookup of a missing
  key yields `[]`, which is extensionally what the total lookup returns;
  membership of a key whose list is empty is indistinguishable from the
  key's absence for every simulator operation, so lookups are total).
* In-place mutation of `InstrState` objects becomes functional update;
  every mutated object is re-read only through the containers updated
  here, so the functional translation is exact.
* `heapq.nsmallest(n, it, key)` is (per its documentation and
  implementation, which decorates with a running index) equal to the
  stable sort by key truncated to `n` elements; Python's `sorted` is
  stable, which the insertion sort below reproduces.
* The modules `reg_access.py`, `program_defs.py`, `str_utils.py` and
  `processor_utils/units.py` are not part of the tree under
  verification; the data they declare is reconstructed from the
  specification (marked `Modelled from the spec:`) and from how
  `sim_services.py` uses it.  Case-normalisation of `ICaseString` is
  assumed already applied, so names are plain strings.
-/

namespace ProcSim

/-- Instruction stalling state (`StallState` in `sim_services.py`). -/
inductive StallState where
  | NO_STALL
  | STRUCTURAL
  | DATA
deriving DecidableEq, Repr

open StallState

/-- `InstrState`: a program index plus its stalling state. -/
structure InstrState where
  instr : Nat
  stalled : StallState
deriving DecidableEq, Repr

/-- Modelled from the spec: `LockInfo` of `processor_utils/units.py`
(two booleans, read lock and write lock), as consumed by `_regs_avail`. -/
structure LockInfo where
  rd_lock : Bool
  wr_lock : Bool
deriving DecidableEq, Repr

/-- Modelled from the spec: `UnitModel` of `processor_utils/units.py` —
name, width, capabilities, lock information and the memory access flag,
exactly the attributes `sim_services.py` reads. -/
structure UnitModel where
  name : String
  width : Nat
  capabilities : List String
  lock_info : LockInfo
  mem_access : Bool
deriving DecidableEq, Repr

/-- Modelled from the spec: `FuncUnit` — a unit model plus its
predecessor unit models. -/
structure FuncUnit where
  model : UnitModel
  predecessors : List UnitModel
deriving DecidableEq, Repr

/-- Modelled from the spec: `ProcessorDesc` — the four role collections
of unit models, `internal_units` in topological post-order. -/
structure ProcessorDesc where
  in_ports : List UnitModel
  out_ports : List FuncUnit
  in_out_ports : List UnitModel
  internal_units : List FuncUnit
deriving DecidableEq, Repr

/-- Modelled from the spec: `HwInstruction` of `program_defs.py` —
source registers, destination register and capability category. -/
structure HwInstruction where
  sources : List String
  destination : String
  categ : String
deriving DecidableEq, Repr

/-- Default instruction state used to totalise list indexing (Python
raises `IndexError` on the states this default would be read in; all
reachable accesses are in range). -/
def dIS : InstrState := ⟨0, NO_STALL⟩

/-- Default instruction used to totalise program indexing. -/
def dHw : HwInstruction := ⟨[], "", ""⟩

/-- Default unit model used to totalise the name-to-unit map. -/
def dUM : UnitModel := ⟨"", 0, [], ⟨false, false⟩, false⟩

/-! ### `BagValDict` (`container_utils.py`) -/

/-- The utilization mapping: `BagValDict[ICaseString, InstrState]` as an
association list from unit name to the (ordered) list of hosted
instruction states.  The underlying `defaultdict` may also hold keys
with empty lists; those are extensionally invisible (see
`_useful_items`), so the association list holds them the same way. -/
abbrev Util := List (String × List InstrState)

/-- `BagValDict.__getitem__`: total lookup, the `defaultdict` default
being the empty list. -/
def getU : Util → String → List InstrState
  | [], _ => []
  | (k', l) :: rest, k => if k' = k then l else getU rest k

/-- Replace the list stored under `k` (first occurrence), adding the key
at the end when absent — the association-list image of a `defaultdict`
store. -/
def setU : Util → String → List InstrState → Util
  | [], k, l => [(k, l)]
  | (k', l') :: rest, k, l =>
    if k' = k then (k, l) :: rest else (k', l') :: setU rest k l

/-- `BagValDict._useful_items`: the items whose value lists are
non-empty. -/
def itemsU (u : Util) : List (String × List InstrState) :=
  u.filter (fun p => !p.2.isEmpty)

/-- `BagValDict.__len__`: the number of useful items. -/
def lenU (u : Util) : Nat := (itemsU u).length

/-- Rank of a stall state, mirroring the declaration order of the
Python enum; used only to give `InstrState` the total order that
`sorted` uses inside `BagValDict.__eq__`. -/
def stallRank : StallState → Nat
  | NO_STALL => 0
  | STRUCTURAL => 1
  | DATA => 2

/-- The comparison `sorted` applies to `InstrState` values (attrs
generates ordering by the `(instr, stalled)` attribute tuple). -/
def isLe (a b : InstrState) : Bool :=
  a.instr < b.instr ||
    (a.instr == b.instr && stallRank a.stalled ≤ stallRank b.stalled)

/-- Insert an element after every element `b` with `le b a` — the
insertion step of a stable sort. -/
def insertLe (le : α → α → Bool) (a : α) : List α → List α
  | [] => [a]
  | b :: bs => if le b a then b :: insertLe le a bs else a :: b :: bs

/-- Stable insertion sort (left fold, so later elements land after
earlier equal ones, as Python's stable `sorted` does). -/
def isort (le : α → α → Bool) (l : List α) : List α :=
  l.foldl (fun acc a => insertLe le a acc) []

/-- `BagValDict.__eq__ self other`: equal numbers of useful items and,
for every item of `other`, equal sorted value lists. -/
def utilEq (self other : Util) : Bool :=
  lenU self == lenU other &&
    (itemsU other).all (fun p => isort isLe p.2 == isort isLe (getU self p.1))

/-! ### Register access queues (`reg_access.py`, absent from the tree) -/

/-- Access type of a planned register request. -/
inductive AccessType where
  | READ
  | WRITE
deriving DecidableEq, Repr

open AccessType

/-- Modelled from the spec: one group of the per-register access plan —
a request kind together with the indices of the instructions that share
the group (reads coalesce, writes are singletons). -/
structure Access where
  access_type : AccessType
  reqs : List Nat
deriving DecidableEq, Repr

/-- Modelled from the spec: `RegAccessQueue` — the per-register FIFO of
access groups, head first. -/
abbrev RegAccessQueue := List Access

/-- Modelled from the spec: `RegAccessQueue.can_access` — the head group
has the requested kind and contains the instruction. -/
def canAccess (q : RegAccessQueue) (t : AccessType) (i : Nat) : Bool :=
  match q with
  | [] => false
  | g :: _ => g.access_type == t && g.reqs.contains i

/-- Modelled from the spec: `RegAccessQueue.dequeue` — remove the
instruction from the head group, popping the group once empty. -/
def dequeue (q : RegAccessQueue) (i : Nat) : RegAccessQueue :=
  match q with
  | [] => []
  | g :: rest =>
    let rs := g.reqs.erase i
    if rs.isEmpty then rest else ⟨g.access_type, rs⟩ :: rest

/-- Modelled from the spec: `RegAccQBuilder.append` — a READ extends a
trailing READ group, anything else starts a new group at the back. -/
def qAppend (q : RegAccessQueue) (t : AccessType) (i : Nat) : RegAccessQueue :=
  match q with
  | [] => [⟨t, [i]⟩]
  | [g] =>
    if g.access_type == READ && t == READ then [⟨READ, g.reqs ++ [i]⟩]
    else [g, ⟨t, [i]⟩]
  | g :: g' :: rest => g :: qAppend (g' :: rest) t i

/-- The register access plan: a finitely supported map from register
name to its queue (`Dict[object, RegAccessQueue]`). -/
abbrev AccQueues := String → RegAccessQueue

/-- Point update of the access plan. -/
def updAcc (a : AccQueues) (r : String) (q : RegAccessQueue) : AccQueues :=
  fun s => if s = r then q else a s

/-- `_add_rd_access`: append a READ request of the instruction for every
source register, in source order. -/
def addRdAccess (i : Nat) (a : AccQueues) (regs : List String) : AccQueues :=
  regs.foldl (fun acc r => updAcc acc r (qAppend (acc r) READ i)) a

/-- `_add_access`: the reads of the sources, then the write of the
destination. -/
def addAccess (ins : HwInstruction) (i : Nat) (a : AccQueues) : AccQueues :=
  let a1 := addRdAccess i a ins.sources
  updAcc a1 ins.destination (qAppend (a1 ins.destination) WRITE i)

/-- `_build_acc_plan`: fold the accesses of the enumerated program. -/
def buildAccPlan (prog : List HwInstruction) : AccQueues :=
  prog.enum.foldl (fun a p => addAccess p.2 p.1 a) (fun _ => [])

/-! ### The per-cycle machine (`sim_services.py`) -/

/-- `_HostedInstr`: an instruction identified by its host unit and its
index inside the host's list. -/
structure HostedInstr where
  host : String
  index_in_host : Nat
deriving DecidableEq, Repr

/-- Ghost record of one instruction reception (a move into a destination
unit or an issue into an input unit); `mem` is the receiving model's
`mem_access` flag.  Receptions are emitted alongside the utilization
updates and never influence them. -/
structure Reception where
  dst : String
  mem : Bool
  instr : Nat
deriving DecidableEq, Repr

/-- `_space_avail`: the unit's width minus its current occupancy, as the
Python integer (possibly negative). -/
def spaceAvail (unit : UnitModel) (util : Util) : Int :=
  (unit.width : Int) - ((getU util unit.name).length : Int)

/-- Indices (ascending) of the elements satisfying the predicate —
`more_itertools.locate`. -/
def locateIdx (p : InstrState → Bool) (l : List InstrState) : List Nat :=
  (List.range l.length).filter (fun j => p (l.getD j dIS))

/-- `heapq.nsmallest n key`: stable sort by key, truncated to `n`
(empty for non-positive `n`). -/
def nsmallest (n : Int) (key : α → Nat) (l : List α) : List α :=
  (isort (fun a b => key a ≤ key b) l).take n.toNat

/-- The candidate filter of `_get_candidates`: not DATA-stalled in this
cycle and of a category the destination's capabilities accept. -/
def candFilter (prog : List HwInstruction) (caps : List String)
    (ins : InstrState) : Bool :=
  ins.stalled != DATA && caps.contains (prog.getD ins.instr dHw).categ

/-- The program index of a hosted candidate (the `nsmallest` key). -/
def hostKey (util : Util) (h : HostedInstr) : Nat :=
  ((getU util h.host).getD h.index_in_host dIS).instr

/-- `_get_candidates`: locate matching instructions in every
predecessor, then keep the `space_avail` ones with the smallest program
indices.  The guard `pred.name in util_info` of the source is the
key-membership test; a key holding no instructions contributes no
candidates either way, so the lookup below is exact. -/
def getCandidates (unit : FuncUnit) (prog : List HwInstruction)
    (util : Util) : List HostedInstr :=
  let cands := unit.predecessors.flatMap (fun pred =>
    (locateIdx (candFilter prog unit.model.capabilities)
        (getU util pred.name)).map (fun j => (⟨pred.name, j⟩ : HostedInstr)))
  nsmallest (spaceAvail unit.model util) (hostKey util) cands

/-- Result of `_mov_candidates`: updated utilization, the number of
moved candidates, the memory-used flag and the emitted receptions. -/
structure MovStatus where
  util : Util
  moved : Nat
  mem_used : Bool
  events : List Reception
deriving Repr

/-- The moved candidate's instruction state after `_mov_candidate` set
`candidate.stalled = NO_STALL` (the `instr` field is untouched). -/
def movSlot (util : Util) (c : HostedInstr) : InstrState :=
  ⟨((getU util c.host).getD c.index_in_host dIS).instr, NO_STALL⟩

/-- One `_mov_candidate` call on the utilization: overwrite the host
slot with the unstalled state (in-place mutation of the shared object)
and append the same state to the destination unit's list. -/
def movStep (util : Util) (c : HostedInstr) (dst : String) : Util :=
  let u1 := setU util c.host
    ((getU util c.host).set c.index_in_host (movSlot util c))
  setU u1 dst (getU u1 dst ++ [movSlot util c])

/-- `_mov_candidate` applied along `_mov_candidates`: set the moved
instruction NO_STALL in its host slot, append it to the destination,
and stop right after a move into a memory-accessing destination. -/
def movCandidates (cands : List HostedInstr) (unit : UnitModel)
    (util : Util) : MovStatus :=
  match cands with
  | [] => ⟨util, 0, false, []⟩
  | c :: rest =>
    let u2 := movStep util c unit.name
    let ev : Reception := ⟨unit.name, unit.mem_access, (movSlot util c).instr⟩
    if unit.mem_access then ⟨u2, 1, true, [ev]⟩
    else
      let ms := movCandidates rest unit u2
      ⟨ms.util, ms.moved + 1, ms.mem_used, ev :: ms.events⟩

/-- `_clr_src_units`: delete each moved instruction from its host at its
recorded index. -/
def clrSrcUnits (instrs : List HostedInstr) (util : Util) : Util :=
  instrs.foldl
    (fun u h => setU u h.host ((getU u h.host).eraseIdx h.index_in_host)) util

/-- `_fill_unit`: move the selected candidates in, then clear them from
their hosts in descending host-index order. -/
def fillUnit (unit : FuncUnit) (prog : List HwInstruction) (util : Util) :
    Util × Bool × List Reception :=
  let cands := getCandidates unit prog util
  let ms := movCandidates cands unit.model util
  let toClear :=
    isort (fun a b => b.index_in_host ≤ a.index_in_host) (cands.take ms.moved)
  (clrSrcUnits toClear ms.util, ms.mem_used, ms.events)

/-- `_mov_flights`: fill every destination unit in order, skipping a
memory-accessing destination entirely once the memory is busy. -/
def movFlights (dsts : List FuncUnit) (prog : List HwInstruction)
    (util : Util) : Util × Bool × List Reception :=
  dsts.foldl
    (fun acc dst =>
      if !acc.2.1 || !dst.model.mem_access then
        let r := fillUnit dst prog acc.1
        (r.1, acc.2.1 || r.2.1, acc.2.2 ++ r.2.2)
      else acc)
    (util, false, [])

/-- Modelled from the spec: `processor_utils.units.sorted_models` —
models sorted by name (deterministic input arbitration). -/
def sorted_models (units : List UnitModel) : List UnitModel :=
  isort (fun a b => a.name ≤ b.name) units

/-- `_build_cap_map` as the total map it implements: the input units
advertising a capability, in the deterministic unit order. -/
def capUnitMap (units : List UnitModel) (cap : String) : List UnitModel :=
  (sorted_models units).filter (fun u => u.capabilities.contains cap)

/-- `_accept_instr` / `_issue_instr`: the first input unit that is not
blocked on memory and has space accepts the next instruction. -/
def acceptInstr (inputs : List UnitModel) (util : Util) (memUsed : Bool)
    (entered : Nat) : Option (Util × Bool × Reception) :=
  match inputs.find?
      (fun unit => !(memUsed && unit.mem_access) && spaceAvail unit util != 0)
    with
  | none => none
  | some acceptor =>
    some (setU util acceptor.name
            (getU util acceptor.name ++ [⟨entered, NO_STALL⟩]),
          memUsed || acceptor.mem_access,
          ⟨acceptor.name, acceptor.mem_access, entered⟩)

/-- `_fill_inputs`, fueled by the number of instructions left to issue
(the loop bumps `entered` every iteration, so this fuel is exact). -/
def fillInputsAux (capMap : String → List UnitModel)
    (prog : List HwInstruction) :
    Nat → Util → Bool → Nat → Util × Bool × Nat × List Reception
  | 0, util, mb, entered => (util, mb, entered, [])
  | fuel + 1, util, mb, entered =>
    if entered < prog.length then
      match acceptInstr (capMap (prog.getD entered dHw).categ) util mb entered
        with
      | none => (util, mb, entered, [])
      | some (u', mb', ev) =>
        let r := fillInputsAux capMap prog fuel u' mb' (entered + 1)
        (r.1, r.2.1, r.2.2.1, ev :: r.2.2.2)
    else (util, mb, entered, [])

/-- `_fill_inputs`. -/
def fillInputs (capMap : String → List UnitModel) (prog : List HwInstruction)
    (util : Util) (mb : Bool) (entered : Nat) :
    Util × Bool × Nat × List Reception :=
  fillInputsAux capMap prog (prog.length - entered) util mb entered

/-- `_get_out_ports`: the units at the output boundary. -/
def getOutPorts (proc : ProcessorDesc) : List UnitModel :=
  proc.in_out_ports ++ proc.out_ports.map (·.model)

/-- The destination units of the forward-flight phase, in visit order. -/
def dstUnits (proc : ProcessorDesc) : List FuncUnit :=
  proc.out_ports ++ proc.internal_units

/-- The input units (`chain(in_out_ports, in_ports)`). -/
def inUnits (proc : ProcessorDesc) : List UnitModel :=
  proc.in_out_ports ++ proc.in_ports

/-- All unit models in the enumeration order of `HwSpec`. -/
def allModels (proc : ProcessorDesc) : List UnitModel :=
  proc.in_ports ++ proc.in_out_ports ++
    (proc.out_ports ++ proc.internal_units).map (·.model)

/-- `HwSpec.name_unit_map` as a total lookup (dict comprehension: a
later model with the same name overrides an earlier one). -/
def nameUnitMap (proc : ProcessorDesc) : String → UnitModel :=
  (allModels proc).foldl
    (fun f u => fun k => if k = u.name then u else f k) (fun _ => dUM)

/-- `_flush_output`: delete, from right to left, every instruction
located as NO_STALL (`more_itertools.rlocate` plus deletions). -/
def flushOutput (l : List InstrState) : List InstrState :=
  ((locateIdx (fun s => s.stalled == NO_STALL) l).reverse).foldl
    (fun acc j => acc.eraseIdx j) l

/-- `_flush_outputs`. -/
def flushOutputs (outs : List UnitModel) (util : Util) : Util :=
  outs.foldl (fun u o => setU u o.name (flushOutput (getU u o.name))) util

/-- `_calc_unstalled`. -/
def calcUnstalled (l : List InstrState) : Nat :=
  l.countP (fun s => s.stalled == NO_STALL)

/-- `_count_outputs`. -/
def countOutputs (outs : List UnitModel) (util : Util) : Nat :=
  (outs.map (fun o => calcUnstalled (getU util o.name))).sum

/-- `_regs_loaded`: the instruction sat in this unit in the previous
pulse in a non-DATA state. -/
def regsLoaded (oldList : List InstrState) (i : Nat) : Bool :=
  oldList.any (fun o => o.instr == i && o.stalled != DATA)

/-- `_chk_avail_regs`: an unlocked check passes outright; a locked one
requires every register's queue head to grant the request. -/
def chkAvailRegs (acc : AccQueues) (lock : Bool) (regs : List String)
    (t : AccessType) (i : Nat) : Bool :=
  !lock || regs.all (fun r => canAccess (acc r) t i)

/-- `_regs_avail`: both lock checks must pass; on success the registers
whose grants are to be cleared are the locked read sources followed by
the locked write destination. -/
def regsAvail (locks : LockInfo) (i : Nat) (ins : HwInstruction)
    (acc : AccQueues) : Bool × List String :=
  if chkAvailRegs acc locks.rd_lock ins.sources READ i &&
      chkAvailRegs acc locks.wr_lock [ins.destination] WRITE i then
    (true, (if locks.rd_lock then ins.sources else []) ++
      (if locks.wr_lock then [ins.destination] else []))
  else (false, [])

/-- The pending dequeues, as the source's `reqs_to_clear` dictionary:
an association list from register to the instruction indices appended
for it (`dict.setdefault(reg, []).append(instr)`). -/
abbrev Clears := List (String × List Nat)

/-- `_update_clears` for one register. -/
def setdefAppend (rs : Clears) (r : String) (i : Nat) : Clears :=
  match rs with
  | [] => [(r, [i])]
  | (r', l) :: rest =>
    if r' = r then (r', l ++ [i]) :: rest else (r', l) :: setdefAppend rest r i

/-- `_update_clears`. -/
def updateClears (reqs : Clears) (regs : List String) (i : Nat) : Clears :=
  regs.foldl (fun rs r => setdefAppend rs r i) reqs

/-- `_chk_data_stall`. -/
def chkDataStall (locks : LockInfo) (i : Nat) (ins : HwInstruction)
    (acc : AccQueues) (reqs : Clears) : StallState × Clears :=
  let av := regsAvail locks i ins acc
  if av.1 then (NO_STALL, updateClears reqs av.2 i) else (DATA, reqs)

/-- `_stall_unit`: mark every instruction of the unit's new list. -/
def stallUnit (locks : LockInfo) (oldList : List InstrState)
    (prog : List HwInstruction) (acc : AccQueues) :
    List InstrState → Clears → List InstrState × Clears
  | [], reqs => ([], reqs)
  | s :: rest, reqs =>
    let m :=
      if regsLoaded oldList s.instr then (STRUCTURAL, reqs)
      else chkDataStall locks s.instr (prog.getD s.instr dHw) acc reqs
    let r := stallUnit locks oldList prog acc rest m.2
    (⟨s.instr, m.1⟩ :: r.1, r.2)

/-- Apply the recorded dequeues (`for reg, req_lst … dequeue`). -/
def applyClears (clears : Clears) (acc : AccQueues) : AccQueues :=
  clears.foldl
    (fun a kv => kv.2.foldl (fun a' i => updAcc a' kv.1 (dequeue (a' kv.1) i)) a)
    acc

/-- `_chk_hazards`: mark every useful item of the new utilization, then
apply the accumulated dequeues to the access queues. -/
def chkHazards (oldU : Util) (cp : Util) (numap : String → UnitModel)
    (prog : List HwInstruction) (acc : AccQueues) : Util × AccQueues :=
  let step := (itemsU cp).foldl
    (fun (p : Util × Clears) kv =>
      let r := stallUnit (numap kv.1).lock_info (getU oldU kv.1) prog acc
        kv.2 p.2
      (setU p.1 kv.1 r.1, r.2))
    (cp, [])
  (step.1, applyClears step.2 acc)

/-- The simulator state threaded across cycles: the utilization table,
the access queues and the issue record. -/
structure SimState where
  utilTbl : List Util
  acc : AccQueues
  entered : Nat
  exited : Nat

/-- `_fill_cp_util` (phases 1–3): flush, forward flight, fetch.  Returns
the new utilization, the new `entered` index and the reception trace. -/
def fillCpUtil (proc : ProcessorDesc) (prog : List HwInstruction)
    (old : Util) (entered : Nat) : Util × Nat × List Reception :=
  let f := flushOutputs (getOutPorts proc) old
  let m := movFlights (dstUnits proc) prog f
  let r := fillInputs (capUnitMap (inUnits proc)) prog m.1 m.2.1 entered
  (r.1, r.2.2.1, m.2.2 ++ r.2.2.2)

/-- The newly computed utilization of one cycle, after hazard marking —
the `cp_util` that `_run_cycle` compares against `old_util`. -/
def computeCp (proc : ProcessorDesc) (prog : List HwInstruction)
    (st : SimState) : Util × AccQueues × Nat :=
  let old := st.utilTbl.getLastD []
  let f := fillCpUtil proc prog old st.entered
  let h := chkHazards old f.1 (nameUnitMap proc) prog st.acc
  (h.1, h.2, f.2.1)

/-- The reception trace of one cycle (phases 2 and 3). -/
def cycleEvents (proc : ProcessorDesc) (prog : List HwInstruction)
    (st : SimState) : List Reception :=
  (fillCpUtil proc prog (st.utilTbl.getLastD []) st.entered).2.2

/-- `_run_cycle`: compute the pulse, detect a full stall (raising
`StallError` with the utilization table built so far), otherwise pump
the unstalled outputs and commit the entry. -/
def runCycle (proc : ProcessorDesc) (prog : List HwInstruction)
    (st : SimState) : Except (List Util) SimState :=
  let c := computeCp proc prog st
  if utilEq c.1 (st.utilTbl.getLastD []) then Except.error st.utilTbl
  else Except.ok
    { utilTbl := st.utilTbl ++ [c.1]
      acc := c.2.1
      entered := c.2.2
      exited := st.exited + countOutputs (getOutPorts proc) c.1 }

/-- The `simulate` loop condition: instructions left to issue or in
flight. -/
def loopCond (n : Nat) (st : SimState) : Bool :=
  st.entered < n || st.exited < st.entered

/-- Outcome of running the simulation loop on a given fuel: normal
completion, a raised `StallError` carrying the utilization table, or
fuel exhaustion. -/
inductive SimResult where
  | done (st : SimState)
  | stalled (tbl : List Util)
  | out (st : SimState)

/-- The `simulate` while-loop, fueled. -/
def simSteps (proc : ProcessorDesc) (prog : List HwInstruction) :
    Nat → SimState → SimResult
  | 0, st => if loopCond prog.length st then .out st else .done st
  | fuel + 1, st =>
    if loopCond prog.length st then
      match runCycle proc prog st with
      | .error tbl => .stalled tbl
      | .ok st' => simSteps proc prog fuel st'
    else .done st

/-- The initial simulator state of `simulate`. -/
def initState (prog : List HwInstruction) : SimState :=
  { utilTbl := [], acc := buildAccPlan prog, entered := 0, exited := 0 }

/-- `simulate`, fueled. -/
def simulate (proc : ProcessorDesc) (prog : List HwInstruction)
    (fuel : Nat) : SimResult :=
  simSteps proc prog fuel (initState prog)

/-- The utilization table carried by a simulation outcome (the returned
table, the table inside the `StallError`, or the table accumulated when
fuel runs out). -/
def tableOf : SimResult → List Util
  | .done st => st.utilTbl
  | .stalled tbl => tbl
  | .out st => st.utilTbl

/-- The utilization table of a successful run, if any. -/
def resultTable : SimResult → Option (List Util)
  | .done st => some st.utilTbl
  | _ => none

/-! ### Concrete fixtures (used by closed instances of the theorems) -/

/-- A single-unit processor: one in-out port of width 1 with both
locks. -/
def fullSys : UnitModel := ⟨"fullSys", 1, ["ALU"], ⟨true, true⟩, false⟩

/-- The processor holding only `fullSys`. -/
def procS1 : ProcessorDesc := ⟨[], [], [fullSys], []⟩

/-- A one-instruction ALU program. -/
def progS1 : List HwInstruction := [⟨["R11", "R15"], "R14", "ALU"⟩]

/-- An input unit of width 2 without locks or memory access. -/
def unitI2 : UnitModel := ⟨"i", 2, ["ALU"], ⟨false, false⟩, false⟩

/-- An output unit of width 2 that requires memory access. -/
def unitO2M : UnitModel := ⟨"o", 2, ["ALU"], ⟨false, false⟩, true⟩

/-- The memory-access output fed by the width-2 input. -/
def funcO2M : FuncUnit := ⟨unitO2M, [unitI2]⟩

/-- A two-instruction ALU program with distinct destinations. -/
def progTwo : List HwInstruction := [⟨[], "R1", "ALU"⟩, ⟨[], "R2", "ALU"⟩]

/-- The utilization reached after the two instructions of `progTwo`
were issued into `unitI2` (the pulse before they move to `unitO2M`). -/
def utilTwoIn : Util := [("o", []), ("i", [⟨0, NO_STALL⟩, ⟨1, NO_STALL⟩])]

/-- A two-instruction program with a read-after-write dependency on
register R1. -/
def progDep : List HwInstruction :=
  [⟨[], "R1", "ALU"⟩, ⟨["R1"], "R2", "ALU"⟩]

/-! ### Claim-side reference definitions

The next definitions restate parts of the specification in the spec's
own words; the theorems below compare them with the source-derived
definitions above. -/

/-- The specification's flattened reading of a register access queue:
the requests of its groups, front to back. -/
def flattenQ (q : RegAccessQueue) : List (AccessType × Nat) :=
  q.flatMap (fun g => g.reqs.map (fun i => (g.access_type, i)))

/-- The specification's per-register access sequence of a program: for
each instruction index in increasing order, one READ per source
occurrence of the register, then one WRITE when it is the destination. -/
def regAccesses (prog : List HwInstruction) (r : String) :
    List (AccessType × Nat) :=
  prog.enum.flatMap (fun p =>
    (p.2.sources.filter (fun s => s = r)).map (fun _ => (READ, p.1)) ++
      (if p.2.destination = r then [(WRITE, p.1)] else []))

/-- The hazard state the specification assigns to an instruction:
STRUCTURAL when it sat in the same unit last pulse in a non-DATA state;
otherwise DATA when a held lock finds a queue head unable to grant the
request; otherwise NO_STALL. -/
def stallSpec (locks : LockInfo) (oldList : List InstrState)
    (prog : List HwInstruction) (acc : AccQueues) (i : Nat) : StallState :=
  if oldList.any (fun o => o.instr == i && o.stalled != DATA) then STRUCTURAL
  else if (locks.rd_lock &&
        !((prog.getD i dHw).sources.all (fun r => canAccess (acc r) READ i)))
      || (locks.wr_lock &&
        !(canAccess (acc (prog.getD i dHw).destination) WRITE i)) then DATA
  else NO_STALL

/-- The registers whose head grants the specification says are consumed
by an instruction left NO_STALL by the hazard check (none when the
instruction is stalled structurally or on data). -/
def grantsOf (locks : LockInfo) (oldList : List InstrState)
    (prog : List HwInstruction) (acc : AccQueues) (i : Nat) : List String :=
  if oldList.any (fun o => o.instr == i && o.stalled != DATA) then []
  else
    let av := regsAvail locks i (prog.getD i dHw) acc
    if av.1 then av.2 else []

/-- Keys of an association list are pairwise distinct — the invariant
every Python dictionary satisfies by construction. -/
def NodupKeys (u : Util) : Prop := (u.map Prod.fst).Nodup

/-- Lookup of the pending-dequeue record (first occurrence, defaulting
to the empty list, like `getU`). -/
def getC : Clears → String → List Nat
  | [], _ => []
  | (r', l) :: rest, r => if r' = r then l else getC rest r

/-- Distinct keys of a pending-dequeue record (a Python dictionary
invariant). -/
def NodupC (c : Clears) : Prop := (c.map Prod.fst).Nodup

/-- The granted (register, instruction) pairs of a whole hazard-marking
walk, in walk order: useful items in order, each unit's instructions in
order, each instruction's granted registers in order. -/
def grantsList (oldU cp : Util) (numap : String → UnitModel)
    (prog : List HwInstruction) (acc : AccQueues) : List (String × Nat) :=
  (itemsU cp).flatMap (fun kv => kv.2.flatMap (fun s =>
    (grantsOf (numap kv.1).lock_info (getU oldU kv.1) prog acc
        s.instr).map (fun r => (r, s.instr))))

/-- The specification's eligible candidates of a destination unit: every
instruction hosted in a predecessor that is not DATA-stalled in this
cycle and whose category the destination's capabilities accept. -/
def eligibleSpec (unit : FuncUnit) (prog : List HwInstruction)
    (util : Util) : List HostedInstr :=
  unit.predecessors.flatMap (fun p =>
    ((getU util p.name).enum.filter (fun js =>
        js.2.stalled ≠ DATA ∧
          (prog.getD js.2.instr dHw).categ ∈ unit.model.capabilities)).map
      (fun js => (⟨p.name, js.1⟩ : HostedInstr)))

/-! ### Termination measure

`simulate` has no structural recursion; its termination on validated
processors is proved with a lexicographic measure over the simulator
state: instructions still to issue, then the weighted occupancy `Phi`
(weights strictly decreasing along the unit graph's edges, so forward
moves shrink it), then the stall weight `Psi` (hazard re-marking of a
frozen placement shrinks it). -/

/-- Every key of the utilization belongs to the given name list (the
declared unit names). -/
def KeysIn (u : Util) (names : List String) : Prop := ∀ p ∈ u, p.1 ∈ names

/-- Weighted occupancy: the number of instructions hosted by each named
unit, weighted by the unit's name. -/
def Phi (names : List String) (w : String → Nat) (u : Util) : Nat :=
  (names.map (fun nm => w nm * (getU u nm).length)).sum

/-- Stall weight of a hosted state: once the placement is frozen, hazard
marking can only move a state down this scale (`NO_STALL → STRUCTURAL`,
`DATA → NO_STALL/STRUCTURAL`, everything else unchanged). -/
def stallW : StallState → Nat
  | NO_STALL => 1
  | STRUCTURAL => 0
  | DATA => 2

/-- Total stall weight of the utilization over the named units. -/
def Psi (names : List String) (u : Util) : Nat :=
  (names.map (fun nm =>
    ((getU u nm).map (fun s => stallW s.stalled)).sum)).sum

/-- The facts about a validated processor the termination argument
uses: unique unit names, every predecessor a declared unit, no
duplicated predecessor, and acyclicity of the unit graph — witnessed by
a weight function `w` strictly increasing against the flow direction
(for a DAG, take one plus the longest path length to an output). -/
structure ValidProc (proc : ProcessorDesc) (w : String → Nat) : Prop where
  nodup_names : ((allModels proc).map (fun m => m.name)).Nodup
  w_pos : ∀ m ∈ allModels proc, 0 < w m.name
  w_dec : ∀ fu ∈ dstUnits proc, ∀ p ∈ fu.predecessors,
    w fu.model.name < w p.name
  preds_names : ∀ fu ∈ dstUnits proc, ∀ p ∈ fu.predecessors,
    p.name ∈ (allModels proc).map (fun m => m.name)
  preds_nodup : ∀ fu ∈ dstUnits proc,
    (fu.predecessors.map (fun p => p.name)).Nodup

/-- The simulation-loop invariant: the last recorded utilization is a
well-formed dictionary over the declared unit names, and the issue
record never exceeds the program length. -/
structure GoodSt (proc : ProcessorDesc) (prog : List HwInstruction)
    (st : SimState) : Prop where
  nodup : NodupKeys (st.utilTbl.getLastD [])
  keys : KeysIn (st.utilTbl.getLastD [])
    ((allModels proc).map (fun m => m.name))
  entered_le : st.entered ≤ prog.length

/-- Whether a fueled run was cut short by fuel exhaustion (the one
outcome the real `while` loop does not have). -/
def ranOut : SimResult → Bool
  | .out _ => true
  | _ => false

/-! ### Container lemmas -/

theorem getU_setU_self (u : Util) (k : String) (l : List InstrState) :
    getU (setU u k l) k = l := by
  induction u with
  | nil => simp [setU, getU]
  | cons p rest ih =>
    by_cases h : p.1 = k
    · simp [setU, getU, h]
    · simp [setU, getU, h, ih]

theorem getU_setU_ne (u : Util) {k k' : String} (l : List InstrState)
    (h : k' ≠ k) : getU (setU u k l) k' = getU u k' := by
  have hkk : ¬k = k' := fun hh => h hh.symm
  induction u with
  | nil => simp [setU, getU, hkk]
  | cons p rest ih =>
    by_cases hp : p.1 = k
    · simp [setU, getU, hp, hkk]
    · by_cases hp' : p.1 = k'
      · simp [setU, getU, hp, hp', h]
      · simp [setU, getU, hp, hp', ih]

theorem getU_setU (u : Util) (k k' : String) (l : List InstrState) :
    getU (setU u k l) k' = if k' = k then l else getU u k' := by
  by_cases h : k' = k
  · subst h; simp [getU_setU_self]
  · simp [h, getU_setU_ne u l h]

theorem insertLe_perm (le : α → α → Bool) (a : α) (l : List α) :
    (insertLe le a l).Perm (a :: l) := by
  induction l with
  | nil => simp [insertLe]
  | cons b bs ih =>
    by_cases h : le b a
    · simpa [insertLe, h] using
        ((ih.cons b).trans (List.Perm.swap a b bs))
    · simp [insertLe, h]

theorem isort_perm (le : α → α → Bool) (l : List α) :
    (isort le l).Perm l := by
  suffices h : ∀ acc : List α,
      (l.foldl (fun acc a => insertLe le a acc) acc).Perm (acc ++ l) by
    simpa [isort] using h []
  induction l with
  | nil => intro acc; simp
  | cons a rest ih =>
    intro acc
    rw [List.foldl_cons]
    have h1 := ih (insertLe le a acc)
    have h2 : (insertLe le a acc ++ rest).Perm ((a :: acc) ++ rest) :=
      (insertLe_perm le a acc).append_right rest
    have h3 : ((a :: acc) ++ rest).Perm (acc ++ a :: rest) := by
      simpa using (@List.perm_middle _ a acc rest).symm
    exact (h1.trans h2).trans h3

theorem mem_isort (le : α → α → Bool) (l : List α) (a : α) :
    a ∈ isort le l ↔ a ∈ l :=
  (isort_perm le l).mem_iff

theorem length_isort (le : α → α → Bool) (l : List α) :
    (isort le l).length = l.length :=
  (isort_perm le l).length_eq

theorem insertLe_sorted (le : α → α → Bool)
    (htrans : ∀ a b c, le a b = true → le b c = true → le a c = true)
    (htot : ∀ a b, le a b = true ∨ le b a = true) (a : α) (l : List α)
    (hl : l.Pairwise (fun x y => le x y = true)) :
    (insertLe le a l).Pairwise (fun x y => le x y = true) := by
  induction l with
  | nil => simp [insertLe]
  | cons b bs ih =>
    rcases List.pairwise_cons.mp hl with ⟨hb, hbs⟩
    by_cases h : le b a
    · rw [insertLe, if_pos h]
      refine List.pairwise_cons.mpr ⟨?_, ih hbs⟩
      intro y hy
      have hy' : y ∈ a :: bs := (insertLe_perm le a bs).mem_iff.mp hy
      rcases List.mem_cons.mp hy' with hy'' | hy''
      · rw [hy'']; exact h
      · exact hb y hy''
    · rw [insertLe, if_neg h]
      have hab : le a b := (htot a b).resolve_right (by simpa using h)
      refine List.pairwise_cons.mpr ⟨?_, hl⟩
      intro y hy
      rcases List.mem_cons.mp hy with hy | hy
      · rw [hy]; exact hab
      · exact htrans a b y hab (hb y hy)

theorem isort_sorted (le : α → α → Bool)
    (htrans : ∀ a b c, le a b = true → le b c = true → le a c = true)
    (htot : ∀ a b, le a b = true ∨ le b a = true) (l : List α) :
    (isort le l).Pairwise (fun x y => le x y = true) := by
  suffices h : ∀ acc : List α,
      acc.Pairwise (fun x y => le x y = true) →
        (l.foldl (fun acc a => insertLe le a acc) acc).Pairwise
          (fun x y => le x y = true) by
    exact h [] (by simp)
  induction l with
  | nil => intro acc hacc; simpa using hacc
  | cons a rest ih =>
    intro acc hacc
    rw [List.foldl_cons]
    exact ih _ (insertLe_sorted le htrans htot a acc hacc)

theorem getU_all_empty (u : Util) (k : String)
    (h : ∀ l, (k, l) ∈ u → l = []) : getU u k = [] := by
  induction u with
  | nil => rfl
  | cons p rest ih =>
    by_cases hp : p.1 = k
    · have : p.2 = [] := h p.2 (by
        rw [← hp]
        exact List.mem_cons_self _ _)
      simp [getU, hp, this]
    · rw [show getU (p :: rest) k = getU rest k by simp [getU, hp]]
      exact ih (fun l hl => h l (List.mem_cons_of_mem _ hl))

theorem mem_itemsU (u : Util) (k : String) (l : List InstrState) :
    (k, l) ∈ itemsU u ↔ (k, l) ∈ u ∧ l ≠ [] := by
  simp [itemsU, List.mem_filter]

theorem itemsU_all_empty (u : Util) (h : ∀ p ∈ u, p.2 = []) :
    itemsU u = [] := by
  rw [itemsU, List.filter_eq_nil_iff]
  intro p hp
  simp [h p hp]

/-- C10: Looking up any key of a `BagValDict` whose entries for that key
are all empty is total and yields the empty list; items with empty value
lists are invisible to `items`, `len` and (both ways) to `__eq__`, so an
all-empty dictionary equals the empty one. -/
theorem bagValDict_empty_invisible :
    (∀ (u : Util) (k : String),
        (∀ l, (k, l) ∈ u → l = []) → getU u k = []) ∧
    (∀ (u : Util) (k : String) (l : List InstrState),
        (k, l) ∈ itemsU u ↔ (k, l) ∈ u ∧ l ≠ []) ∧
    (∀ u : Util, (∀ p ∈ u, p.2 = []) →
        lenU u = 0 ∧ itemsU u = [] ∧ utilEq u [] = true ∧
          utilEq [] u = true) := by
  refine ⟨getU_all_empty, mem_itemsU, fun u h => ?_⟩
  have hitems : itemsU u = [] := itemsU_all_empty u h
  have hlen : lenU u = 0 := by rw [lenU, hitems]; rfl
  refine ⟨hlen, hitems, ?_, ?_⟩
  · simp only [utilEq, hlen]
    rfl
  · simp only [utilEq, hlen, hitems]
    rfl

/-- Closed instance of `bagValDict_empty_invisible` at a concrete
dictionary holding only empty lists. -/
theorem bagValDict_empty_invisible_inst :
    getU [("a", []), ("b", [])] "a" = [] ∧
      lenU [("a", []), ("b", [])] = 0 ∧
      utilEq [("a", []), ("b", [])] [] = true ∧
      utilEq [] [("a", []), ("b", [])] = true := by
  have h := bagValDict_empty_invisible
  refine ⟨h.1 _ "a" (by intro l hl; simp at hl; tauto), ?_, ?_, ?_⟩
  · exact (h.2.2 _ (by decide)).1
  · exact (h.2.2 _ (by decide)).2.2.1
  · exact (h.2.2 _ (by decide)).2.2.2

theorem flattenQ_qAppend (q : RegAccessQueue) (t : AccessType) (i : Nat) :
    flattenQ (qAppend q t i) = flattenQ q ++ [(t, i)] := by
  induction q with
  | nil => cases t <;> rfl
  | cons g rest ih =>
    cases rest with
    | nil =>
      by_cases h1 : g.access_type = READ
      · by_cases h2 : t = READ
        · simp [qAppend, h1, h2, flattenQ]
        · have hb : ¬(g.access_type == READ && t == READ) = true := by
            simp [h1, h2]
          simp [qAppend, hb, flattenQ]
      · have hb : ¬(g.access_type == READ && t == READ) = true := by
          simp [h1]
        simp [qAppend, hb, flattenQ]
    | cons g' rest' =>
      rw [show qAppend (g :: g' :: rest') t i = g :: qAppend (g' :: rest') t i
        from rfl]
      simp only [flattenQ, List.flatMap_cons] at ih ⊢
      rw [ih]
      simp

theorem flatten_addRdAccess (regs : List String) (a : AccQueues) (r : String)
    (i : Nat) :
    flattenQ (addRdAccess i a regs r) =
      flattenQ (a r) ++
        (regs.filter (fun s => s = r)).map (fun _ => ((READ : AccessType), i))
    := by
  induction regs generalizing a with
  | nil => simp [addRdAccess]
  | cons s rest ih =>
    rw [addRdAccess, List.foldl_cons]
    rw [show List.foldl (fun acc r => updAcc acc r (qAppend (acc r) READ i))
        (updAcc a s (qAppend (a s) READ i)) rest =
      addRdAccess i (updAcc a s (qAppend (a s) READ i)) rest from rfl]
    rw [ih]
    by_cases hs : s = r
    · subst hs
      simp [updAcc, flattenQ_qAppend]
    · have hrs : ¬r = s := fun hh => hs hh.symm
      simp [updAcc, hrs, hs]

theorem flatten_addAccess (ins : HwInstruction) (i : Nat) (a : AccQueues)
    (r : String) :
    flattenQ (addAccess ins i a r) =
      flattenQ (a r) ++
        ((ins.sources.filter (fun s => s = r)).map
            (fun _ => ((READ : AccessType), i)) ++
          (if ins.destination = r then [((WRITE : AccessType), i)] else []))
    := by
  have hun : addAccess ins i a r =
      if r = ins.destination
      then qAppend (addRdAccess i a ins.sources ins.destination) WRITE i
      else addRdAccess i a ins.sources r := by
    rw [addAccess]
    rfl
  rw [hun]
  by_cases hd : r = ins.destination
  · rw [if_pos hd, flattenQ_qAppend, ← hd, flatten_addRdAccess]
    simp [hd.symm]
  · rw [if_neg hd, flatten_addRdAccess]
    have hdr : ¬ins.destination = r := fun hh => hd hh.symm
    simp [hdr]

theorem flatten_buildAux (prog : List HwInstruction) (n : Nat) (a : AccQueues)
    (r : String) :
    flattenQ ((prog.enumFrom n).foldl (fun a p => addAccess p.2 p.1 a) a r) =
      flattenQ (a r) ++
        (prog.enumFrom n).flatMap (fun p =>
          (p.2.sources.filter (fun s => s = r)).map
              (fun _ => ((READ : AccessType), p.1)) ++
            (if p.2.destination = r then [((WRITE : AccessType), p.1)]
              else [])) := by
  induction prog generalizing n a with
  | nil => simp
  | cons ins rest ih =>
    rw [List.enumFrom_cons, List.foldl_cons, ih, flatten_addAccess]
    simp

/-- C8: the access plan built by `_build_acc_plan` maps each register to
a queue whose front-to-back traversal lists exactly that register's
accesses in program order: for each instruction index in increasing
order, one READ per source occurrence, then the destination WRITE. -/
theorem buildAccPlan_traversal (prog : List HwInstruction) (r : String) :
    flattenQ (buildAccPlan prog r) = regAccesses prog r := by
  have h := flatten_buildAux prog 0 (fun _ => []) r
  have e1 : buildAccPlan prog r =
      (prog.enumFrom 0).foldl (fun a p => addAccess p.2 p.1 a) (fun _ => []) r
    := rfl
  have e2 : regAccesses prog r =
      (prog.enumFrom 0).flatMap (fun p =>
        (p.2.sources.filter (fun s => s = r)).map
            (fun _ => ((READ : AccessType), p.1)) ++
          (if p.2.destination = r then [((WRITE : AccessType), p.1)]
            else [])) := rfl
  rw [e1, e2, h]
  rfl

theorem eraseFold_map_succ (idxs : List Nat) (a : InstrState)
    (t : List InstrState) :
    (idxs.map Nat.succ).foldl (fun acc j => acc.eraseIdx j) (a :: t) =
      a :: idxs.foldl (fun acc j => acc.eraseIdx j) t := by
  induction idxs generalizing t with
  | nil => rfl
  | cons j rest ih =>
    rw [List.map_cons, List.foldl_cons, List.foldl_cons]
    rw [show (a :: t).eraseIdx j.succ = a :: t.eraseIdx j from rfl]
    exact ih _

theorem locateIdx_cons (p : InstrState → Bool) (a : InstrState)
    (t : List InstrState) :
    locateIdx p (a :: t) =
      (if p a then [0] else []) ++ (locateIdx p t).map Nat.succ := by
  rw [locateIdx, locateIdx, List.length_cons, List.range_succ_eq_map]
  rw [List.filter_cons, List.filter_map]
  have hc : (fun j => p ((a :: t).getD j dIS)) ∘ Nat.succ =
      fun j => p (t.getD j dIS) := by
    funext j
    rfl
  rw [hc]
  by_cases hp : p a
  · simp [hp]
  · simp [hp]

theorem eraseLocated (p : InstrState → Bool) (l : List InstrState) :
    ((locateIdx p l).reverse).foldl (fun acc j => acc.eraseIdx j) l =
      l.filter (fun x => !p x) := by
  induction l with
  | nil => rfl
  | cons a t ih =>
    rw [locateIdx_cons]
    by_cases hp : p a
    · rw [if_pos hp, List.reverse_append, List.foldl_append,
        ← List.map_reverse, eraseFold_map_succ, ih]
      simp [List.filter_cons, hp]
    · rw [if_neg hp]
      rw [List.nil_append, ← List.map_reverse, eraseFold_map_succ, ih]
      simp [List.filter_cons, hp]

theorem flushOutput_eq_filter (l : List InstrState) :
    flushOutput l = l.filter (fun s => s.stalled != NO_STALL) := by
  rw [flushOutput, eraseLocated]
  rfl

theorem flushOutputs_cons (o : UnitModel) (rest : List UnitModel)
    (u : Util) :
    flushOutputs (o :: rest) u =
      flushOutputs rest (setU u o.name (flushOutput (getU u o.name))) := rfl

theorem getU_flushOutputs (outs : List UnitModel) (u : Util) (k : String) :
    getU (flushOutputs outs u) k =
      if k ∈ outs.map (·.name)
      then (getU u k).filter (fun s => s.stalled != NO_STALL)
      else getU u k := by
  induction outs generalizing u with
  | nil => simp [flushOutputs]
  | cons o rest ih =>
    rw [flushOutputs_cons, ih, getU_setU]
    by_cases hko : k = o.name
    · have hmem : k ∈ (o :: rest).map (·.name) := by simp [hko]
      rw [if_pos hko, if_pos hmem]
      by_cases hk : k ∈ rest.map (·.name)
      · rw [if_pos hk, flushOutput_eq_filter, ← hko, List.filter_filter]
        apply List.filter_congr
        intro x _
        simp
      · rw [if_neg hk, flushOutput_eq_filter, ← hko]
    · rw [if_neg hko]
      by_cases hk : k ∈ rest.map (·.name)
      · have hmem : k ∈ (o :: rest).map (·.name) := by simp [hk]
        rw [if_pos hk, if_pos hmem]
      · have hmem : k ∉ (o :: rest).map (·.name) := by simp [hko, hk]
        rw [if_neg hk, if_neg hmem]

/-- C7: flushing at the start of a cycle removes, from every
output-boundary unit (the in-out ports and the models of the out
ports), exactly the NO_STALL instructions — STRUCTURAL and DATA entries
remain in order — and leaves every other key of the utilization
untouched. -/
theorem flush_phase_spec (proc : ProcessorDesc) (util : Util) :
    (∀ u ∈ getOutPorts proc,
        getU (flushOutputs (getOutPorts proc) util) u.name =
          (getU util u.name).filter (fun s => s.stalled != NO_STALL)) ∧
    (∀ k, k ∉ (getOutPorts proc).map (·.name) →
        getU (flushOutputs (getOutPorts proc) util) k = getU util k) ∧
    getOutPorts proc = proc.in_out_ports ++ proc.out_ports.map (·.model)
    := by
  refine ⟨?_, ?_, rfl⟩
  · intro u hu
    rw [getU_flushOutputs, if_pos (List.mem_map_of_mem (·.name) hu)]
  · intro k hk
    rw [getU_flushOutputs, if_neg hk]

/-- Closed instance of `flush_phase_spec`: flushing `procS1` removes the
retired NO_STALL instruction from `fullSys` and keeps a stalled one. -/
theorem flush_phase_spec_inst :
    getU (flushOutputs (getOutPorts procS1)
        [("fullSys", [⟨0, NO_STALL⟩, ⟨1, STRUCTURAL⟩])]) "fullSys" =
      [⟨1, STRUCTURAL⟩] ∧
    getU (flushOutputs (getOutPorts procS1)
        [("fullSys", [⟨0, NO_STALL⟩, ⟨1, STRUCTURAL⟩])]) "elsewhere" =
      getU [("fullSys", [⟨0, NO_STALL⟩, ⟨1, STRUCTURAL⟩])] "elsewhere" := by
  constructor
  · rw [show ("fullSys" : String) = fullSys.name from rfl,
      (flush_phase_spec procS1 _).1 fullSys (by decide)]
    decide
  · exact (flush_phase_spec procS1 _).2.1 "elsewhere" (by decide)

theorem getLast?_eq_getLastD (l : List Util) (h : l ≠ []) :
    l.getLast? = some (l.getLastD []) := by
  induction l with
  | nil => exact absurd rfl h
  | cons a t ih =>
    cases t with
    | nil => rfl
    | cons b t' =>
      rw [List.getLast?_cons_cons, ih (by simp)]
      congr 1

theorem runCycle_unfold (proc : ProcessorDesc) (prog : List HwInstruction)
    (st : SimState) :
    runCycle proc prog st =
      if utilEq (computeCp proc prog st).1 (st.utilTbl.getLastD [])
      then Except.error st.utilTbl
      else Except.ok
        { utilTbl := st.utilTbl ++ [(computeCp proc prog st).1]
          acc := (computeCp proc prog st).2.1
          entered := (computeCp proc prog st).2.2
          exited := st.exited +
            countOutputs (getOutPorts proc) (computeCp proc prog st).1 } := rfl

/-- C1: whenever the cycle's freshly computed utilization compares equal
(`BagValDict.__eq__`) to the previous cycle's recorded entry, the
simulation loop raises `StallError` instead of returning, and the
error's `processor_state` is the whole utilization table accumulated so
far — whose last entry is exactly the stalled cycle's utilization. -/
theorem full_stall_raises (proc : ProcessorDesc) (prog : List HwInstruction)
    (st : SimState) (fuel : Nat)
    (hloop : loopCond prog.length st = true)
    (hne : st.utilTbl ≠ [])
    (heq : utilEq (computeCp proc prog st).1 (st.utilTbl.getLastD []) = true) :
    simSteps proc prog (fuel + 1) st = .stalled st.utilTbl ∧
    ∃ lastE, st.utilTbl.getLast? = some lastE ∧
      utilEq (computeCp proc prog st).1 lastE = true := by
  have hrc : runCycle proc prog st = Except.error st.utilTbl := by
    rw [runCycle_unfold, if_pos heq]
  constructor
  · rw [simSteps, if_pos hloop, hrc]
  · exact ⟨st.utilTbl.getLastD [], getLast?_eq_getLastD _ hne, heq⟩

/-- Closed instance of `full_stall_raises`: a processor with no units
and a pending instruction stalls immediately after the first recorded
(empty) cycle, carrying the table built so far. -/
theorem full_stall_raises_inst :
    simSteps (⟨[], [], [], []⟩ : ProcessorDesc) progS1 1
      ⟨[[]], fun _ => [], 0, 0⟩ = SimResult.stalled [[]] :=
  (full_stall_raises ⟨[], [], [], []⟩ progS1 ⟨[[]], fun _ => [], 0, 0⟩ 0
    (by decide) (by decide) (by decide)).1

theorem runCycle_chain (proc : ProcessorDesc) (prog : List HwInstruction)
    (st st' : SimState) (h : runCycle proc prog st = .ok st')
    (hch : List.Chain' (fun a b => utilEq b a = false) st.utilTbl) :
    List.Chain' (fun a b => utilEq b a = false) st'.utilTbl := by
  rw [runCycle_unfold] at h
  by_cases hstall :
      utilEq (computeCp proc prog st).1 (st.utilTbl.getLastD []) = true
  · rw [if_pos hstall] at h
    exact absurd h (by simp)
  · rw [if_neg hstall] at h
    have hst : st'.utilTbl = st.utilTbl ++ [(computeCp proc prog st).1] := by
      cases h
      rfl
    rw [hst]
    refine List.chain'_append.mpr ⟨hch, by simp, ?_⟩
    intro x hx y hy
    have hne : st.utilTbl ≠ [] := by
      intro hnil
      rw [hnil] at hx
      exact absurd hx (by simp)
    rw [getLast?_eq_getLastD _ hne] at hx
    have hx' : x = st.utilTbl.getLastD [] := by
      injection hx with hh
      exact hh.symm
    have hy' : y = (computeCp proc prog st).1 := by
      simp at hy
      exact hy.symm
    rw [hx', hy']
    cases hval : utilEq (computeCp proc prog st).1 (st.utilTbl.getLastD [])
      with
    | false => rfl
    | true => exact absurd hval hstall

theorem simSteps_chain (proc : ProcessorDesc) (prog : List HwInstruction) :
    ∀ (fuel : Nat) (st st' : SimState),
      List.Chain' (fun a b => utilEq b a = false) st.utilTbl →
      simSteps proc prog fuel st = .done st' →
      List.Chain' (fun a b => utilEq b a = false) st'.utilTbl := by
  intro fuel
  induction fuel with
  | zero =>
    intro st st' hch h
    rw [simSteps] at h
    by_cases hl : loopCond prog.length st = true
    · rw [if_pos hl] at h
      exact absurd h (by simp)
    · rw [if_neg hl] at h
      cases h
      exact hch
  | succ fuel ih =>
    intro st st' hch h
    rw [simSteps] at h
    by_cases hl : loopCond prog.length st = true
    · rw [if_pos hl] at h
      cases hrc : runCycle proc prog st with
      | error tbl =>
        rw [hrc] at h
        exact absurd h (by simp)
      | ok st1 =>
        rw [hrc] at h
        exact ih st1 st' (runCycle_chain proc prog st st1 hrc hch) h
    · rw [if_neg hl] at h
      cases h
      exact hch

/-- C9: in the utilization table returned by a successful `simulate`
call no two consecutive entries are equal under `BagValDict` equality —
every recorded cycle changes the utilization of some unit. -/
theorem simulate_no_repeated_entries (proc : ProcessorDesc)
    (prog : List HwInstruction) (fuel : Nat) (tbl : List Util)
    (h : resultTable (simulate proc prog fuel) = some tbl) :
    List.Chain' (fun a b => utilEq b a = false) tbl := by
  cases hres : simulate proc prog fuel with
  | done st' =>
    rw [hres] at h
    have htbl : st'.utilTbl = tbl := Option.some.inj h
    rw [← htbl]
    exact simSteps_chain proc prog fuel (initState prog) st'
      (by simp [initState]) hres
  | stalled t =>
    rw [hres] at h
    exact absurd h (by simp [resultTable])
  | out st1 =>
    rw [hres] at h
    exact absurd h (by simp [resultTable])

/-- Closed instance of `simulate_no_repeated_entries` on the
single-unit, single-instruction run. -/
theorem simulate_no_repeated_entries_inst :
    List.Chain' (fun a b => utilEq b a = false)
      [[("fullSys", [⟨0, NO_STALL⟩])]] :=
  simulate_no_repeated_entries procS1 progS1 2
    [[("fullSys", [⟨0, NO_STALL⟩])]] (by decide)

theorem regsAvail_fst (locks : LockInfo) (i : Nat) (ins : HwInstruction)
    (acc : AccQueues) :
    (regsAvail locks i ins acc).1 =
      (chkAvailRegs acc locks.rd_lock ins.sources READ i &&
        chkAvailRegs acc locks.wr_lock [ins.destination] WRITE i) := by
  cases hc : (chkAvailRegs acc locks.rd_lock ins.sources READ i &&
      chkAvailRegs acc locks.wr_lock [ins.destination] WRITE i) with
  | true => rw [regsAvail, if_pos hc]
  | false =>
    rw [regsAvail, if_neg (by rw [hc]; exact Bool.false_ne_true)]

theorem regsAvail_snd (locks : LockInfo) (i : Nat) (ins : HwInstruction)
    (acc : AccQueues) :
    (regsAvail locks i ins acc).2 =
      if (regsAvail locks i ins acc).1
      then (if locks.rd_lock then ins.sources else []) ++
        (if locks.wr_lock then [ins.destination] else [])
      else [] := by
  cases hc : (chkAvailRegs acc locks.rd_lock ins.sources READ i &&
      chkAvailRegs acc locks.wr_lock [ins.destination] WRITE i) with
  | true =>
    rw [regsAvail, if_pos hc]
    simp
  | false =>
    rw [regsAvail, if_neg (by rw [hc]; exact Bool.false_ne_true)]
    simp

theorem stallSpec_eq_code (locks : LockInfo) (oldL : List InstrState)
    (prog : List HwInstruction) (acc : AccQueues) (i : Nat) :
    stallSpec locks oldL prog acc i =
      if regsLoaded oldL i then STRUCTURAL
      else if (regsAvail locks i (prog.getD i dHw) acc).1 then NO_STALL
      else DATA := by
  rw [stallSpec, regsLoaded, regsAvail_fst]
  by_cases hl : oldL.any (fun o => o.instr == i && o.stalled != DATA) = true
  · rw [if_pos hl, if_pos hl]
  · rw [if_neg hl, if_neg hl]
    simp only [chkAvailRegs, List.all_cons, List.all_nil, Bool.and_true]
    generalize ((prog.getD i dHw).sources.all
      fun r => canAccess (acc r) READ i) = A
    generalize canAccess (acc (prog.getD i dHw).destination) WRITE i = B
    cases locks.rd_lock <;> cases locks.wr_lock <;> cases A <;> cases B <;>
      simp

theorem grantsOf_eq_code (locks : LockInfo) (oldL : List InstrState)
    (prog : List HwInstruction) (acc : AccQueues) (i : Nat) :
    grantsOf locks oldL prog acc i =
      if regsLoaded oldL i then []
      else if (regsAvail locks i (prog.getD i dHw) acc).1
      then (regsAvail locks i (prog.getD i dHw) acc).2
      else [] := rfl

theorem stallUnit_fst (locks : LockInfo) (oldL : List InstrState)
    (prog : List HwInstruction) (acc : AccQueues) (l : List InstrState)
    (reqs : Clears) :
    (stallUnit locks oldL prog acc l reqs).1 =
      l.map (fun s =>
        (⟨s.instr, stallSpec locks oldL prog acc s.instr⟩ : InstrState)) := by
  induction l generalizing reqs with
  | nil => rfl
  | cons s rest ih =>
    rw [stallUnit, List.map_cons]
    by_cases hl : regsLoaded oldL s.instr = true
    · rw [if_pos hl]
      show (⟨s.instr, STRUCTURAL⟩ : InstrState) ::
          (stallUnit locks oldL prog acc rest reqs).1 = _
      rw [ih, stallSpec_eq_code, if_pos hl]
    · rw [if_neg hl]
      show (⟨s.instr, (chkDataStall locks s.instr (prog.getD s.instr dHw) acc
            reqs).1⟩ : InstrState) ::
          (stallUnit locks oldL prog acc rest
            (chkDataStall locks s.instr (prog.getD s.instr dHw) acc
              reqs).2).1 = _
      rw [ih, stallSpec_eq_code, if_neg hl]
      have hhead : (chkDataStall locks s.instr (prog.getD s.instr dHw) acc
          reqs).1 =
          (if (regsAvail locks s.instr (prog.getD s.instr dHw) acc).1
            then NO_STALL else DATA) := by
        rw [chkDataStall]
        by_cases hav :
            (regsAvail locks s.instr (prog.getD s.instr dHw) acc).1 = true
        · rw [if_pos hav, if_pos hav]
        · rw [if_neg hav, if_neg hav]
      rw [hhead]

theorem stallUnit_snd (locks : LockInfo) (oldL : List InstrState)
    (prog : List HwInstruction) (acc : AccQueues) (l : List InstrState)
    (reqs : Clears) :
    (stallUnit locks oldL prog acc l reqs).2 =
      l.foldl (fun rq s =>
        updateClears rq (grantsOf locks oldL prog acc s.instr) s.instr)
        reqs := by
  induction l generalizing reqs with
  | nil => rfl
  | cons s rest ih =>
    rw [List.foldl_cons, stallUnit]
    by_cases hl : regsLoaded oldL s.instr = true
    · rw [if_pos hl]
      show (stallUnit locks oldL prog acc rest reqs).2 = _
      rw [ih]
      have hg : grantsOf locks oldL prog acc s.instr = [] := by
        rw [grantsOf_eq_code, if_pos hl]
      rw [hg]
      rfl
    · rw [if_neg hl]
      show (stallUnit locks oldL prog acc rest
        (chkDataStall locks s.instr (prog.getD s.instr dHw) acc
          reqs).2).2 = _
      rw [ih]
      congr 1
      have hg : grantsOf locks oldL prog acc s.instr =
          (if (regsAvail locks s.instr (prog.getD s.instr dHw) acc).1
            then (regsAvail locks s.instr (prog.getD s.instr dHw) acc).2
            else []) := by
        rw [grantsOf_eq_code, if_neg hl]
      rw [hg, chkDataStall]
      by_cases hav :
          (regsAvail locks s.instr (prog.getD s.instr dHw) acc).1 = true
      · rw [if_pos hav, if_pos hav]
      · rw [if_neg hav, if_neg hav]
        rfl

theorem getU_of_mem_nodup (u : Util) (k : String) (l : List InstrState)
    (hmem : (k, l) ∈ u) (hnd : NodupKeys u) : getU u k = l := by
  induction u with
  | nil => exact absurd hmem (by simp)
  | cons p rest ih =>
    rcases List.mem_cons.mp hmem with h | h
    · rw [← h]
      simp [getU]
    · have hk : p.1 ≠ k := by
        intro he
        have : k ∈ rest.map Prod.fst := by
          exact List.mem_map_of_mem Prod.fst h
        rw [NodupKeys, List.map_cons, List.nodup_cons] at hnd
        exact hnd.1 (he ▸ this)
      rw [show getU (p :: rest) k = getU rest k by simp [getU, hk]]
      exact ih h (by
        rw [NodupKeys, List.map_cons, List.nodup_cons] at hnd
        exact hnd.2)

theorem mem_of_getU_ne (u : Util) (k : String) (h : getU u k ≠ []) :
    (k, getU u k) ∈ u := by
  induction u with
  | nil => exact absurd rfl h
  | cons p rest ih =>
    by_cases hp : p.1 = k
    · rw [show getU (p :: rest) k = p.2 by simp [getU, hp]]
      have he : (k, p.2) = p := by rw [← hp]
      rw [he]
      exact List.mem_cons_self _ _
    · rw [show getU (p :: rest) k = getU rest k by simp [getU, hp]] at h ⊢
      exact List.mem_cons_of_mem _ (ih h)

theorem notMem_keys_getU (u : Util) (k : String)
    (h : k ∉ (itemsU u).map Prod.fst) : getU u k = [] := by
  by_cases he : getU u k = []
  · exact he
  · have hmem : (k, getU u k) ∈ u := mem_of_getU_ne u k he
    have : (k, getU u k) ∈ itemsU u := (mem_itemsU u k _).mpr ⟨hmem, he⟩
    exact absurd (List.mem_map_of_mem Prod.fst this) h

theorem hazard_fold_getU (oldU : Util) (numap : String → UnitModel)
    (prog : List HwInstruction) (acc : AccQueues) (cp : Util) :
    ∀ (kvs : List (String × List InstrState)) (u0 : Util) (rq0 : Clears),
      (kvs.map Prod.fst).Nodup →
      (∀ kv ∈ kvs, getU cp kv.1 = kv.2) →
      ∀ k, getU ((kvs.foldl
          (fun (p : Util × Clears) kv =>
            let r := stallUnit (numap kv.1).lock_info (getU oldU kv.1) prog
              acc kv.2 p.2
            (setU p.1 kv.1 r.1, r.2)) (u0, rq0)).1) k =
        if k ∈ kvs.map Prod.fst
        then (getU cp k).map (fun s =>
          (⟨s.instr, stallSpec (numap k).lock_info (getU oldU k) prog acc
            s.instr⟩ : InstrState))
        else getU u0 k := by
  intro kvs
  induction kvs with
  | nil =>
    intro u0 rq0 _ _ k
    simp
  | cons kv rest ih =>
    intro u0 rq0 hnd hvals k
    rw [List.foldl_cons]
    have hndr : (rest.map Prod.fst).Nodup := by
      rw [List.map_cons, List.nodup_cons] at hnd
      exact hnd.2
    have hkv : kv.1 ∉ rest.map Prod.fst := by
      rw [List.map_cons, List.nodup_cons] at hnd
      exact hnd.1
    rw [ih _ _ hndr (fun p hp => hvals p (List.mem_cons_of_mem _ hp)) k]
    by_cases hkr : k ∈ rest.map Prod.fst
    · rw [if_pos hkr, if_pos (by simp [hkr])]
    · rw [if_neg hkr]
      by_cases hk : k = kv.1
      · rw [if_pos (by simp [hk])]
        rw [hk, getU_setU_self, stallUnit_fst, hvals kv (by simp)]
      · rw [if_neg (by simp [hk, hkr])]
        exact getU_setU_ne u0 _ hk

theorem hazard_fold_snd (oldU : Util) (numap : String → UnitModel)
    (prog : List HwInstruction) (acc : AccQueues) :
    ∀ (kvs : List (String × List InstrState)) (u0 : Util) (rq0 : Clears),
      ((kvs.foldl
          (fun (p : Util × Clears) kv =>
            let r := stallUnit (numap kv.1).lock_info (getU oldU kv.1) prog
              acc kv.2 p.2
            (setU p.1 kv.1 r.1, r.2)) (u0, rq0)).2) =
        kvs.foldl (fun rq kv => kv.2.foldl
          (fun rq' s => updateClears rq'
            (grantsOf (numap kv.1).lock_info (getU oldU kv.1) prog acc
              s.instr) s.instr) rq) rq0 := by
  intro kvs
  induction kvs with
  | nil => intro u0 rq0; rfl
  | cons kv rest ih =>
    intro u0 rq0
    rw [List.foldl_cons, List.foldl_cons]
    rw [ih]
    congr 1
    exact stallUnit_snd _ _ _ _ _ _

theorem getC_setdefAppend (c : Clears) (r r' : String) (i : Nat) :
    getC (setdefAppend c r i) r' =
      if r' = r then getC c r' ++ [i] else getC c r' := by
  induction c with
  | nil =>
    by_cases h : r' = r
    · simp [setdefAppend, getC, h]
    · have hrr : ¬r = r' := fun hh => h hh.symm
      simp [setdefAppend, getC, h, hrr]
  | cons p rest ih =>
    by_cases hp : p.1 = r
    · rw [show setdefAppend (p :: rest) r i = (p.1, p.2 ++ [i]) :: rest by
        simp [setdefAppend, hp]]
      by_cases h : r' = r
      · rw [if_pos h]
        have hpr : p.1 = r' := by rw [hp, h]
        simp [getC, hpr]
      · have hpr : ¬p.1 = r' := by rw [hp]; exact fun hh => h hh.symm
        simp [getC, hpr, h]
    · rw [show setdefAppend (p :: rest) r i = p :: setdefAppend rest r i by
        simp [setdefAppend, hp]]
      by_cases hpr : p.1 = r'
      · have h : ¬r' = r := by rw [← hpr]; exact fun hh => hp hh
        simp [getC, hpr, h]
      · simp [getC, hpr, ih]

theorem getC_updateClears (regs : List String) (c : Clears) (r : String)
    (i : Nat) :
    getC (updateClears c regs i) r =
      getC c r ++ (regs.filter (fun s => s = r)).map (fun _ => i) := by
  induction regs generalizing c with
  | nil => simp [updateClears]
  | cons s rest ih =>
    rw [updateClears, List.foldl_cons,
      show List.foldl (fun rs r => setdefAppend rs r i) (setdefAppend c s i)
        rest = updateClears (setdefAppend c s i) rest i from rfl, ih,
      getC_setdefAppend]
    by_cases hs : s = r
    · rw [if_pos (hs.symm ▸ rfl : r = s)]
      simp [hs]
    · rw [if_neg (fun hh => hs hh.symm)]
      simp [hs]

theorem mem_keys_setdefAppend (c : Clears) (r : String) (i : Nat)
    (x : String) :
    x ∈ (setdefAppend c r i).map Prod.fst ↔ x ∈ c.map Prod.fst ∨ x = r := by
  induction c with
  | nil => simp [setdefAppend]
  | cons p rest ih =>
    by_cases hp : p.1 = r
    · rw [show setdefAppend (p :: rest) r i = (p.1, p.2 ++ [i]) :: rest by
        simp [setdefAppend, hp]]
      simp only [List.map_cons, List.mem_cons]
      constructor
      · intro h
        rcases h with h | h
        · exact Or.inl (Or.inl h)
        · exact Or.inl (Or.inr h)
      · intro h
        rcases h with (h | h) | h
        · exact Or.inl h
        · exact Or.inr h
        · exact Or.inl (by rw [h, hp])
    · rw [show setdefAppend (p :: rest) r i = p :: setdefAppend rest r i by
        simp [setdefAppend, hp]]
      simp only [List.map_cons, List.mem_cons, ih]
      tauto

theorem nodupC_setdefAppend : ∀ (c : Clears) (r : String) (i : Nat),
    NodupC c → NodupC (setdefAppend c r i) := by
  intro c r i
  unfold NodupC
  induction c with
  | nil =>
    intro _
    simp [setdefAppend]
  | cons p rest ih =>
    intro h
    by_cases hp : p.1 = r
    · rw [show setdefAppend (p :: rest) r i = (p.1, p.2 ++ [i]) :: rest by
        simp [setdefAppend, hp]]
      simpa using h
    · rw [show setdefAppend (p :: rest) r i = p :: setdefAppend rest r i by
        simp [setdefAppend, hp]]
      simp only [List.map_cons, List.nodup_cons] at h ⊢
      refine ⟨?_, ih h.2⟩
      intro hmem
      rcases (mem_keys_setdefAppend rest r i p.1).mp hmem with hm | hm
      · exact h.1 hm
      · exact hp hm

theorem nodupC_updateClears (regs : List String) (c : Clears) (i : Nat)
    (h : NodupC c) : NodupC (updateClears c regs i) := by
  induction regs generalizing c with
  | nil => exact h
  | cons s rest ih =>
    rw [updateClears, List.foldl_cons]
    exact ih _ (nodupC_setdefAppend c s i h)

theorem applyClears_group (l0 : List Nat) (a : AccQueues) (r0 r : String) :
    (l0.foldl (fun a' i => updAcc a' r0 (dequeue (a' r0) i)) a) r =
      if r = r0 then l0.foldl (fun q i => dequeue q i) (a r0) else a r := by
  induction l0 generalizing a with
  | nil =>
    by_cases h : r = r0
    · rw [if_pos h, h]
      rfl
    · rw [if_neg h]
      rfl
  | cons i rest ih =>
    rw [List.foldl_cons, ih, List.foldl_cons]
    by_cases h : r = r0
    · rw [if_pos h, if_pos h]
      congr 1
      simp [updAcc]
    · rw [if_neg h, if_neg h]
      simp [updAcc, h]

theorem getC_eq_nil_of_not_mem (c : Clears) (r : String)
    (h : r ∉ c.map Prod.fst) : getC c r = [] := by
  induction c with
  | nil => rfl
  | cons p rest ih =>
    have hp : ¬p.1 = r := by
      intro he
      exact h (by simp [he])
    rw [show getC (p :: rest) r = getC rest r by simp [getC, hp]]
    exact ih (fun hm => h (by simp [hm]))

theorem applyClears_getC (c : Clears) (a : AccQueues) (hnd : NodupC c)
    (r : String) :
    applyClears c a r =
      (getC c r).foldl (fun q i => dequeue q i) (a r) := by
  induction c generalizing a with
  | nil => rfl
  | cons p rest ih =>
    rw [applyClears, List.foldl_cons,
      show List.foldl (fun a kv => kv.2.foldl
        (fun a' i => updAcc a' kv.1 (dequeue (a' kv.1) i)) a)
        (p.2.foldl (fun a' i => updAcc a' p.1 (dequeue (a' p.1) i)) a) rest =
        applyClears rest
          (p.2.foldl (fun a' i => updAcc a' p.1 (dequeue (a' p.1) i)) a)
        from rfl]
    rw [NodupC, List.map_cons, List.nodup_cons] at hnd
    rw [ih _ hnd.2, applyClears_group]
    by_cases h : r = p.1
    · rw [if_pos h]
      have hg : getC rest r = [] :=
        getC_eq_nil_of_not_mem rest r (h ▸ hnd.1)
      rw [hg, List.foldl_nil,
        show getC (p :: rest) r = p.2 by simp [getC, h.symm], h]
    · rw [if_neg h]
      have hpr : ¬p.1 = r := fun hh => h hh.symm
      rw [show getC (p :: rest) r = getC rest r by simp [getC, hpr]]

theorem getC_unitFold (locks : LockInfo) (oldL : List InstrState)
    (prog : List HwInstruction) (acc : AccQueues) (l : List InstrState)
    (c : Clears) (r : String) :
    getC (l.foldl (fun rq' s =>
        updateClears rq' (grantsOf locks oldL prog acc s.instr) s.instr) c)
      r =
      getC c r ++ l.flatMap (fun s =>
        ((grantsOf locks oldL prog acc s.instr).filter
            (fun x => x = r)).map (fun _ => s.instr)) := by
  induction l generalizing c with
  | nil => simp
  | cons s rest ih =>
    rw [List.foldl_cons, ih, getC_updateClears]
    simp

theorem nodupC_unitFold (locks : LockInfo) (oldL : List InstrState)
    (prog : List HwInstruction) (acc : AccQueues) (l : List InstrState)
    (c : Clears) (h : NodupC c) :
    NodupC (l.foldl (fun rq' s =>
      updateClears rq' (grantsOf locks oldL prog acc s.instr) s.instr) c)
    := by
  induction l generalizing c with
  | nil => exact h
  | cons s rest ih =>
    rw [List.foldl_cons]
    exact ih _ (nodupC_updateClears _ _ _ h)

theorem getC_hazFold (oldU : Util) (numap : String → UnitModel)
    (prog : List HwInstruction) (acc : AccQueues)
    (kvs : List (String × List InstrState)) (c : Clears) (r : String) :
    getC (kvs.foldl (fun rq kv => kv.2.foldl
        (fun rq' s => updateClears rq'
          (grantsOf (numap kv.1).lock_info (getU oldU kv.1) prog acc
            s.instr) s.instr) rq) c) r =
      getC c r ++ kvs.flatMap (fun kv => kv.2.flatMap (fun s =>
        ((grantsOf (numap kv.1).lock_info (getU oldU kv.1) prog acc
            s.instr).filter (fun x => x = r)).map (fun _ => s.instr))) := by
  induction kvs generalizing c with
  | nil => simp
  | cons kv rest ih =>
    rw [List.foldl_cons, ih, getC_unitFold]
    simp

theorem nodupC_hazFold (oldU : Util) (numap : String → UnitModel)
    (prog : List HwInstruction) (acc : AccQueues)
    (kvs : List (String × List InstrState)) (c : Clears) (h : NodupC c) :
    NodupC (kvs.foldl (fun rq kv => kv.2.foldl
      (fun rq' s => updateClears rq'
        (grantsOf (numap kv.1).lock_info (getU oldU kv.1) prog acc
          s.instr) s.instr) rq) c) := by
  induction kvs generalizing c with
  | nil => exact h
  | cons kv rest ih =>
    rw [List.foldl_cons]
    exact ih _ (nodupC_unitFold _ _ _ _ _ _ h)

theorem filterMap_grants (grants : List String) (i : Nat) (r : String) :
    (grants.map (fun x => (x, i))).filterMap
        (fun p => if p.1 = r then some p.2 else none) =
      (grants.filter (fun x => x = r)).map (fun _ => i) := by
  induction grants with
  | nil => rfl
  | cons g gs ih =>
    rw [List.map_cons, List.filterMap_cons, List.filter_cons]
    by_cases hg : g = r
    · simp only [hg, if_pos rfl]
      rw [ih]
      simp
    · simp only [if_neg hg]
      rw [ih]
      simp [hg]

theorem filterMap_grantsList (oldU cp : Util) (numap : String → UnitModel)
    (prog : List HwInstruction) (acc : AccQueues) (r : String) :
    (grantsList oldU cp numap prog acc).filterMap
        (fun p => if p.1 = r then some p.2 else none) =
      (itemsU cp).flatMap (fun kv => kv.2.flatMap (fun s =>
        ((grantsOf (numap kv.1).lock_info (getU oldU kv.1) prog acc
            s.instr).filter (fun x => x = r)).map (fun _ => s.instr))) := by
  rw [grantsList]
  induction itemsU cp with
  | nil => rfl
  | cons kv rest ih =>
    rw [List.flatMap_cons, List.flatMap_cons, List.filterMap_append, ih]
    congr 1
    induction kv.2 with
    | nil => rfl
    | cons s l ihl =>
      rw [List.flatMap_cons, List.flatMap_cons, List.filterMap_append, ihl]
      congr 1
      exact filterMap_grants _ _ _

theorem chkHazards_getU (oldU cp : Util) (numap : String → UnitModel)
    (prog : List HwInstruction) (acc : AccQueues) (hnd : NodupKeys cp)
    (k : String) :
    getU (chkHazards oldU cp numap prog acc).1 k =
      (getU cp k).map (fun s =>
        (⟨s.instr, stallSpec (numap k).lock_info (getU oldU k) prog acc
          s.instr⟩ : InstrState)) := by
  have hkeys : ((itemsU cp).map Prod.fst).Nodup := by
    have hsub : (itemsU cp).Sublist cp := List.filter_sublist cp
    exact List.Nodup.sublist (hsub.map Prod.fst) hnd
  have hvals : ∀ kv ∈ itemsU cp, getU cp kv.1 = kv.2 := by
    intro kv hkv
    obtain ⟨kk, ll⟩ := kv
    exact getU_of_mem_nodup cp kk ll ((mem_itemsU cp kk ll).mp hkv).1 hnd
  have h := hazard_fold_getU oldU numap prog acc cp (itemsU cp) cp []
    hkeys hvals k
  rw [show (chkHazards oldU cp numap prog acc).1 =
    ((itemsU cp).foldl
      (fun (p : Util × Clears) kv =>
        let r := stallUnit (numap kv.1).lock_info (getU oldU kv.1) prog
          acc kv.2 p.2
        (setU p.1 kv.1 r.1, r.2)) (cp, [])).1 from rfl, h]
  by_cases hk : k ∈ (itemsU cp).map Prod.fst
  · rw [if_pos hk]
  · rw [if_neg hk, notMem_keys_getU cp k hk]
    rfl

/-- C5: hazard marking assigns every hosted instruction exactly the
state the specification prescribes — STRUCTURAL when the instruction
sat in the same unit last pulse in a non-DATA state, otherwise DATA
exactly when a held lock's queue head cannot grant the instruction's
request, otherwise NO_STALL — and after the whole walk the granted
requests (and only those) are dequeued, per register in walk order. -/
theorem hazard_marking_spec (oldU cp : Util) (numap : String → UnitModel)
    (prog : List HwInstruction) (acc : AccQueues) (hnd : NodupKeys cp) :
    (∀ k, getU (chkHazards oldU cp numap prog acc).1 k =
      (getU cp k).map (fun s =>
        (⟨s.instr, stallSpec (numap k).lock_info (getU oldU k) prog acc
          s.instr⟩ : InstrState))) ∧
    (∀ r, (chkHazards oldU cp numap prog acc).2 r =
      ((grantsList oldU cp numap prog acc).filterMap
          (fun p => if p.1 = r then some p.2 else none)).foldl
        (fun q i => dequeue q i) (acc r)) := by
  have hkeys : ((itemsU cp).map Prod.fst).Nodup := by
    have hsub : (itemsU cp).Sublist cp := List.filter_sublist cp
    exact List.Nodup.sublist (hsub.map Prod.fst) hnd
  have hvals : ∀ kv ∈ itemsU cp, getU cp kv.1 = kv.2 := by
    intro kv hkv
    obtain ⟨kk, ll⟩ := kv
    exact getU_of_mem_nodup cp kk ll ((mem_itemsU cp kk ll).mp hkv).1 hnd
  constructor
  · intro k
    exact chkHazards_getU oldU cp numap prog acc hnd k
  · intro r
    have h2 := hazard_fold_snd oldU numap prog acc (itemsU cp) cp []
    rw [show (chkHazards oldU cp numap prog acc).2 =
      applyClears (((itemsU cp).foldl
        (fun (p : Util × Clears) kv =>
          let r := stallUnit (numap kv.1).lock_info (getU oldU kv.1) prog
            acc kv.2 p.2
          (setU p.1 kv.1 r.1, r.2)) (cp, []))).2 acc from rfl, h2]
    rw [applyClears_getC _ acc
      (nodupC_hazFold oldU numap prog acc (itemsU cp) [] (by simp [NodupC]))
      r]
    congr 1
    rw [getC_hazFold, filterMap_grantsList]
    rfl

/-- Closed instance of `hazard_marking_spec`: with a write-after-write
plan on R1, the first instruction stays NO_STALL and its W-grant on R1
is dequeued, while the dependent reader is marked DATA. -/
theorem hazard_marking_spec_inst :
    getU (chkHazards [] [("fullSys", [⟨0, NO_STALL⟩, ⟨1, NO_STALL⟩])]
        (nameUnitMap procS1) progDep (buildAccPlan progDep)).1 "fullSys" =
      [⟨0, NO_STALL⟩, ⟨1, DATA⟩] ∧
    (chkHazards [] [("fullSys", [⟨0, NO_STALL⟩, ⟨1, NO_STALL⟩])]
        (nameUnitMap procS1) progDep (buildAccPlan progDep)).2 "R1" =
      [⟨READ, [1]⟩] := by
  have h := hazard_marking_spec [] [("fullSys", [⟨0, NO_STALL⟩, ⟨1, NO_STALL⟩])]
    (nameUnitMap procS1) progDep (buildAccPlan progDep) (by simp [NodupKeys])
  constructor
  · rw [h.1 "fullSys"]
    decide
  · rw [h.2 "R1"]
    decide

theorem locateIdx_enumFrom (p : InstrState → Bool) :
    ∀ (l : List InstrState) (n : Nat),
      ((l.enumFrom n).filter (fun js => p js.2)).map Prod.fst =
        (locateIdx p l).map (· + n) := by
  intro l
  induction l with
  | nil => intro n; rfl
  | cons a t ih =>
    intro n
    rw [List.enumFrom_cons, List.filter_cons, locateIdx_cons]
    have hc : (((· + n) : Nat → Nat) ∘ Nat.succ) =
        ((· + (n + 1)) : Nat → Nat) := by
      funext j
      simp only [Function.comp]
      omega
    by_cases hp : p a
    · rw [if_pos hp, if_pos hp, List.map_cons, List.map_append,
        List.map_map, ih (n + 1), hc]
      simp
    · rw [if_neg hp, if_neg hp, List.nil_append, List.map_map, ih (n + 1),
        hc]

theorem candFilter_eq_spec (prog : List HwInstruction) (caps : List String)
    (x : InstrState) :
    candFilter prog caps x =
      decide (x.stalled ≠ DATA ∧ (prog.getD x.instr dHw).categ ∈ caps) := by
  rw [candFilter]
  by_cases h1 : x.stalled = DATA
  · simp [h1]
  · by_cases h2 : (prog.getD x.instr dHw).categ ∈ caps
    · simp [h1, h2]
    · simp [h1, h2]

theorem elig_eq_spec (unit : FuncUnit) (prog : List HwInstruction)
    (util : Util) :
    unit.predecessors.flatMap (fun pred =>
      (locateIdx (candFilter prog unit.model.capabilities)
          (getU util pred.name)).map
        (fun j => (⟨pred.name, j⟩ : HostedInstr))) =
      eligibleSpec unit prog util := by
  rw [eligibleSpec]
  congr 1
  funext pred
  have hfilter : (getU util pred.name).enum.filter (fun js =>
        decide (js.2.stalled ≠ DATA ∧
          (prog.getD js.2.instr dHw).categ ∈ unit.model.capabilities)) =
      (getU util pred.name).enum.filter
        (fun js => candFilter prog unit.model.capabilities js.2) := by
    apply List.filter_congr
    intro js _
    rw [candFilter_eq_spec]
  have hm : ((getU util pred.name).enum.filter (fun js =>
        candFilter prog unit.model.capabilities js.2)).map
        (fun js => (⟨pred.name, js.1⟩ : HostedInstr)) =
      (((getU util pred.name).enum.filter (fun js =>
        candFilter prog unit.model.capabilities js.2)).map Prod.fst).map
        (fun j => (⟨pred.name, j⟩ : HostedInstr)) := by
    rw [List.map_map]
    rfl
  have hloc := locateIdx_enumFrom
    (candFilter prog unit.model.capabilities) (getU util pred.name) 0
  have henum : (getU util pred.name).enum =
      (getU util pred.name).enumFrom 0 := rfl
  rw [show ((getU util pred.name).enum.filter (fun js =>
      js.2.stalled ≠ DATA ∧
        (prog.getD js.2.instr dHw).categ ∈ unit.model.capabilities)).map
      (fun js => (⟨pred.name, js.1⟩ : HostedInstr)) =
    ((getU util pred.name).enum.filter (fun js =>
      decide (js.2.stalled ≠ DATA ∧
        (prog.getD js.2.instr dHw).categ ∈ unit.model.capabilities))).map
      (fun js => (⟨pred.name, js.1⟩ : HostedInstr)) from rfl, hfilter, hm,
    henum, hloc, List.map_map]
  apply List.map_congr_left
  intro j _
  simp [Function.comp]

theorem len_getU_setU (u : Util) (k k' : String) (l : List InstrState) :
    (getU (setU u k l) k').length =
      if k' = k then l.length else (getU u k').length := by
  rw [getU_setU]
  by_cases h : k' = k
  · rw [if_pos h, if_pos h]
  · rw [if_neg h, if_neg h]

theorem hostKey_set (u : Util) (k : String) (j : Nat) (y : InstrState)
    (hy : y.instr = ((getU u k).getD j dIS).instr) (c : HostedInstr) :
    hostKey (setU u k ((getU u k).set j y)) c = hostKey u c := by
  rw [hostKey, hostKey, getU_setU]
  by_cases hc : c.host = k
  · rw [if_pos hc, hc]
    rw [List.getD_eq_getElem?_getD, List.getD_eq_getElem?_getD,
      List.getElem?_set]
    by_cases hj : j = c.index_in_host
    · rw [if_pos hj]
      by_cases hlt : j < (getU u k).length
      · rw [if_pos hlt]
        show y.instr = _
        rw [hy, List.getD_eq_getElem?_getD, hj]
      · rw [if_neg hlt]
        have : (getU u k)[c.index_in_host]? = none := by
          rw [← hj]
          exact List.getElem?_eq_none (by omega)
        rw [this]
    · rw [if_neg hj]
  · rw [if_neg hc]

theorem hostKey_append (u : Util) (k : String) (y : InstrState)
    (c : HostedInstr)
    (h : c.host ≠ k ∨ c.index_in_host < (getU u k).length) :
    hostKey (setU u k (getU u k ++ [y])) c = hostKey u c := by
  rw [hostKey, hostKey, getU_setU]
  by_cases hc : c.host = k
  · rw [if_pos hc, hc]
    have hlt : c.index_in_host < (getU u k).length := by
      rcases h with h | h
      · exact absurd hc h
      · exact h
    rw [List.getD_eq_getElem?_getD, List.getD_eq_getElem?_getD,
      List.getElem?_append_left hlt]
  · rw [if_neg hc]

theorem movCandidates_cons_mem (c : HostedInstr) (rest : List HostedInstr)
    (unit : UnitModel) (util : Util) (h : unit.mem_access = true) :
    movCandidates (c :: rest) unit util =
      ⟨movStep util c unit.name, 1, true,
        [⟨unit.name, unit.mem_access, (movSlot util c).instr⟩]⟩ := by
  rw [movCandidates, if_pos h]

theorem movCandidates_cons_nomem (c : HostedInstr) (rest : List HostedInstr)
    (unit : UnitModel) (util : Util) (h : unit.mem_access = false) :
    movCandidates (c :: rest) unit util =
      ⟨(movCandidates rest unit (movStep util c unit.name)).util,
        (movCandidates rest unit (movStep util c unit.name)).moved + 1,
        (movCandidates rest unit (movStep util c unit.name)).mem_used,
        (⟨unit.name, unit.mem_access, (movSlot util c).instr⟩ : Reception) ::
          (movCandidates rest unit (movStep util c unit.name)).events⟩ := by
  rw [movCandidates, if_neg (by rw [h]; exact Bool.false_ne_true)]

theorem movCandidates_moved (cands : List HostedInstr) (unit : UnitModel)
    (util : Util) :
    (movCandidates cands unit util).moved =
      if unit.mem_access then min 1 cands.length else cands.length := by
  induction cands generalizing util with
  | nil =>
    cases h : unit.mem_access <;> simp [movCandidates, h]
  | cons c rest ih =>
    cases h : unit.mem_access with
    | true =>
      rw [movCandidates_cons_mem c rest unit util h]
      simp [h]
    | false =>
      rw [movCandidates_cons_nomem c rest unit util h, ih]
      simp [h]

theorem movStep_len (util : Util) (c : HostedInstr) (dst k : String) :
    (getU (movStep util c dst) k).length =
      (getU util k).length + (if k = dst then 1 else 0) := by
  have h1 : ∀ k', (getU (setU util c.host
      ((getU util c.host).set c.index_in_host (movSlot util c))) k').length =
      (getU util k').length := by
    intro k'
    rw [len_getU_setU]
    by_cases h : k' = c.host
    · rw [if_pos h, List.length_set, h]
    · rw [if_neg h]
  rw [movStep, len_getU_setU]
  by_cases h : k = dst
  · rw [if_pos h, if_pos h, List.length_append, h1, h]
    rfl
  · rw [if_neg h, if_neg h, h1]
    omega

theorem movCandidates_len (cands : List HostedInstr) (unit : UnitModel)
    (util : Util) (k : String) :
    (getU (movCandidates cands unit util).util k).length =
      (getU util k).length +
        (if k = unit.name then (movCandidates cands unit util).moved
          else 0) := by
  induction cands generalizing util with
  | nil => simp [movCandidates]
  | cons c rest ih =>
    cases h : unit.mem_access with
    | true =>
      rw [movCandidates_cons_mem c rest unit util h]
      exact movStep_len util c unit.name k
    | false =>
      rw [movCandidates_cons_nomem c rest unit util h]
      rw [show (⟨(movCandidates rest unit (movStep util c unit.name)).util,
        (movCandidates rest unit (movStep util c unit.name)).moved + 1,
        (movCandidates rest unit (movStep util c unit.name)).mem_used,
        (⟨unit.name, unit.mem_access, (movSlot util c).instr⟩ : Reception) ::
          (movCandidates rest unit (movStep util c unit.name)).events⟩
          : MovStatus).util =
        (movCandidates rest unit (movStep util c unit.name)).util from rfl]
      rw [show (⟨(movCandidates rest unit (movStep util c unit.name)).util,
        (movCandidates rest unit (movStep util c unit.name)).moved + 1,
        (movCandidates rest unit (movStep util c unit.name)).mem_used,
        (⟨unit.name, unit.mem_access, (movSlot util c).instr⟩ : Reception) ::
          (movCandidates rest unit (movStep util c unit.name)).events⟩
          : MovStatus).moved =
        (movCandidates rest unit (movStep util c unit.name)).moved + 1
        from rfl]
      rw [ih, movStep_len]
      by_cases hk : k = unit.name
      · rw [if_pos hk, if_pos hk, if_pos hk]
        omega
      · rw [if_neg hk, if_neg hk, if_neg hk]

theorem hostKey_movStep (util : Util) (c : HostedInstr) (dst : String)
    (c' : HostedInstr)
    (h : c'.host ≠ dst ∨ c'.index_in_host < (getU util c'.host).length) :
    hostKey (movStep util c dst) c' = hostKey util c' := by
  rw [movStep]
  have hset := hostKey_set util c.host c.index_in_host (movSlot util c)
    rfl c'
  have hlen : ∀ k', (getU (setU util c.host
      ((getU util c.host).set c.index_in_host (movSlot util c))) k').length =
      (getU util k').length := by
    intro k'
    rw [len_getU_setU]
    by_cases hh : k' = c.host
    · rw [if_pos hh, List.length_set, hh]
    · rw [if_neg hh]
  by_cases hcd : c'.host = dst
  · have hlt : c'.index_in_host < (getU util dst).length := by
      rcases h with h | h
      · exact absurd hcd h
      · rw [← hcd]
        exact h
    have happ := hostKey_append
      (setU util c.host
        ((getU util c.host).set c.index_in_host (movSlot util c))) dst
      (movSlot util c) c' (Or.inr (by rw [hlen]; exact hlt))
    rw [happ, hset]
  · have happ := hostKey_append
      (setU util c.host
        ((getU util c.host).set c.index_in_host (movSlot util c))) dst
      (movSlot util c) c' (Or.inl hcd)
    rw [happ, hset]

theorem movCandidates_events (cands : List HostedInstr) (unit : UnitModel)
    (util : Util)
    (hval : ∀ c ∈ cands, c.index_in_host < (getU util c.host).length) :
    (movCandidates cands unit util).events =
      (cands.take (movCandidates cands unit util).moved).map
        (fun c =>
          (⟨unit.name, unit.mem_access, hostKey util c⟩ : Reception)) := by
  induction cands generalizing util with
  | nil => rfl
  | cons c rest ih =>
    cases h : unit.mem_access with
    | true =>
      rw [movCandidates_cons_mem c rest unit util h, h]
      rfl
    | false =>
      rw [movCandidates_cons_nomem c rest unit util h]
      have hval' : ∀ c' ∈ rest,
          c'.index_in_host <
            (getU (movStep util c unit.name) c'.host).length := by
        intro c' hc'
        have := hval c' (List.mem_cons_of_mem _ hc')
        rw [movStep_len]
        omega
      rw [show (⟨(movCandidates rest unit (movStep util c unit.name)).util,
        (movCandidates rest unit (movStep util c unit.name)).moved + 1,
        (movCandidates rest unit (movStep util c unit.name)).mem_used,
        (⟨unit.name, unit.mem_access, (movSlot util c).instr⟩ : Reception) ::
          (movCandidates rest unit (movStep util c unit.name)).events⟩
          : MovStatus).events =
        (⟨unit.name, unit.mem_access, (movSlot util c).instr⟩ : Reception) ::
          (movCandidates rest unit (movStep util c unit.name)).events
        from rfl]
      rw [ih _ hval']
      rw [show ((c :: rest).take
          ((movCandidates rest unit (movStep util c unit.name)).moved + 1)) =
        c :: rest.take
          ((movCandidates rest unit (movStep util c unit.name)).moved)
        from rfl]
      rw [List.map_cons]
      congr 1
      · rw [h]
        rfl
      · apply List.map_congr_left
        intro c' hc'
        have hmem : c' ∈ rest := List.mem_of_mem_take hc'
        rw [hostKey_movStep util c unit.name c'
          (Or.inr (hval c' (List.mem_cons_of_mem _ hmem))), h]

theorem locateIdx_lt (p : InstrState → Bool) (l : List InstrState) (j : Nat)
    (h : j ∈ locateIdx p l) : j < l.length := by
  rw [locateIdx] at h
  exact List.mem_range.mp (List.mem_of_mem_filter h)

theorem getCandidates_eq (unit : FuncUnit) (prog : List HwInstruction)
    (util : Util) :
    getCandidates unit prog util =
      (isort (fun a b => hostKey util a ≤ hostKey util b)
        (eligibleSpec unit prog util)).take
          (spaceAvail unit.model util).toNat := by
  rw [show getCandidates unit prog util =
    nsmallest (spaceAvail unit.model util) (hostKey util)
      (unit.predecessors.flatMap (fun pred =>
        (locateIdx (candFilter prog unit.model.capabilities)
            (getU util pred.name)).map
          (fun j => (⟨pred.name, j⟩ : HostedInstr)))) from rfl]
  rw [elig_eq_spec]
  rfl

theorem getCandidates_valid (unit : FuncUnit) (prog : List HwInstruction)
    (util : Util) :
    ∀ c ∈ getCandidates unit prog util,
      c.index_in_host < (getU util c.host).length := by
  intro c hc
  rw [show getCandidates unit prog util =
    nsmallest (spaceAvail unit.model util) (hostKey util)
      (unit.predecessors.flatMap (fun pred =>
        (locateIdx (candFilter prog unit.model.capabilities)
            (getU util pred.name)).map
          (fun j => (⟨pred.name, j⟩ : HostedInstr)))) from rfl,
    nsmallest] at hc
  have hc1 := List.mem_of_mem_take hc
  have hc2 := (mem_isort _ _ _).mp hc1
  rcases List.mem_flatMap.mp hc2 with ⟨pred, _, hcp⟩
  rcases List.mem_map.mp hcp with ⟨j, hj, hcj⟩
  rw [← hcj]
  exact locateIdx_lt _ _ _ hj

theorem getCandidates_sorted (unit : FuncUnit) (prog : List HwInstruction)
    (util : Util) :
    List.Pairwise (fun a b => hostKey util a ≤ hostKey util b)
      (getCandidates unit prog util) := by
  rw [getCandidates_eq]
  have hsort := isort_sorted
    (fun (a b : HostedInstr) => decide (hostKey util a ≤ hostKey util b))
    (by
      intro a b c hab hbc
      exact decide_eq_true
        (Nat.le_trans (of_decide_eq_true hab) (of_decide_eq_true hbc)))
    (by
      intro a b
      rcases Nat.le_total (hostKey util a) (hostKey util b) with h | h
      · exact Or.inl (decide_eq_true h)
      · exact Or.inr (decide_eq_true h))
    (eligibleSpec unit prog util)
  have htake := List.Pairwise.sublist
    (List.take_sublist (spaceAvail unit.model util).toNat _) hsort
  exact htake.imp (fun h => of_decide_eq_true h)

/-- C6 (amended): when `_fill_unit` fills a destination `u`, the
selected candidate pool is the `space_available(u)` eligible
instructions (hosted in predecessors, not DATA-stalled, of an accepted
category) with the smallest program indices, in ascending index order;
all of them are moved into `u` when `u`'s model has no memory access,
but when `u`'s model has `mem_access=true` only the first (smallest
index) candidate is moved. -/
theorem fill_unit_moves (unit : FuncUnit) (prog : List HwInstruction)
    (util : Util) :
    (getCandidates unit prog util =
      (isort (fun a b => hostKey util a ≤ hostKey util b)
        (eligibleSpec unit prog util)).take
          (spaceAvail unit.model util).toNat) ∧
    ((fillUnit unit prog util).2.2 =
      ((getCandidates unit prog util).take
          (if unit.model.mem_access
            then min 1 (getCandidates unit prog util).length
            else (getCandidates unit prog util).length)).map
        (fun c => (⟨unit.model.name, unit.model.mem_access,
          hostKey util c⟩ : Reception))) ∧
    List.Pairwise (fun a b => hostKey util a ≤ hostKey util b)
      (getCandidates unit prog util) := by
  refine ⟨getCandidates_eq unit prog util, ?_,
    getCandidates_sorted unit prog util⟩
  have hev : (fillUnit unit prog util).2.2 =
      (movCandidates (getCandidates unit prog util) unit.model util).events
    := rfl
  rw [hev,
    movCandidates_events _ _ _ (getCandidates_valid unit prog util),
    movCandidates_moved]

/-- Counterexample to C6 as stated: a memory-accessing output of width
2 with two eligible candidates moves only one instruction, not
`min(space_available, #candidates) = 2`. -/
theorem fill_unit_min_counter :
    (fillUnit funcO2M progTwo utilTwoIn).2.2.length = 1 ∧
    min ((spaceAvail funcO2M.model utilTwoIn).toNat)
      (eligibleSpec funcO2M progTwo utilTwoIn).length = 2 := by
  decide

theorem movCandidates_memCount (cands : List HostedInstr) (unit : UnitModel)
    (util : Util) :
    (movCandidates cands unit util).events.countP (fun e => e.mem) =
      if unit.mem_access then min 1 cands.length else 0 := by
  induction cands generalizing util with
  | nil =>
    cases h : unit.mem_access <;> simp [movCandidates, h]
  | cons c rest ih =>
    cases h : unit.mem_access with
    | true =>
      rw [movCandidates_cons_mem c rest unit util h]
      simp [h, List.countP_cons]
    | false =>
      rw [movCandidates_cons_nomem c rest unit util h]
      rw [show (⟨(movCandidates rest unit (movStep util c unit.name)).util,
        (movCandidates rest unit (movStep util c unit.name)).moved + 1,
        (movCandidates rest unit (movStep util c unit.name)).mem_used,
        (⟨unit.name, unit.mem_access, (movSlot util c).instr⟩ : Reception) ::
          (movCandidates rest unit (movStep util c unit.name)).events⟩
          : MovStatus).events =
        (⟨unit.name, unit.mem_access, (movSlot util c).instr⟩ : Reception) ::
          (movCandidates rest unit (movStep util c unit.name)).events
        from rfl]
      rw [List.countP_cons, ih]
      simp [h]

theorem movCandidates_memUsed (cands : List HostedInstr) (unit : UnitModel)
    (util : Util) :
    (movCandidates cands unit util).mem_used =
      (unit.mem_access && !cands.isEmpty) := by
  induction cands generalizing util with
  | nil =>
    cases h : unit.mem_access <;> simp [movCandidates, h]
  | cons c rest ih =>
    cases h : unit.mem_access with
    | true =>
      rw [movCandidates_cons_mem c rest unit util h]
      simp [h]
    | false =>
      rw [movCandidates_cons_nomem c rest unit util h]
      rw [show (⟨(movCandidates rest unit (movStep util c unit.name)).util,
        (movCandidates rest unit (movStep util c unit.name)).moved + 1,
        (movCandidates rest unit (movStep util c unit.name)).mem_used,
        (⟨unit.name, unit.mem_access, (movSlot util c).instr⟩ : Reception) ::
          (movCandidates rest unit (movStep util c unit.name)).events⟩
          : MovStatus).mem_used =
        (movCandidates rest unit (movStep util c unit.name)).mem_used
        from rfl]
      rw [ih]
      simp [h]

theorem movFlights_token (prog : List HwInstruction) :
    ∀ (dsts : List FuncUnit) (u0 : Util) (mb0 : Bool)
      (evs0 : List Reception),
      (dsts.foldl
          (fun acc dst =>
            if !acc.2.1 || !dst.model.mem_access then
              let r := fillUnit dst prog acc.1
              (r.1, acc.2.1 || r.2.1, acc.2.2 ++ r.2.2)
            else acc) (u0, mb0, evs0)).2.2.countP (fun e => e.mem) +
        (if (dsts.foldl
          (fun acc dst =>
            if !acc.2.1 || !dst.model.mem_access then
              let r := fillUnit dst prog acc.1
              (r.1, acc.2.1 || r.2.1, acc.2.2 ++ r.2.2)
            else acc) (u0, mb0, evs0)).2.1 then 0 else 1) ≤
        evs0.countP (fun e => e.mem) + (if mb0 then 0 else 1) := by
  intro dsts
  induction dsts with
  | nil =>
    intro u0 mb0 evs0
    exact Nat.le_refl _
  | cons dst rest ih =>
    intro u0 mb0 evs0
    rw [List.foldl_cons]
    by_cases hg : (!mb0 || !dst.model.mem_access) = true
    · rw [if_pos hg]
      refine Nat.le_trans (ih _ _ _) ?_
      rw [List.countP_append]
      have hev : (fillUnit dst prog u0).2.2.countP (fun e => e.mem) =
          if dst.model.mem_access
          then min 1 (getCandidates dst prog u0).length else 0 :=
        movCandidates_memCount _ _ _
      have hmu : (fillUnit dst prog u0).2.1 =
          (dst.model.mem_access &&
            !(getCandidates dst prog u0).isEmpty) :=
        movCandidates_memUsed _ _ _
      rw [hev, hmu]
      cases hm : dst.model.mem_access with
      | false =>
        simp [hm]
      | true =>
        have hmb : mb0 = false := by
          rw [hm] at hg
          cases hmb : mb0
          · rfl
          · rw [hmb] at hg
            simp at hg
        subst hmb
        cases he : (getCandidates dst prog u0).isEmpty with
        | true =>
          have hlen : (getCandidates dst prog u0).length = 0 := by
            rw [List.isEmpty_iff] at he
            rw [he]
            rfl
          simp [hm, hlen]
        | false =>
          have hlen : 0 < (getCandidates dst prog u0).length := by
            rw [List.isEmpty_eq_false_iff_exists_mem] at he
            rcases he with ⟨x, hx⟩
            exact List.length_pos_of_mem hx
          simp [hm]
    · rw [if_neg hg]
      exact ih _ _ _

theorem fillInputs_token (capMap : String → List UnitModel)
    (prog : List HwInstruction) :
    ∀ (fuel : Nat) (u0 : Util) (mb0 : Bool) (entered : Nat),
      (fillInputsAux capMap prog fuel u0 mb0 entered).2.2.2.countP
          (fun e => e.mem) +
        (if (fillInputsAux capMap prog fuel u0 mb0 entered).2.1
          then 0 else 1) ≤
        (if mb0 then 0 else 1) := by
  intro fuel
  induction fuel with
  | zero =>
    intro u0 mb0 entered
    simp [fillInputsAux]
  | succ fuel ih =>
    intro u0 mb0 entered
    rw [fillInputsAux]
    by_cases he : entered < prog.length
    · rw [if_pos he]
      cases hacc : acceptInstr (capMap (prog.getD entered dHw).categ) u0 mb0
          entered with
      | none => simp
      | some res =>
        obtain ⟨u', mb', ev⟩ := res
        cases hfind : (capMap (prog.getD entered dHw).categ).find?
            (fun unit => !(mb0 && unit.mem_access) &&
              spaceAvail unit u0 != 0) with
        | none =>
          have : acceptInstr (capMap (prog.getD entered dHw).categ) u0 mb0
              entered = none := by
            rw [acceptInstr, hfind]
          rw [this] at hacc
          exact absurd hacc (by simp)
        | some acceptor =>
          have hpred := List.find?_some hfind
          have hacc' : acceptInstr (capMap (prog.getD entered dHw).categ) u0
              mb0 entered =
              some (setU u0 acceptor.name (getU u0 acceptor.name ++
                  [⟨entered, NO_STALL⟩]),
                mb0 || acceptor.mem_access,
                ⟨acceptor.name, acceptor.mem_access, entered⟩) := by
            rw [acceptInstr, hfind]
          have hinj := Option.some.inj (hacc'.symm.trans hacc)
          have hmb' : mb' = (mb0 || acceptor.mem_access) :=
            (congrArg (fun p => p.2.1) hinj).symm
          have hev : ev.mem = acceptor.mem_access := by
            have hev' : ev = (⟨acceptor.name, acceptor.mem_access,
                entered⟩ : Reception) :=
              (congrArg (fun p => p.2.2) hinj).symm
            rw [hev']
          subst hmb'
          have hstep := ih u' (mb0 || acceptor.mem_access) (entered + 1)
          show List.countP (fun e => e.mem)
              (ev :: (fillInputsAux capMap prog fuel u'
                (mb0 || acceptor.mem_access) (entered + 1)).2.2.2) +
              (if (fillInputsAux capMap prog fuel u'
                  (mb0 || acceptor.mem_access) (entered + 1)).2.1 = true
                then 0 else 1) ≤
            if mb0 = true then 0 else 1
          rw [List.countP_cons]
          cases hma : acceptor.mem_access with
          | false =>
            simp only [hma, Bool.or_false] at hstep ⊢
            simp only [hev, hma]
            simp
            omega
          | true =>
            have hmb0 : mb0 = false := by
              cases hmb0 : mb0
              · rfl
              · rw [hmb0, hma] at hpred
                simp at hpred
            subst hmb0
            simp only [hma, Bool.false_or] at hstep ⊢
            have hstep2 : List.countP (fun e => e.mem)
                (fillInputsAux capMap prog fuel u' true
                  (entered + 1)).2.2.2 +
                (if (fillInputsAux capMap prog fuel u' true
                  (entered + 1)).2.1 = true then 0 else 1) ≤ 0 := hstep
            simp only [hev, hma]
            simp
            omega
    · rw [if_neg he]
      simp

/-- C4: within one simulated cycle, at most one instruction in the
whole processor is moved into or issued to a unit whose model has
`mem_access = true`; once it happens, the busy flag blocks every later
move or issue into a memory-requiring unit for the rest of the cycle. -/
theorem mem_exclusive (proc : ProcessorDesc) (prog : List HwInstruction)
    (st : SimState) :
    (cycleEvents proc prog st).countP (fun e => e.mem) ≤ 1 := by
  have hmov : (movFlights (dstUnits proc) prog
        (flushOutputs (getOutPorts proc)
          (st.utilTbl.getLastD []))).2.2.countP (fun e => e.mem) +
      (if (movFlights (dstUnits proc) prog
        (flushOutputs (getOutPorts proc)
          (st.utilTbl.getLastD []))).2.1 then 0 else 1) ≤
      ([] : List Reception).countP (fun e => e.mem) +
        (if (false : Bool) then 0 else 1) :=
    movFlights_token prog (dstUnits proc)
      (flushOutputs (getOutPorts proc) (st.utilTbl.getLastD [])) false []
  have hfill : (fillInputs (capUnitMap (inUnits proc)) prog
        (movFlights (dstUnits proc) prog
          (flushOutputs (getOutPorts proc) (st.utilTbl.getLastD []))).1
        (movFlights (dstUnits proc) prog
          (flushOutputs (getOutPorts proc) (st.utilTbl.getLastD []))).2.1
        st.entered).2.2.2.countP (fun e => e.mem) +
      (if (fillInputs (capUnitMap (inUnits proc)) prog
        (movFlights (dstUnits proc) prog
          (flushOutputs (getOutPorts proc) (st.utilTbl.getLastD []))).1
        (movFlights (dstUnits proc) prog
          (flushOutputs (getOutPorts proc) (st.utilTbl.getLastD []))).2.1
        st.entered).2.1 then 0 else 1) ≤
      (if (movFlights (dstUnits proc) prog
        (flushOutputs (getOutPorts proc)
          (st.utilTbl.getLastD []))).2.1 then 0 else 1) :=
    fillInputs_token (capUnitMap (inUnits proc)) prog
      (prog.length - st.entered) _ _ st.entered
  show ((movFlights (dstUnits proc) prog
      (flushOutputs (getOutPorts proc) (st.utilTbl.getLastD []))).2.2 ++
    (fillInputs (capUnitMap (inUnits proc)) prog
      (movFlights (dstUnits proc) prog
        (flushOutputs (getOutPorts proc) (st.utilTbl.getLastD []))).1
      (movFlights (dstUnits proc) prog
        (flushOutputs (getOutPorts proc) (st.utilTbl.getLastD []))).2.1
      st.entered).2.2.2).countP (fun e => e.mem) ≤ 1
  rw [List.countP_append]
  simp only [List.countP_nil, Nat.zero_add, Bool.false_eq_true,
    if_false] at hmov
  omega

theorem mem_keys_setU (u : Util) (k : String) (l : List InstrState)
    (x : String) :
    x ∈ (setU u k l).map Prod.fst ↔ x ∈ u.map Prod.fst ∨ x = k := by
  induction u with
  | nil => simp [setU]
  | cons p rest ih =>
    by_cases hp : p.1 = k
    · rw [show setU (p :: rest) k l = (k, l) :: rest by simp [setU, hp]]
      simp only [List.map_cons, List.mem_cons, ih]
      constructor
      · intro h
        rcases h with h | h
        · exact Or.inr h
        · exact Or.inl (Or.inr h)
      · intro h
        rcases h with (h | h) | h
        · exact Or.inl (by rw [h]; exact hp)
        · exact Or.inr h
        · exact Or.inl h
    · rw [show setU (p :: rest) k l = p :: setU rest k l by simp [setU, hp]]
      simp only [List.map_cons, List.mem_cons, ih]
      tauto

theorem nodup_setU (u : Util) (k : String) (l : List InstrState)
    (h : NodupKeys u) : NodupKeys (setU u k l) := by
  unfold NodupKeys at h ⊢
  induction u with
  | nil => simp [setU]
  | cons p rest ih =>
    by_cases hp : p.1 = k
    · rw [show setU (p :: rest) k l = (k, l) :: rest by simp [setU, hp]]
      simp only [List.map_cons, List.nodup_cons] at h ⊢
      rw [← hp]
      exact h
    · rw [show setU (p :: rest) k l = p :: setU rest k l by simp [setU, hp]]
      simp only [List.map_cons, List.nodup_cons] at h ⊢
      refine ⟨?_, ih h.2⟩
      intro hmem
      rcases (mem_keys_setU rest k l p.1).mp hmem with hm | hm
      · exact h.1 hm
      · exact hp hm

theorem nodup_flushOutputs (outs : List UnitModel) (u : Util)
    (h : NodupKeys u) : NodupKeys (flushOutputs outs u) := by
  induction outs generalizing u with
  | nil => exact h
  | cons o rest ih =>
    rw [flushOutputs_cons]
    exact ih _ (nodup_setU _ _ _ h)

theorem nodup_movStep (util : Util) (c : HostedInstr) (dst : String)
    (h : NodupKeys util) : NodupKeys (movStep util c dst) := by
  rw [movStep]
  exact nodup_setU _ _ _ (nodup_setU _ _ _ h)

theorem nodup_movCandidates (cands : List HostedInstr) (unit : UnitModel)
    (util : Util) (h : NodupKeys util) :
    NodupKeys (movCandidates cands unit util).util := by
  induction cands generalizing util with
  | nil => exact h
  | cons c rest ih =>
    cases hm : unit.mem_access with
    | true =>
      rw [movCandidates_cons_mem c rest unit util hm]
      exact nodup_movStep _ _ _ h
    | false =>
      rw [movCandidates_cons_nomem c rest unit util hm]
      exact ih _ (nodup_movStep _ _ _ h)

theorem nodup_clrSrcUnits (instrs : List HostedInstr) (util : Util)
    (h : NodupKeys util) : NodupKeys (clrSrcUnits instrs util) := by
  induction instrs generalizing util with
  | nil => exact h
  | cons c rest ih =>
    rw [clrSrcUnits, List.foldl_cons]
    exact ih _ (nodup_setU _ _ _ h)

theorem nodup_fillUnit (unit : FuncUnit) (prog : List HwInstruction)
    (util : Util) (h : NodupKeys util) :
    NodupKeys (fillUnit unit prog util).1 := by
  rw [fillUnit]
  exact nodup_clrSrcUnits _ _ (nodup_movCandidates _ _ _ h)

theorem nodup_movFlights (dsts : List FuncUnit) (prog : List HwInstruction)
    (util : Util) (h : NodupKeys util) :
    NodupKeys (movFlights dsts prog util).1 := by
  suffices hgen : ∀ (ds : List FuncUnit) (u0 : Util) (mb0 : Bool)
      (evs0 : List Reception), NodupKeys u0 →
      NodupKeys ((ds.foldl
        (fun acc dst =>
          if !acc.2.1 || !dst.model.mem_access then
            let r := fillUnit dst prog acc.1
            (r.1, acc.2.1 || r.2.1, acc.2.2 ++ r.2.2)
          else acc) (u0, mb0, evs0)).1) by
    exact hgen dsts util false [] h
  intro ds
  induction ds with
  | nil => intro u0 mb0 evs0 h0; exact h0
  | cons dst rest ih =>
    intro u0 mb0 evs0 h0
    rw [List.foldl_cons]
    by_cases hg : (!mb0 || !dst.model.mem_access) = true
    · rw [if_pos hg]
      exact ih _ _ _ (nodup_fillUnit _ _ _ h0)
    · rw [if_neg hg]
      exact ih _ _ _ h0

theorem nodup_fillInputsAux (capMap : String → List UnitModel)
    (prog : List HwInstruction) :
    ∀ (fuel : Nat) (u0 : Util) (mb0 : Bool) (entered : Nat),
      NodupKeys u0 →
      NodupKeys (fillInputsAux capMap prog fuel u0 mb0 entered).1 := by
  intro fuel
  induction fuel with
  | zero => intro u0 mb0 entered h; exact h
  | succ fuel ih =>
    intro u0 mb0 entered h
    rw [fillInputsAux]
    by_cases he : entered < prog.length
    · rw [if_pos he]
      cases hacc : acceptInstr (capMap (prog.getD entered dHw).categ) u0 mb0
          entered with
      | none => exact h
      | some res =>
        obtain ⟨u', mb', ev⟩ := res
        show NodupKeys (fillInputsAux capMap prog fuel u' mb'
          (entered + 1)).1
        have hu' : NodupKeys u' := by
          rw [acceptInstr] at hacc
          cases hfind : (capMap (prog.getD entered dHw).categ).find?
              (fun unit => !(mb0 && unit.mem_access) &&
                spaceAvail unit u0 != 0) with
          | none =>
            rw [hfind] at hacc
            exact absurd hacc (by simp)
          | some acceptor =>
            rw [hfind] at hacc
            have := congrArg (fun p => p.1) (Option.some.inj hacc)
            rw [show ((fun p : Util × Bool × Reception => p.1)
              (u', mb', ev)) = u' from rfl] at this
            rw [← this]
            exact nodup_setU _ _ _ h
        exact ih _ _ _ hu'
    · rw [if_neg he]
      exact h

theorem nodup_chkHazards (oldU cp : Util) (numap : String → UnitModel)
    (prog : List HwInstruction) (acc : AccQueues) (h : NodupKeys cp) :
    NodupKeys (chkHazards oldU cp numap prog acc).1 := by
  suffices hgen : ∀ (kvs : List (String × List InstrState)) (u0 : Util)
      (rq0 : Clears), NodupKeys u0 →
      NodupKeys ((kvs.foldl
        (fun (p : Util × Clears) kv =>
          let r := stallUnit (numap kv.1).lock_info (getU oldU kv.1) prog
            acc kv.2 p.2
          (setU p.1 kv.1 r.1, r.2)) (u0, rq0)).1) by
    exact hgen (itemsU cp) cp [] h
  intro kvs
  induction kvs with
  | nil => intro u0 rq0 h0; exact h0
  | cons kv rest ih =>
    intro u0 rq0 h0
    rw [List.foldl_cons]
    exact ih _ _ (nodup_setU _ _ _ h0)

theorem nodup_computeCp (proc : ProcessorDesc) (prog : List HwInstruction)
    (st : SimState) (h : NodupKeys (st.utilTbl.getLastD [])) :
    NodupKeys (computeCp proc prog st).1 := by
  rw [computeCp]
  exact nodup_chkHazards _ _ _ _ _
    (nodup_fillInputsAux _ _ _ _ _ _
      (nodup_movFlights _ _ _ (nodup_flushOutputs _ _ h)))

theorem flushOutputs_len_le (outs : List UnitModel) (u : Util) (k : String) :
    (getU (flushOutputs outs u) k).length ≤ (getU u k).length := by
  rw [getU_flushOutputs]
  by_cases h : k ∈ outs.map (·.name)
  · rw [if_pos h]
    exact List.length_filter_le _ _
  · rw [if_neg h]

theorem clrSrcUnits_len_le (instrs : List HostedInstr) (util : Util)
    (k : String) :
    (getU (clrSrcUnits instrs util) k).length ≤ (getU util k).length := by
  induction instrs generalizing util with
  | nil => exact Nat.le_refl _
  | cons c rest ih =>
    rw [clrSrcUnits, List.foldl_cons]
    refine Nat.le_trans (ih _) ?_
    rw [len_getU_setU]
    by_cases h : k = c.host
    · rw [if_pos h, h]
      exact List.length_eraseIdx_le _ _
    · rw [if_neg h]

theorem getCandidates_length_le (unit : FuncUnit)
    (prog : List HwInstruction) (util : Util) :
    (getCandidates unit prog util).length ≤
      (spaceAvail unit.model util).toNat := by
  rw [getCandidates_eq]
  exact List.length_take_le _ _

theorem fillUnit_len_le (unit : FuncUnit) (prog : List HwInstruction)
    (util : Util) (k : String) :
    (getU (fillUnit unit prog util).1 k).length ≤
      (getU util k).length +
        (if k = unit.model.name then (spaceAvail unit.model util).toNat
          else 0) := by
  have hclr := clrSrcUnits_len_le
    (isort (fun a b => b.index_in_host ≤ a.index_in_host)
      ((getCandidates unit prog util).take
        (movCandidates (getCandidates unit prog util) unit.model
          util).moved))
    (movCandidates (getCandidates unit prog util) unit.model util).util k
  have hmov := movCandidates_len (getCandidates unit prog util) unit.model
    util k
  have hmoved : (movCandidates (getCandidates unit prog util) unit.model
      util).moved ≤ (spaceAvail unit.model util).toNat := by
    rw [movCandidates_moved]
    have hc := getCandidates_length_le unit prog util
    by_cases h : unit.model.mem_access = true
    · rw [if_pos h]
      omega
    · rw [if_neg h]
      exact hc
  refine Nat.le_trans hclr ?_
  rw [hmov]
  by_cases h : k = unit.model.name
  · rw [if_pos h, if_pos h]
    omega
  · rw [if_neg h, if_neg h]

theorem fillUnit_width (ms : List UnitModel)
    (hW : ∀ m ∈ ms, ∀ m' ∈ ms, m.name = m'.name → m.width = m'.width)
    (unit : FuncUnit) (hu : unit.model ∈ ms) (prog : List HwInstruction)
    (util : Util) (hInv : ∀ m ∈ ms, (getU util m.name).length ≤ m.width) :
    ∀ m ∈ ms, (getU (fillUnit unit prog util).1 m.name).length ≤ m.width
    := by
  intro m hm
  have h := fillUnit_len_le unit prog util m.name
  by_cases hk : m.name = unit.model.name
  · rw [if_pos hk] at h
    have hwidth : m.width = unit.model.width := hW m hm unit.model hu hk
    have hlen : (getU util unit.model.name).length ≤ unit.model.width :=
      hInv unit.model hu
    have hspace : (spaceAvail unit.model util).toNat =
        unit.model.width - (getU util unit.model.name).length := by
      rw [spaceAvail, Int.toNat_sub]
    rw [hk] at h ⊢
    omega
  · rw [if_neg hk] at h
    have := hInv m hm
    omega

theorem movFlights_width (ms : List UnitModel)
    (hW : ∀ m ∈ ms, ∀ m' ∈ ms, m.name = m'.name → m.width = m'.width)
    (prog : List HwInstruction) :
    ∀ (ds : List FuncUnit) (u0 : Util) (mb0 : Bool)
      (evs0 : List Reception),
      (∀ fu ∈ ds, fu.model ∈ ms) →
      (∀ m ∈ ms, (getU u0 m.name).length ≤ m.width) →
      ∀ m ∈ ms,
        (getU ((ds.foldl
          (fun acc dst =>
            if !acc.2.1 || !dst.model.mem_access then
              let r := fillUnit dst prog acc.1
              (r.1, acc.2.1 || r.2.1, acc.2.2 ++ r.2.2)
            else acc) (u0, mb0, evs0)).1) m.name).length ≤ m.width := by
  intro ds
  induction ds with
  | nil =>
    intro u0 mb0 evs0 _ hInv m hm
    exact hInv m hm
  | cons dst rest ih =>
    intro u0 mb0 evs0 hds hInv m hm
    rw [List.foldl_cons]
    by_cases hg : (!mb0 || !dst.model.mem_access) = true
    · rw [if_pos hg]
      exact ih _ _ _ (fun fu hfu => hds fu (List.mem_cons_of_mem _ hfu))
        (fillUnit_width ms hW dst (hds dst (by simp)) prog u0 hInv) m hm
    · rw [if_neg hg]
      exact ih _ _ _ (fun fu hfu => hds fu (List.mem_cons_of_mem _ hfu))
        hInv m hm

theorem fillInputs_width (ms : List UnitModel)
    (hW : ∀ m ∈ ms, ∀ m' ∈ ms, m.name = m'.name → m.width = m'.width)
    (capMap : String → List UnitModel)
    (hcap : ∀ c, ∀ u ∈ capMap c, u ∈ ms) (prog : List HwInstruction) :
    ∀ (fuel : Nat) (u0 : Util) (mb0 : Bool) (entered : Nat),
      (∀ m ∈ ms, (getU u0 m.name).length ≤ m.width) →
      ∀ m ∈ ms,
        (getU (fillInputsAux capMap prog fuel u0 mb0 entered).1
          m.name).length ≤ m.width := by
  intro fuel
  induction fuel with
  | zero => intro u0 mb0 entered hInv m hm; exact hInv m hm
  | succ fuel ih =>
    intro u0 mb0 entered hInv m hm
    rw [fillInputsAux]
    by_cases he : entered < prog.length
    · rw [if_pos he]
      cases hacc : acceptInstr (capMap (prog.getD entered dHw).categ) u0 mb0
          entered with
      | none => exact hInv m hm
      | some res =>
        obtain ⟨u', mb', ev⟩ := res
        show (getU (fillInputsAux capMap prog fuel u' mb'
          (entered + 1)).1 m.name).length ≤ m.width
        cases hfind : (capMap (prog.getD entered dHw).categ).find?
            (fun unit => !(mb0 && unit.mem_access) &&
              spaceAvail unit u0 != 0) with
        | none =>
          have hnone : acceptInstr (capMap (prog.getD entered dHw).categ) u0
              mb0 entered = none := by
            rw [acceptInstr, hfind]
          rw [hnone] at hacc
          exact absurd hacc (by simp)
        | some acceptor =>
          have hpred := List.find?_some hfind
          have hmem : acceptor ∈ ms :=
            hcap _ acceptor (List.mem_of_find?_eq_some hfind)
          have hacc' : acceptInstr (capMap (prog.getD entered dHw).categ) u0
              mb0 entered =
              some (setU u0 acceptor.name (getU u0 acceptor.name ++
                  [⟨entered, NO_STALL⟩]),
                mb0 || acceptor.mem_access,
                ⟨acceptor.name, acceptor.mem_access, entered⟩) := by
            rw [acceptInstr, hfind]
          have hinj := Option.some.inj (hacc'.symm.trans hacc)
          have hu' : u' = setU u0 acceptor.name (getU u0 acceptor.name ++
              [⟨entered, NO_STALL⟩]) :=
            (congrArg (fun p => p.1) hinj).symm
          have hspace : spaceAvail acceptor u0 ≠ 0 := by
            have h2 : (spaceAvail acceptor u0 != 0) = true := by
              have hp := hpred
              simp only [Bool.and_eq_true] at hp
              exact hp.2
            exact bne_iff_ne.mp h2
          have hInv' : ∀ m' ∈ ms, (getU u' m'.name).length ≤ m'.width := by
            intro m' hm'
            rw [hu', len_getU_setU]
            by_cases hk : m'.name = acceptor.name
            · rw [if_pos hk, List.length_append]
              have hlt : (getU u0 acceptor.name).length < acceptor.width
                := by
                have hle := hInv acceptor hmem
                rw [spaceAvail] at hspace
                omega
              have hwidth : m'.width = acceptor.width :=
                hW m' hm' acceptor hmem hk
              simp only [List.length_cons, List.length_nil]
              omega
            · rw [if_neg hk]
              exact hInv m' hm'
          exact ih _ _ _ hInv' m hm
    · rw [if_neg he]
      exact hInv m hm

theorem chkHazards_len (oldU cp : Util) (numap : String → UnitModel)
    (prog : List HwInstruction) (acc : AccQueues) (hnd : NodupKeys cp)
    (k : String) :
    (getU (chkHazards oldU cp numap prog acc).1 k).length =
      (getU cp k).length := by
  rw [chkHazards_getU oldU cp numap prog acc hnd k, List.length_map]

theorem dstUnits_models (proc : ProcessorDesc) :
    ∀ fu ∈ dstUnits proc, fu.model ∈ allModels proc := by
  intro fu hfu
  rw [allModels]
  rw [List.mem_append, List.mem_append]
  exact Or.inr (List.mem_map_of_mem (·.model) hfu)

theorem capUnitMap_models (proc : ProcessorDesc) :
    ∀ c, ∀ u ∈ capUnitMap (inUnits proc) c, u ∈ allModels proc := by
  intro c u hu
  rw [capUnitMap] at hu
  have h1 := List.mem_of_mem_filter hu
  have h2 : u ∈ inUnits proc := (mem_isort _ _ _).mp h1
  rw [inUnits] at h2
  rw [allModels, List.mem_append, List.mem_append]
  rcases List.mem_append.mp h2 with h | h
  · exact Or.inl (Or.inr h)
  · exact Or.inl (Or.inl h)

theorem computeCp_width (proc : ProcessorDesc) (prog : List HwInstruction)
    (st : SimState)
    (hW : ∀ m ∈ allModels proc, ∀ m' ∈ allModels proc,
      m.name = m'.name → m.width = m'.width)
    (hnd : NodupKeys (st.utilTbl.getLastD []))
    (hInv : ∀ m ∈ allModels proc,
      (getU (st.utilTbl.getLastD []) m.name).length ≤ m.width) :
    ∀ m ∈ allModels proc,
      (getU (computeCp proc prog st).1 m.name).length ≤ m.width := by
  intro m hm
  have hInvF : ∀ m' ∈ allModels proc,
      (getU (flushOutputs (getOutPorts proc) (st.utilTbl.getLastD []))
        m'.name).length ≤ m'.width := by
    intro m' hm'
    exact Nat.le_trans (flushOutputs_len_le _ _ _) (hInv m' hm')
  have hInvM : ∀ m' ∈ allModels proc,
      (getU (movFlights (dstUnits proc) prog
        (flushOutputs (getOutPorts proc)
          (st.utilTbl.getLastD []))).1 m'.name).length ≤ m'.width :=
    movFlights_width (allModels proc) hW prog (dstUnits proc)
      (flushOutputs (getOutPorts proc) (st.utilTbl.getLastD [])) false []
      (dstUnits_models proc) hInvF
  have hInvI : ∀ m' ∈ allModels proc,
      (getU (fillInputsAux (capUnitMap (inUnits proc)) prog
        (prog.length - st.entered)
        (movFlights (dstUnits proc) prog
          (flushOutputs (getOutPorts proc) (st.utilTbl.getLastD []))).1
        (movFlights (dstUnits proc) prog
          (flushOutputs (getOutPorts proc) (st.utilTbl.getLastD []))).2.1
        st.entered).1 m'.name).length ≤ m'.width :=
    fillInputs_width (allModels proc) hW (capUnitMap (inUnits proc))
      (capUnitMap_models proc) prog (prog.length - st.entered) _ _
      st.entered hInvM
  have hndI : NodupKeys (fillInputsAux (capUnitMap (inUnits proc)) prog
      (prog.length - st.entered)
      (movFlights (dstUnits proc) prog
        (flushOutputs (getOutPorts proc) (st.utilTbl.getLastD []))).1
      (movFlights (dstUnits proc) prog
        (flushOutputs (getOutPorts proc) (st.utilTbl.getLastD []))).2.1
      st.entered).1 :=
    nodup_fillInputsAux _ _ _ _ _ _
      (nodup_movFlights _ _ _ (nodup_flushOutputs _ _ hnd))
  have hlen : (getU (computeCp proc prog st).1 m.name).length =
      (getU (fillInputsAux (capUnitMap (inUnits proc)) prog
        (prog.length - st.entered)
        (movFlights (dstUnits proc) prog
          (flushOutputs (getOutPorts proc) (st.utilTbl.getLastD []))).1
        (movFlights (dstUnits proc) prog
          (flushOutputs (getOutPorts proc) (st.utilTbl.getLastD []))).2.1
        st.entered).1 m.name).length :=
    chkHazards_len _ _ (nameUnitMap proc) prog st.acc hndI m.name
  rw [hlen]
  exact hInvI m hm

theorem runCycle_width (proc : ProcessorDesc) (prog : List HwInstruction)
    (st st' : SimState)
    (hW : ∀ m ∈ allModels proc, ∀ m' ∈ allModels proc,
      m.name = m'.name → m.width = m'.width)
    (h : runCycle proc prog st = .ok st')
    (hnd : NodupKeys (st.utilTbl.getLastD []))
    (hAll : ∀ e ∈ st.utilTbl, ∀ m ∈ allModels proc,
      (getU e m.name).length ≤ m.width)
    (hInv : ∀ m ∈ allModels proc,
      (getU (st.utilTbl.getLastD []) m.name).length ≤ m.width) :
    (∀ e ∈ st'.utilTbl, ∀ m ∈ allModels proc,
      (getU e m.name).length ≤ m.width) ∧
    NodupKeys (st'.utilTbl.getLastD []) ∧
    (∀ m ∈ allModels proc,
      (getU (st'.utilTbl.getLastD []) m.name).length ≤ m.width) := by
  rw [runCycle_unfold] at h
  by_cases hstall :
      utilEq (computeCp proc prog st).1 (st.utilTbl.getLastD []) = true
  · rw [if_pos hstall] at h
    exact absurd h (by simp)
  · rw [if_neg hstall] at h
    have hst : st'.utilTbl = st.utilTbl ++ [(computeCp proc prog st).1] := by
      cases h
      rfl
    have hcp := computeCp_width proc prog st hW hnd hInv
    have hndcp := nodup_computeCp proc prog st hnd
    refine ⟨?_, ?_, ?_⟩
    · intro e he
      rw [hst] at he
      rcases List.mem_append.mp he with he | he
      · exact hAll e he
      · rw [List.mem_singleton.mp he]
        exact hcp
    · rw [hst, List.getLastD_concat]
      exact hndcp
    · rw [hst, List.getLastD_concat]
      exact hcp

theorem simSteps_width (proc : ProcessorDesc) (prog : List HwInstruction)
    (hW : ∀ m ∈ allModels proc, ∀ m' ∈ allModels proc,
      m.name = m'.name → m.width = m'.width) :
    ∀ (fuel : Nat) (st : SimState),
      NodupKeys (st.utilTbl.getLastD []) →
      (∀ e ∈ st.utilTbl, ∀ m ∈ allModels proc,
        (getU e m.name).length ≤ m.width) →
      (∀ m ∈ allModels proc,
        (getU (st.utilTbl.getLastD []) m.name).length ≤ m.width) →
      ∀ e ∈ tableOf (simSteps proc prog fuel st),
        ∀ m ∈ allModels proc, (getU e m.name).length ≤ m.width := by
  intro fuel
  induction fuel with
  | zero =>
    intro st hnd hAll hInv e he
    rw [simSteps] at he
    by_cases hl : loopCond prog.length st = true
    · rw [if_pos hl] at he
      exact hAll e he
    · rw [if_neg hl] at he
      exact hAll e he
  | succ fuel ih =>
    intro st hnd hAll hInv e he
    rw [simSteps] at he
    by_cases hl : loopCond prog.length st = true
    · rw [if_pos hl] at he
      cases hrc : runCycle proc prog st with
      | error tbl =>
        rw [hrc] at he
        have htbl : tbl = st.utilTbl := by
          rw [runCycle_unfold] at hrc
          by_cases hstall : utilEq (computeCp proc prog st).1
              (st.utilTbl.getLastD []) = true
          · rw [if_pos hstall] at hrc
            have := Except.error.inj hrc
            exact this.symm
          · rw [if_neg hstall] at hrc
            exact absurd hrc (by simp)
        rw [show tableOf (SimResult.stalled tbl) = tbl from rfl, htbl] at he
        exact hAll e he
      | ok st1 =>
        rw [hrc] at he
        have hnext := runCycle_width proc prog st st1 hW hrc hnd hAll hInv
        exact ih st1 hnext.2.1 hnext.1 hnext.2.2 e he
    · rw [if_neg hl] at he
      exact hAll e he

/-- C2: in every entry of the utilization table produced by a
simulation (returned, carried by a `StallError`, or accumulated so
far), every unit hosts at most `width` instructions. -/
theorem util_within_width (proc : ProcessorDesc) (prog : List HwInstruction)
    (fuel : Nat)
    (hW : ∀ m ∈ allModels proc, ∀ m' ∈ allModels proc,
      m.name = m'.name → m.width = m'.width) :
    ∀ e ∈ tableOf (simulate proc prog fuel),
      ∀ m ∈ allModels proc, (getU e m.name).length ≤ m.width := by
  apply simSteps_width proc prog hW fuel (initState prog)
  · simp [initState, NodupKeys]
  · intro e he
    exact absurd he (by simp [initState])
  · intro m _
    show (getU ([] : Util) m.name).length ≤ m.width
    simp [getU]

/-- Closed instance of `util_within_width` on the single-unit run. -/
theorem util_within_width_inst :
    (getU [("fullSys", [⟨0, NO_STALL⟩])] fullSys.name).length ≤
      fullSys.width :=
  util_within_width procS1 progS1 2 (by decide)
    [("fullSys", [⟨0, NO_STALL⟩])] (by decide) fullSys (by decide)

theorem phi_cons (nm : String) (rest : List String) (w : String → Nat)
    (u : Util) :
    Phi (nm :: rest) w u = w nm * (getU u nm).length + Phi rest w u := by
  simp [Phi]

theorem psi_cons (nm : String) (rest : List String) (u : Util) :
    Psi (nm :: rest) u =
      ((getU u nm).map (fun s => stallW s.stalled)).sum + Psi rest u := by
  simp [Psi]

theorem phi_len_agree (w : String → Nat) (u v : Util) :
    ∀ names : List String,
      (∀ nm ∈ names, (getU u nm).length = (getU v nm).length) →
      Phi names w u = Phi names w v := by
  intro names
  induction names with
  | nil => intro _; rfl
  | cons nm rest ih =>
    intro h
    rw [phi_cons, phi_cons, h nm (List.mem_cons_self _ _),
      ih (fun x hx => h x (List.mem_cons_of_mem _ hx))]

theorem psi_agree (u v : Util) :
    ∀ names : List String, (∀ nm ∈ names, getU u nm = getU v nm) →
      Psi names u = Psi names v := by
  intro names
  induction names with
  | nil => intro _; rfl
  | cons nm rest ih =>
    intro h
    rw [psi_cons, psi_cons, h nm (List.mem_cons_self _ _),
      ih (fun x hx => h x (List.mem_cons_of_mem _ hx))]

theorem phi_setU (names : List String) (w : String → Nat)
    (hnd : names.Nodup) (u : Util) (k : String) (l : List InstrState)
    (hk : k ∈ names) :
    Phi names w (setU u k l) + w k * (getU u k).length =
      Phi names w u + w k * l.length := by
  induction names with
  | nil => cases hk
  | cons nm rest ih =>
    rw [phi_cons, phi_cons]
    rcases List.mem_cons.mp hk with h | h
    · subst h
      rw [getU_setU_self]
      have hnotin : k ∉ rest := (List.nodup_cons.mp hnd).1
      have hrest : Phi rest w (setU u k l) = Phi rest w u :=
        phi_len_agree w _ _ rest (fun x hx => by
          have hxk : x ≠ k := by
            intro he
            rw [he] at hx
            exact hnotin hx
          rw [getU_setU_ne u l hxk])
      rw [hrest]
      omega
    · have hnm : nm ≠ k := fun he => (List.nodup_cons.mp hnd).1 (he ▸ h)
      rw [getU_setU_ne u l hnm]
      have := ih (List.nodup_cons.mp hnd).2 h
      omega

theorem phi_setU_not (names : List String) (w : String → Nat) (u : Util)
    (k : String) (l : List InstrState) (hk : k ∉ names) :
    Phi names w (setU u k l) = Phi names w u :=
  phi_len_agree w _ _ names (fun x hx => by
    have hxk : x ≠ k := by
      intro he
      rw [he] at hx
      exact hk hx
    rw [getU_setU_ne u l hxk])

theorem getU_nil_of_keysIn (u : Util) (names : List String)
    (hki : KeysIn u names) (k : String) (hk : k ∉ names) :
    getU u k = [] := by
  induction u with
  | nil => rfl
  | cons p rest ih =>
    have hp : p.1 ≠ k := fun he => hk (he ▸ hki p (List.mem_cons_self _ _))
    rw [show getU (p :: rest) k = getU rest k by simp [getU, hp]]
    exact ih (fun q hq => hki q (List.mem_cons_of_mem _ hq))

theorem keysIn_setU (u : Util) (names : List String) (k : String)
    (l : List InstrState) (hki : KeysIn u names) (hk : k ∈ names) :
    KeysIn (setU u k l) names := by
  intro p hp
  have h1 : p.1 ∈ (setU u k l).map Prod.fst := List.mem_map_of_mem Prod.fst hp
  rcases (mem_keys_setU u k l p.1).mp h1 with h | h
  · rcases List.mem_map.mp h with ⟨q, hq, hqe⟩
    exact hqe ▸ hki q hq
  · exact h ▸ hk

theorem flush_phi (names : List String) (w : String → Nat)
    (hnd : names.Nodup) (hwpos : ∀ nm ∈ names, 0 < w nm) :
    ∀ (outs : List UnitModel) (u : Util), (∀ o ∈ outs, o.name ∈ names) →
      ((∀ k, getU (flushOutputs outs u) k = getU u k) ∨
        Phi names w (flushOutputs outs u) < Phi names w u) ∧
      Phi names w (flushOutputs outs u) ≤ Phi names w u := by
  intro outs
  induction outs with
  | nil =>
    intro u _
    exact ⟨Or.inl (fun _ => rfl), Nat.le_refl _⟩
  | cons o rest ih =>
    intro u houts
    rw [flushOutputs_cons]
    by_cases hfl : flushOutput (getU u o.name) = getU u o.name
    · have hpt : ∀ k, getU (setU u o.name (flushOutput (getU u o.name))) k =
          getU u k := by
        intro k
        rw [getU_setU]
        by_cases hk : k = o.name
        · rw [if_pos hk, hfl, hk]
        · rw [if_neg hk]
      have hphi : Phi names w (setU u o.name (flushOutput (getU u o.name))) =
          Phi names w u :=
        phi_len_agree w _ _ names (fun x _ => by rw [hpt x])
      have hrec := ih (setU u o.name (flushOutput (getU u o.name)))
        (fun o' ho' => houts o' (List.mem_cons_of_mem _ ho'))
      have hle := hrec.2
      refine ⟨?_, by omega⟩
      rcases hrec.1 with hcase | hcase
      · exact Or.inl (fun k => (hcase k).trans (hpt k))
      · exact Or.inr (by omega)
    · have hsub : (flushOutput (getU u o.name)).Sublist (getU u o.name) := by
        rw [flushOutput_eq_filter]
        exact List.filter_sublist _
      have hlt : (flushOutput (getU u o.name)).length <
          (getU u o.name).length := by
        rcases Nat.lt_or_ge (flushOutput (getU u o.name)).length
            (getU u o.name).length with h | h
        · exact h
        · exact absurd (hsub.eq_of_length
            (Nat.le_antisymm hsub.length_le h)) hfl
      have hset := phi_setU names w hnd u o.name
        (flushOutput (getU u o.name)) (houts o (List.mem_cons_self _ _))
      have hwo : 0 < w o.name :=
        hwpos o.name (houts o (List.mem_cons_self _ _))
      have hmul : w o.name * (flushOutput (getU u o.name)).length <
          w o.name * (getU u o.name).length :=
        mul_lt_mul_of_pos_left hlt hwo
      have hrec := ih (setU u o.name (flushOutput (getU u o.name)))
        (fun o' ho' => houts o' (List.mem_cons_of_mem _ ho'))
      have hle := hrec.2
      exact ⟨Or.inr (by omega), by omega⟩

theorem phi_movStep (names : List String) (w : String → Nat)
    (hnd : names.Nodup) (u : Util) (c : HostedInstr) (dst : String)
    (hdst : dst ∈ names) :
    Phi names w (movStep u c dst) = Phi names w u + w dst := by
  have hphi1 : Phi names w (setU u c.host
      ((getU u c.host).set c.index_in_host (movSlot u c))) =
      Phi names w u :=
    phi_len_agree w _ _ names (fun x _ => by
      rw [len_getU_setU]
      by_cases h : x = c.host
      · rw [if_pos h, List.length_set, h]
      · rw [if_neg h])
  have hset := phi_setU names w hnd
    (setU u c.host ((getU u c.host).set c.index_in_host (movSlot u c)))
    dst
    (getU (setU u c.host
      ((getU u c.host).set c.index_in_host (movSlot u c))) dst ++
      [movSlot u c])
    hdst
  simp only [List.length_append, List.length_singleton] at hset
  have hmul : w dst * ((getU (setU u c.host
      ((getU u c.host).set c.index_in_host (movSlot u c))) dst).length + 1) =
      w dst * (getU (setU u c.host
      ((getU u c.host).set c.index_in_host (movSlot u c))) dst).length +
      w dst := Nat.mul_succ _ _
  show Phi names w (setU
    (setU u c.host ((getU u c.host).set c.index_in_host (movSlot u c)))
    dst
    (getU (setU u c.host
      ((getU u c.host).set c.index_in_host (movSlot u c))) dst ++
      [movSlot u c])) = Phi names w u + w dst
  omega

theorem phi_movCandidates (names : List String) (w : String → Nat)
    (hnd : names.Nodup) (unit : UnitModel) (hdst : unit.name ∈ names) :
    ∀ (cands : List HostedInstr) (util : Util),
      Phi names w (movCandidates cands unit util).util =
        Phi names w util +
          (movCandidates cands unit util).moved * w unit.name := by
  intro cands
  induction cands with
  | nil => intro util; simp [movCandidates]
  | cons c rest ih =>
    intro util
    cases h : unit.mem_access with
    | true =>
      rw [movCandidates_cons_mem c rest unit util h]
      show Phi names w (movStep util c unit.name) =
        Phi names w util + 1 * w unit.name
      rw [phi_movStep names w hnd util c unit.name hdst, Nat.one_mul]
    | false =>
      rw [movCandidates_cons_nomem c rest unit util h]
      show Phi names w
          (movCandidates rest unit (movStep util c unit.name)).util =
        Phi names w util +
          ((movCandidates rest unit (movStep util c unit.name)).moved + 1) *
            w unit.name
      rw [ih (movStep util c unit.name),
        phi_movStep names w hnd util c unit.name hdst, Nat.succ_mul]
      omega

theorem phi_clrSrcUnits (names : List String) (w : String → Nat)
    (hnd : names.Nodup) :
    ∀ (instrs : List HostedInstr) (u : Util),
      List.Pairwise (fun a b => a.host = b.host →
        b.index_in_host < a.index_in_host) instrs →
      (∀ c ∈ instrs, c.index_in_host < (getU u c.host).length) →
      (∀ c ∈ instrs, c.host ∈ names) →
      Phi names w (clrSrcUnits instrs u) +
          (instrs.map (fun c => w c.host)).sum =
        Phi names w u := by
  intro instrs
  induction instrs with
  | nil =>
    intro u _ _ _
    simp [clrSrcUnits]
  | cons c rest ih =>
    intro u hpw hval hhosts
    have hv : c.index_in_host < (getU u c.host).length :=
      hval c (List.mem_cons_self _ _)
    obtain ⟨m, hm⟩ : ∃ m, (getU u c.host).length = m + 1 :=
      ⟨(getU u c.host).length - 1, by omega⟩
    have hel : ((getU u c.host).eraseIdx c.index_in_host).length = m := by
      rw [List.length_eraseIdx, if_pos hv, hm]
      omega
    have hset := phi_setU names w hnd u c.host
      ((getU u c.host).eraseIdx c.index_in_host)
      (hhosts c (List.mem_cons_self _ _))
    rw [hel, hm] at hset
    have hmul : w c.host * (m + 1) = w c.host * m + w c.host :=
      Nat.mul_succ _ _
    have hphi1 : Phi names w (setU u c.host
        ((getU u c.host).eraseIdx c.index_in_host)) + w c.host =
        Phi names w u := by omega
    have hhead := (List.pairwise_cons.mp hpw).1
    have hval' : ∀ c' ∈ rest, c'.index_in_host <
        (getU (setU u c.host
          ((getU u c.host).eraseIdx c.index_in_host)) c'.host).length := by
      intro c' hc'
      by_cases hh : c'.host = c.host
      · rw [hh, getU_setU_self, hel]
        have hlt : c'.index_in_host < c.index_in_host :=
          hhead c' hc' hh.symm
        omega
      · rw [getU_setU_ne u _ hh]
        exact hval c' (List.mem_cons_of_mem _ hc')
    have hrec := ih (setU u c.host
        ((getU u c.host).eraseIdx c.index_in_host))
      (List.pairwise_cons.mp hpw).2 hval'
      (fun c' hc' => hhosts c' (List.mem_cons_of_mem _ hc'))
    rw [clrSrcUnits, List.foldl_cons, List.map_cons, List.sum_cons]
    have hrec' : Phi names w (clrSrcUnits rest (setU u c.host
        ((getU u c.host).eraseIdx c.index_in_host))) +
        (rest.map (fun c' => w c'.host)).sum =
        Phi names w (setU u c.host
          ((getU u c.host).eraseIdx c.index_in_host)) := hrec
    have hgoal : Phi names w (clrSrcUnits rest (setU u c.host
        ((getU u c.host).eraseIdx c.index_in_host))) +
        (w c.host + (rest.map (fun c' => w c'.host)).sum) =
        Phi names w u := by omega
    exact hgoal

theorem locateIdx_pairwise (p : InstrState → Bool) (l : List InstrState) :
    List.Pairwise (fun a b => a < b) (locateIdx p l) := by
  rw [locateIdx]
  exact List.Pairwise.filter _ (List.pairwise_lt_range _)

theorem flatMap_cands_pairwise (caps : List String)
    (prog : List HwInstruction) (util : Util) :
    ∀ preds : List UnitModel, (preds.map (fun p => p.name)).Nodup →
      List.Pairwise (fun a b : HostedInstr =>
          a.host = b.host → a.index_in_host ≠ b.index_in_host)
        (preds.flatMap (fun pred =>
          (locateIdx (candFilter prog caps) (getU util pred.name)).map
            (fun j => (⟨pred.name, j⟩ : HostedInstr)))) := by
  intro preds
  induction preds with
  | nil => intro _; simp
  | cons pr rest ih =>
    intro hnd
    rw [List.map_cons, List.nodup_cons] at hnd
    rw [List.flatMap_cons, List.pairwise_append]
    refine ⟨?_, ih hnd.2, ?_⟩
    · have hp1 : List.Pairwise
          (fun a b : Nat => pr.name = pr.name → a ≠ b)
          (locateIdx (candFilter prog caps) (getU util pr.name)) := by
        refine List.Pairwise.imp ?_ (locateIdx_pairwise _ _)
        intro a b h _
        exact Nat.ne_of_lt h
      exact List.pairwise_map.mpr hp1
    · intro a ha b hb heq
      exfalso
      rcases List.mem_map.mp ha with ⟨j, _, haj⟩
      rcases List.mem_flatMap.mp hb with ⟨q, hq, hbq⟩
      rcases List.mem_map.mp hbq with ⟨j', _, hbj⟩
      have hahost : a.host = pr.name := by rw [← haj]
      have hbhost : b.host = q.name := by rw [← hbj]
      apply hnd.1
      rw [show pr.name = q.name by rw [← hahost, heq, hbhost]]
      exact List.mem_map_of_mem (fun p => p.name) hq

theorem getCandidates_pairwise (unit : FuncUnit)
    (prog : List HwInstruction) (util : Util)
    (hpred : (unit.predecessors.map (fun p => p.name)).Nodup) :
    List.Pairwise (fun a b : HostedInstr =>
        a.host = b.host → a.index_in_host ≠ b.index_in_host)
      (getCandidates unit prog util) := by
  have hflat := flatMap_cands_pairwise unit.model.capabilities prog util
    unit.predecessors hpred
  have hsym : ∀ {x y : HostedInstr},
      (x.host = y.host → x.index_in_host ≠ y.index_in_host) →
      (y.host = x.host → y.index_in_host ≠ x.index_in_host) :=
    fun h he hne => (h he.symm) hne.symm
  rw [show getCandidates unit prog util =
    nsmallest (spaceAvail unit.model util) (hostKey util)
      (unit.predecessors.flatMap (fun pred =>
        (locateIdx (candFilter prog unit.model.capabilities)
            (getU util pred.name)).map
          (fun j => (⟨pred.name, j⟩ : HostedInstr)))) from rfl,
    nsmallest]
  refine List.Pairwise.sublist (List.take_sublist _ _) ?_
  exact (List.Perm.pairwise_iff hsym (isort_perm _ _)).mpr hflat

theorem getCandidates_hosts (unit : FuncUnit) (prog : List HwInstruction)
    (util : Util) :
    ∀ c ∈ getCandidates unit prog util,
      ∃ p ∈ unit.predecessors, c.host = p.name := by
  intro c hc
  rw [show getCandidates unit prog util =
    nsmallest (spaceAvail unit.model util) (hostKey util)
      (unit.predecessors.flatMap (fun pred =>
        (locateIdx (candFilter prog unit.model.capabilities)
            (getU util pred.name)).map
          (fun j => (⟨pred.name, j⟩ : HostedInstr)))) from rfl,
    nsmallest] at hc
  have hc1 := List.mem_of_mem_take hc
  have hc2 := (mem_isort _ _ _).mp hc1
  rcases List.mem_flatMap.mp hc2 with ⟨pred, hpred, hcp⟩
  rcases List.mem_map.mp hcp with ⟨j, _, hcj⟩
  exact ⟨pred, hpred, by rw [← hcj]⟩

theorem sum_map_ge (w : String → Nat) (B : Nat) :
    ∀ l : List HostedInstr, (∀ c ∈ l, B ≤ w c.host) →
      l.length * B ≤ (l.map (fun c => w c.host)).sum := by
  intro l
  induction l with
  | nil => intro _; simp
  | cons c rest ih =>
    intro h
    rw [List.map_cons, List.sum_cons, List.length_cons, Nat.succ_mul]
    have h1 := h c (List.mem_cons_self _ _)
    have h2 := ih (fun x hx => h x (List.mem_cons_of_mem _ hx))
    omega

theorem fillUnit_phi (names : List String) (w : String → Nat)
    (hnd : names.Nodup) (unit : FuncUnit) (prog : List HwInstruction)
    (util : Util) (hdst : unit.model.name ∈ names)
    (hpn : ∀ p ∈ unit.predecessors, p.name ∈ names)
    (hwd : ∀ p ∈ unit.predecessors, w unit.model.name < w p.name)
    (hprednd : (unit.predecessors.map (fun p => p.name)).Nodup) :
    ((fillUnit unit prog util).1 = util) ∨
      Phi names w (fillUnit unit prog util).1 < Phi names w util := by
  by_cases hmv : (movCandidates (getCandidates unit prog util) unit.model
      util).moved = 0
  · left
    have hcnil : getCandidates unit prog util = [] := by
      have h := movCandidates_moved (getCandidates unit prog util)
        unit.model util
      rw [hmv] at h
      by_cases hm : unit.model.mem_access = true
      · rw [if_pos hm] at h
        rcases Nat.eq_zero_or_pos (getCandidates unit prog util).length
          with hz | hp1
        · exact List.length_eq_zero.mp hz
        · rw [Nat.min_eq_left hp1] at h
          exact absurd h (by omega)
      · rw [if_neg hm] at h
        exact List.length_eq_zero.mp h.symm
    show clrSrcUnits
      (isort (fun a b => b.index_in_host ≤ a.index_in_host)
        ((getCandidates unit prog util).take
          (movCandidates (getCandidates unit prog util) unit.model
            util).moved))
      (movCandidates (getCandidates unit prog util) unit.model util).util
      = util
    rw [hcnil]
    rfl
  · right
    have hmle : (movCandidates (getCandidates unit prog util) unit.model
        util).moved ≤ (getCandidates unit prog util).length := by
      rw [movCandidates_moved]
      by_cases hm : unit.model.mem_access = true
      · rw [if_pos hm]
        exact Nat.min_le_right _ _
      · rw [if_neg hm]
    have htake_pw : List.Pairwise (fun a b : HostedInstr =>
        a.host = b.host → a.index_in_host ≠ b.index_in_host)
      ((getCandidates unit prog util).take
        (movCandidates (getCandidates unit prog util) unit.model
          util).moved) :=
      List.Pairwise.sublist (List.take_sublist _ _)
        (getCandidates_pairwise unit prog util hprednd)
    have hsym : ∀ {x y : HostedInstr},
        (x.host = y.host → x.index_in_host ≠ y.index_in_host) →
        (y.host = x.host → y.index_in_host ≠ x.index_in_host) :=
      fun h he hne => (h he.symm) hne.symm
    have hiso_pw : List.Pairwise (fun a b : HostedInstr =>
        a.host = b.host → a.index_in_host ≠ b.index_in_host)
      (isort (fun (a b : HostedInstr) =>
          decide (b.index_in_host ≤ a.index_in_host))
        ((getCandidates unit prog util).take
          (movCandidates (getCandidates unit prog util) unit.model
            util).moved)) :=
      (List.Perm.pairwise_iff hsym (isort_perm _ _)).mpr htake_pw
    have hsorted := isort_sorted
      (fun (a b : HostedInstr) => decide (b.index_in_host ≤ a.index_in_host))
      (by
        intro a b c hab hbc
        exact decide_eq_true
          (Nat.le_trans (of_decide_eq_true hbc) (of_decide_eq_true hab)))
      (by
        intro a b
        rcases Nat.le_total b.index_in_host a.index_in_host with h | h
        · exact Or.inl (decide_eq_true h)
        · exact Or.inr (decide_eq_true h))
      ((getCandidates unit prog util).take
        (movCandidates (getCandidates unit prog util) unit.model
          util).moved)
    have hdesc : List.Pairwise (fun a b : HostedInstr =>
        b.index_in_host ≤ a.index_in_host)
      (isort (fun (a b : HostedInstr) =>
          decide (b.index_in_host ≤ a.index_in_host))
        ((getCandidates unit prog util).take
          (movCandidates (getCandidates unit prog util) unit.model
            util).moved)) := by
      refine List.Pairwise.imp ?_ hsorted
      intro a b h
      exact of_decide_eq_true h
    have hstrict : List.Pairwise (fun a b : HostedInstr =>
        a.host = b.host → b.index_in_host < a.index_in_host)
      (isort (fun (a b : HostedInstr) =>
          decide (b.index_in_host ≤ a.index_in_host))
        ((getCandidates unit prog util).take
          (movCandidates (getCandidates unit prog util) unit.model
            util).moved)) := by
      have hand := List.Pairwise.and hdesc hiso_pw
      refine List.Pairwise.imp ?_ hand
      intro a b h heq
      exact Nat.lt_of_le_of_ne h.1 (Ne.symm (h.2 heq))
    have hval : ∀ c ∈ isort (fun (a b : HostedInstr) =>
          decide (b.index_in_host ≤ a.index_in_host))
        ((getCandidates unit prog util).take
          (movCandidates (getCandidates unit prog util) unit.model
            util).moved),
        c.index_in_host <
          (getU (movCandidates (getCandidates unit prog util) unit.model
            util).util c.host).length := by
      intro c hc
      have hc1 := ((isort_perm _ _).mem_iff).mp hc
      have hc2 := List.mem_of_mem_take hc1
      have hv := getCandidates_valid unit prog util c hc2
      have hlen := movCandidates_len (getCandidates unit prog util)
        unit.model util c.host
      rw [hlen]
      by_cases hh : c.host = unit.model.name
      · rw [if_pos hh]
        omega
      · rw [if_neg hh]
        omega
    have hhostp : ∀ c ∈ isort (fun (a b : HostedInstr) =>
          decide (b.index_in_host ≤ a.index_in_host))
        ((getCandidates unit prog util).take
          (movCandidates (getCandidates unit prog util) unit.model
            util).moved),
        ∃ p ∈ unit.predecessors, c.host = p.name := by
      intro c hc
      have hc1 := ((isort_perm _ _).mem_iff).mp hc
      exact getCandidates_hosts unit prog util c (List.mem_of_mem_take hc1)
    have hmem_names : ∀ c ∈ isort (fun (a b : HostedInstr) =>
          decide (b.index_in_host ≤ a.index_in_host))
        ((getCandidates unit prog util).take
          (movCandidates (getCandidates unit prog util) unit.model
            util).moved),
        c.host ∈ names := by
      intro c hc
      rcases hhostp c hc with ⟨p, hp, he⟩
      rw [he]
      exact hpn p hp
    have hwB : ∀ c ∈ isort (fun (a b : HostedInstr) =>
          decide (b.index_in_host ≤ a.index_in_host))
        ((getCandidates unit prog util).take
          (movCandidates (getCandidates unit prog util) unit.model
            util).moved),
        w unit.model.name + 1 ≤ w c.host := by
      intro c hc
      rcases hhostp c hc with ⟨p, hp, he⟩
      rw [he]
      exact hwd p hp
    have hlen_toClear : (isort (fun (a b : HostedInstr) =>
          decide (b.index_in_host ≤ a.index_in_host))
        ((getCandidates unit prog util).take
          (movCandidates (getCandidates unit prog util) unit.model
            util).moved)).length =
        (movCandidates (getCandidates unit prog util) unit.model
          util).moved := by
      rw [length_isort, List.length_take]
      exact Nat.min_eq_left hmle
    have hphi_ms := phi_movCandidates names w hnd unit.model hdst
      (getCandidates unit prog util) util
    have hphi_clr := phi_clrSrcUnits names w hnd _ _ hstrict hval hmem_names
    have hsum := sum_map_ge w (w unit.model.name + 1) _ hwB
    rw [hlen_toClear] at hsum
    have hmulsucc : (movCandidates (getCandidates unit prog util) unit.model
          util).moved * (w unit.model.name + 1) =
        (movCandidates (getCandidates unit prog util) unit.model
          util).moved * w unit.model.name +
        (movCandidates (getCandidates unit prog util) unit.model
          util).moved := Nat.mul_succ _ _
    show Phi names w (clrSrcUnits
      (isort (fun a b => b.index_in_host ≤ a.index_in_host)
        ((getCandidates unit prog util).take
          (movCandidates (getCandidates unit prog util) unit.model
            util).moved))
      (movCandidates (getCandidates unit prog util) unit.model util).util)
      < Phi names w util
    omega

theorem movFlights_phi (names : List String) (w : String → Nat)
    (hnd : names.Nodup) (prog : List HwInstruction) :
    ∀ (ds : List FuncUnit) (u0 : Util) (mb0 : Bool)
      (evs0 : List Reception),
      (∀ fu ∈ ds, fu.model.name ∈ names ∧
        (∀ p ∈ fu.predecessors, p.name ∈ names) ∧
        (∀ p ∈ fu.predecessors, w fu.model.name < w p.name) ∧
        (fu.predecessors.map (fun p => p.name)).Nodup) →
      (((ds.foldl
          (fun acc dst =>
            if !acc.2.1 || !dst.model.mem_access then
              let r := fillUnit dst prog acc.1
              (r.1, acc.2.1 || r.2.1, acc.2.2 ++ r.2.2)
            else acc) (u0, mb0, evs0)).1 = u0) ∨
        Phi names w ((ds.foldl
          (fun acc dst =>
            if !acc.2.1 || !dst.model.mem_access then
              let r := fillUnit dst prog acc.1
              (r.1, acc.2.1 || r.2.1, acc.2.2 ++ r.2.2)
            else acc) (u0, mb0, evs0)).1) < Phi names w u0) := by
  intro ds
  induction ds with
  | nil =>
    intro u0 mb0 evs0 _
    exact Or.inl rfl
  | cons dst rest ih =>
    intro u0 mb0 evs0 hds
    rw [List.foldl_cons]
    by_cases hg : (!mb0 || !dst.model.mem_access) = true
    · rw [if_pos hg]
      obtain ⟨h1, h2, h3, h4⟩ := hds dst (List.mem_cons_self _ _)
      have hfu := fillUnit_phi names w hnd dst prog u0 h1 h2 h3 h4
      have hrec := ih (fillUnit dst prog u0).1
        (mb0 || (fillUnit dst prog u0).2.1)
        (evs0 ++ (fillUnit dst prog u0).2.2)
        (fun fu hfu' => hds fu (List.mem_cons_of_mem _ hfu'))
      have hgoal : ((rest.foldl
          (fun acc dst =>
            if !acc.2.1 || !dst.model.mem_access then
              let r := fillUnit dst prog acc.1
              (r.1, acc.2.1 || r.2.1, acc.2.2 ++ r.2.2)
            else acc)
          ((fillUnit dst prog u0).1, mb0 || (fillUnit dst prog u0).2.1,
            evs0 ++ (fillUnit dst prog u0).2.2)).1 = u0) ∨
          Phi names w ((rest.foldl
          (fun acc dst =>
            if !acc.2.1 || !dst.model.mem_access then
              let r := fillUnit dst prog acc.1
              (r.1, acc.2.1 || r.2.1, acc.2.2 ++ r.2.2)
            else acc)
          ((fillUnit dst prog u0).1, mb0 || (fillUnit dst prog u0).2.1,
            evs0 ++ (fillUnit dst prog u0).2.2)).1) < Phi names w u0 := by
        rcases hrec with he | hlt
        · rcases hfu with hfe | hfl
          · exact Or.inl (by rw [he, hfe])
          · exact Or.inr (by rw [he]; exact hfl)
        · rcases hfu with hfe | hfl
          · refine Or.inr ?_
            have hcg := congrArg (Phi names w) hfe
            omega
          · exact Or.inr (Nat.lt_trans hlt hfl)
      exact hgoal
    · rw [if_neg hg]
      exact ih _ _ _ (fun fu hfu' => hds fu (List.mem_cons_of_mem _ hfu'))

theorem fillInputsAux_mono (capMap : String → List UnitModel)
    (prog : List HwInstruction) :
    ∀ (fuel : Nat) (u0 : Util) (mb0 : Bool) (entered : Nat),
      entered ≤ (fillInputsAux capMap prog fuel u0 mb0 entered).2.2.1 := by
  intro fuel
  induction fuel with
  | zero => intro u0 mb0 entered; exact Nat.le_refl _
  | succ fuel ih =>
    intro u0 mb0 entered
    rw [fillInputsAux]
    by_cases he : entered < prog.length
    · rw [if_pos he]
      cases hacc : acceptInstr (capMap (prog.getD entered dHw).categ) u0 mb0
          entered with
      | none => exact Nat.le_refl _
      | some res =>
        obtain ⟨u', mb', ev⟩ := res
        show entered ≤ (fillInputsAux capMap prog fuel u' mb'
          (entered + 1)).2.2.1
        exact Nat.le_trans (Nat.le_succ _) (ih u' mb' (entered + 1))
    · rw [if_neg he]

theorem fillInputsAux_le (capMap : String → List UnitModel)
    (prog : List HwInstruction) :
    ∀ (fuel : Nat) (u0 : Util) (mb0 : Bool) (entered : Nat),
      entered ≤ prog.length →
      (fillInputsAux capMap prog fuel u0 mb0 entered).2.2.1 ≤
        prog.length := by
  intro fuel
  induction fuel with
  | zero => intro u0 mb0 entered h; exact h
  | succ fuel ih =>
    intro u0 mb0 entered h
    rw [fillInputsAux]
    by_cases he : entered < prog.length
    · rw [if_pos he]
      cases hacc : acceptInstr (capMap (prog.getD entered dHw).categ) u0 mb0
          entered with
      | none => exact h
      | some res =>
        obtain ⟨u', mb', ev⟩ := res
        show (fillInputsAux capMap prog fuel u' mb'
          (entered + 1)).2.2.1 ≤ prog.length
        exact ih u' mb' (entered + 1) (by omega)
    · rw [if_neg he]
      exact h

theorem fillInputsAux_no_issue (capMap : String → List UnitModel)
    (prog : List HwInstruction) :
    ∀ (fuel : Nat) (u0 : Util) (mb0 : Bool) (entered : Nat),
      (fillInputsAux capMap prog fuel u0 mb0 entered).2.2.1 = entered →
      (fillInputsAux capMap prog fuel u0 mb0 entered).1 = u0 := by
  intro fuel
  induction fuel with
  | zero => intro u0 mb0 entered _; rfl
  | succ fuel ih =>
    intro u0 mb0 entered hent
    rw [fillInputsAux] at hent ⊢
    by_cases he : entered < prog.length
    · rw [if_pos he] at hent ⊢
      cases hacc : acceptInstr (capMap (prog.getD entered dHw).categ) u0 mb0
          entered with
      | none => rfl
      | some res =>
        obtain ⟨u', mb', ev⟩ := res
        rw [hacc] at hent
        exfalso
        have hmono := fillInputsAux_mono capMap prog fuel u' mb'
          (entered + 1)
        have hent' : (fillInputsAux capMap prog fuel u' mb'
            (entered + 1)).2.2.1 = entered := hent
        omega
    · rw [if_neg he] at hent ⊢

theorem keysIn_flushOutputs (names : List String) :
    ∀ (outs : List UnitModel) (u : Util),
      (∀ o ∈ outs, o.name ∈ names) → KeysIn u names →
      KeysIn (flushOutputs outs u) names := by
  intro outs
  induction outs with
  | nil => intro u _ hki; exact hki
  | cons o rest ih =>
    intro u houts hki
    rw [flushOutputs_cons]
    exact ih _ (fun o' ho' => houts o' (List.mem_cons_of_mem _ ho'))
      (keysIn_setU u names o.name _ hki (houts o (List.mem_cons_self _ _)))

theorem keysIn_movStep (names : List String) (u : Util) (c : HostedInstr)
    (dst : String) (hc : c.host ∈ names) (hdst : dst ∈ names)
    (hki : KeysIn u names) : KeysIn (movStep u c dst) names := by
  rw [movStep]
  exact keysIn_setU _ names dst _ (keysIn_setU _ names c.host _ hki hc) hdst

theorem keysIn_movCandidates (names : List String) (unit : UnitModel)
    (hdst : unit.name ∈ names) :
    ∀ (cands : List HostedInstr) (util : Util),
      (∀ c ∈ cands, c.host ∈ names) → KeysIn util names →
      KeysIn (movCandidates cands unit util).util names := by
  intro cands
  induction cands with
  | nil => intro util _ hki; exact hki
  | cons c rest ih =>
    intro util hch hki
    cases h : unit.mem_access with
    | true =>
      rw [movCandidates_cons_mem c rest unit util h]
      exact keysIn_movStep names util c unit.name
        (hch c (List.mem_cons_self _ _)) hdst hki
    | false =>
      rw [movCandidates_cons_nomem c rest unit util h]
      exact ih _ (fun c' hc' => hch c' (List.mem_cons_of_mem _ hc'))
        (keysIn_movStep names util c unit.name
          (hch c (List.mem_cons_self _ _)) hdst hki)

theorem keysIn_clrSrcUnits (names : List String) :
    ∀ (instrs : List HostedInstr) (u : Util),
      (∀ c ∈ instrs, c.host ∈ names) → KeysIn u names →
      KeysIn (clrSrcUnits instrs u) names := by
  intro instrs
  induction instrs with
  | nil => intro u _ hki; exact hki
  | cons c rest ih =>
    intro u hch hki
    rw [clrSrcUnits, List.foldl_cons]
    exact ih _ (fun c' hc' => hch c' (List.mem_cons_of_mem _ hc'))
      (keysIn_setU u names c.host _ hki (hch c (List.mem_cons_self _ _)))

theorem keysIn_fillUnit (names : List String) (unit : FuncUnit)
    (prog : List HwInstruction) (util : Util)
    (hdst : unit.model.name ∈ names)
    (hpn : ∀ p ∈ unit.predecessors, p.name ∈ names)
    (hki : KeysIn util names) : KeysIn (fillUnit unit prog util).1 names := by
  have hch : ∀ c ∈ getCandidates unit prog util, c.host ∈ names := by
    intro c hc
    rcases getCandidates_hosts unit prog util c hc with ⟨p, hp, he⟩
    rw [he]
    exact hpn p hp
  have htch : ∀ c ∈ isort (fun (a b : HostedInstr) =>
        decide (b.index_in_host ≤ a.index_in_host))
      ((getCandidates unit prog util).take
        (movCandidates (getCandidates unit prog util) unit.model
          util).moved), c.host ∈ names := by
    intro c hc
    exact hch c (List.mem_of_mem_take (((isort_perm _ _).mem_iff).mp hc))
  show KeysIn (clrSrcUnits
    (isort (fun a b => b.index_in_host ≤ a.index_in_host)
      ((getCandidates unit prog util).take
        (movCandidates (getCandidates unit prog util) unit.model
          util).moved))
    (movCandidates (getCandidates unit prog util) unit.model util).util)
    names
  exact keysIn_clrSrcUnits names _ _ htch
    (keysIn_movCandidates names unit.model hdst _ util hch hki)

theorem keysIn_movFlights (names : List String)
    (prog : List HwInstruction) :
    ∀ (ds : List FuncUnit) (u0 : Util) (mb0 : Bool)
      (evs0 : List Reception),
      (∀ fu ∈ ds, fu.model.name ∈ names ∧
        ∀ p ∈ fu.predecessors, p.name ∈ names) →
      KeysIn u0 names →
      KeysIn ((ds.foldl
        (fun acc dst =>
          if !acc.2.1 || !dst.model.mem_access then
            let r := fillUnit dst prog acc.1
            (r.1, acc.2.1 || r.2.1, acc.2.2 ++ r.2.2)
          else acc) (u0, mb0, evs0)).1) names := by
  intro ds
  induction ds with
  | nil => intro u0 mb0 evs0 _ hki; exact hki
  | cons dst rest ih =>
    intro u0 mb0 evs0 hds hki
    rw [List.foldl_cons]
    by_cases hg : (!mb0 || !dst.model.mem_access) = true
    · rw [if_pos hg]
      obtain ⟨h1, h2⟩ := hds dst (List.mem_cons_self _ _)
      exact ih _ _ _ (fun fu hfu => hds fu (List.mem_cons_of_mem _ hfu))
        (keysIn_fillUnit names dst prog u0 h1 h2 hki)
    · rw [if_neg hg]
      exact ih _ _ _ (fun fu hfu => hds fu (List.mem_cons_of_mem _ hfu)) hki

theorem keysIn_fillInputsAux (names : List String)
    (capMap : String → List UnitModel)
    (hcap : ∀ ct, ∀ m ∈ capMap ct, m.name ∈ names)
    (prog : List HwInstruction) :
    ∀ (fuel : Nat) (u0 : Util) (mb0 : Bool) (entered : Nat),
      KeysIn u0 names →
      KeysIn (fillInputsAux capMap prog fuel u0 mb0 entered).1 names := by
  intro fuel
  induction fuel with
  | zero => intro u0 mb0 entered hki; exact hki
  | succ fuel ih =>
    intro u0 mb0 entered hki
    rw [fillInputsAux]
    by_cases he : entered < prog.length
    · rw [if_pos he]
      cases hacc : acceptInstr (capMap (prog.getD entered dHw).categ) u0 mb0
          entered with
      | none => exact hki
      | some res =>
        obtain ⟨u', mb', ev⟩ := res
        show KeysIn (fillInputsAux capMap prog fuel u' mb'
          (entered + 1)).1 names
        have hu' : KeysIn u' names := by
          rw [acceptInstr] at hacc
          cases hfind : (capMap (prog.getD entered dHw).categ).find?
              (fun unit => !(mb0 && unit.mem_access) &&
                spaceAvail unit u0 != 0) with
          | none =>
            rw [hfind] at hacc
            exact absurd hacc (by simp)
          | some acceptor =>
            rw [hfind] at hacc
            have hmemn : acceptor.name ∈ names :=
              hcap _ acceptor (List.mem_of_find?_eq_some hfind)
            have := congrArg (fun p => p.1) (Option.some.inj hacc)
            rw [show ((fun p : Util × Bool × Reception => p.1)
              (u', mb', ev)) = u' from rfl] at this
            rw [← this]
            exact keysIn_setU u0 names acceptor.name _ hki hmemn
        exact ih _ _ _ hu'
    · rw [if_neg he]
      exact hki

theorem keysIn_hazFold (names : List String) (oldU : Util)
    (numap : String → UnitModel) (prog : List HwInstruction)
    (acc : AccQueues) :
    ∀ (kvs : List (String × List InstrState)) (u0 : Util) (rq0 : Clears),
      (∀ kv ∈ kvs, kv.1 ∈ names) → KeysIn u0 names →
      KeysIn ((kvs.foldl
        (fun (p : Util × Clears) kv =>
          let r := stallUnit (numap kv.1).lock_info (getU oldU kv.1) prog
            acc kv.2 p.2
          (setU p.1 kv.1 r.1, r.2)) (u0, rq0)).1) names := by
  intro kvs
  induction kvs with
  | nil => intro u0 rq0 _ hki; exact hki
  | cons kv rest ih =>
    intro u0 rq0 hkeys hki
    rw [List.foldl_cons]
    exact ih _ _ (fun p hp => hkeys p (List.mem_cons_of_mem _ hp))
      (keysIn_setU u0 names kv.1 _ hki (hkeys kv (List.mem_cons_self _ _)))

theorem getOutPorts_models (proc : ProcessorDesc) :
    ∀ o ∈ getOutPorts proc, o ∈ allModels proc := by
  intro o ho
  rw [getOutPorts] at ho
  rw [allModels, List.mem_append, List.mem_append]
  rcases List.mem_append.mp ho with h | h
  · exact Or.inl (Or.inr h)
  · rcases List.mem_map.mp h with ⟨fu, hfu, he⟩
    refine Or.inr ?_
    rw [List.map_append, List.mem_append]
    refine Or.inl ?_
    rw [← he]
    exact List.mem_map_of_mem (·.model) hfu

theorem keysIn_computeCp (proc : ProcessorDesc)
    (prog : List HwInstruction) (st : SimState)
    (hpredn : ∀ fu ∈ dstUnits proc, ∀ p ∈ fu.predecessors,
      p.name ∈ (allModels proc).map (fun m => m.name))
    (hki : KeysIn (st.utilTbl.getLastD [])
      ((allModels proc).map (fun m => m.name))) :
    KeysIn (computeCp proc prog st).1
      ((allModels proc).map (fun m => m.name)) := by
  have hout : ∀ o ∈ getOutPorts proc,
      o.name ∈ (allModels proc).map (fun m => m.name) := by
    intro o ho
    exact List.mem_map_of_mem (fun m => m.name) (getOutPorts_models proc o ho)
  have hkiF := keysIn_flushOutputs _ (getOutPorts proc) _ hout hki
  have hds : ∀ fu ∈ dstUnits proc,
      fu.model.name ∈ (allModels proc).map (fun m => m.name) ∧
      ∀ p ∈ fu.predecessors,
        p.name ∈ (allModels proc).map (fun m => m.name) := by
    intro fu hfu
    exact ⟨List.mem_map_of_mem (fun m => m.name) (dstUnits_models proc fu hfu),
      hpredn fu hfu⟩
  have hkiM := keysIn_movFlights _ prog (dstUnits proc) _ false [] hds hkiF
  have hcap : ∀ ct, ∀ m ∈ capUnitMap (inUnits proc) ct,
      m.name ∈ (allModels proc).map (fun m => m.name) := by
    intro ct m hm
    exact List.mem_map_of_mem (fun m => m.name)
      (capUnitMap_models proc ct m hm)
  have hkiI := keysIn_fillInputsAux _ (capUnitMap (inUnits proc)) hcap prog
    (prog.length - st.entered) _
    (movFlights (dstUnits proc) prog
      (flushOutputs (getOutPorts proc) (st.utilTbl.getLastD []))).2.1
    st.entered hkiM
  have hkvs : ∀ kv ∈ itemsU (fillInputsAux (capUnitMap (inUnits proc)) prog
      (prog.length - st.entered)
      (movFlights (dstUnits proc) prog
        (flushOutputs (getOutPorts proc) (st.utilTbl.getLastD []))).1
      (movFlights (dstUnits proc) prog
        (flushOutputs (getOutPorts proc) (st.utilTbl.getLastD []))).2.1
      st.entered).1,
      kv.1 ∈ (allModels proc).map (fun m => m.name) := by
    intro kv hkv
    exact hkiI kv (List.mem_of_mem_filter hkv)
  exact keysIn_hazFold _ _ (nameUnitMap proc) prog st.acc _ _ [] hkvs hkiI

theorem keys_itemsU_nodup (u : Util) (hnd : NodupKeys u) :
    ((itemsU u).map Prod.fst).Nodup := by
  have hsub : (itemsU u).Sublist u := List.filter_sublist u
  exact List.Nodup.sublist (hsub.map Prod.fst) hnd

theorem mem_keys_itemsU (u : Util) (hnd : NodupKeys u) (k : String) :
    k ∈ (itemsU u).map Prod.fst ↔ getU u k ≠ [] := by
  constructor
  · intro h
    rcases List.mem_map.mp h with ⟨p, hp, he⟩
    obtain ⟨kk, ll⟩ := p
    rcases (mem_itemsU u kk ll).mp hp with ⟨hmem, hne⟩
    have hkk : kk = k := he
    rw [← hkk, getU_of_mem_nodup u kk ll hmem hnd]
    exact hne
  · intro h
    have hmem : (k, getU u k) ∈ u := mem_of_getU_ne u k h
    have hitem : (k, getU u k) ∈ itemsU u :=
      (mem_itemsU u k _).mpr ⟨hmem, h⟩
    exact List.mem_map_of_mem Prod.fst hitem

theorem lenU_ext (u v : Util) (hu : NodupKeys u) (hv : NodupKeys v)
    (h : ∀ k, getU u k = getU v k) : lenU u = lenU v := by
  have hnu := keys_itemsU_nodup u hu
  have hnv := keys_itemsU_nodup v hv
  have hsub1 : (itemsU u).map Prod.fst ⊆ (itemsU v).map Prod.fst := by
    intro x hx
    rw [mem_keys_itemsU v hv]
    rw [mem_keys_itemsU u hu] at hx
    rw [← h x]
    exact hx
  have hsub2 : (itemsU v).map Prod.fst ⊆ (itemsU u).map Prod.fst := by
    intro x hx
    rw [mem_keys_itemsU u hu]
    rw [mem_keys_itemsU v hv] at hx
    rw [h x]
    exact hx
  have hle1 := (List.Nodup.subperm hnu hsub1).length_le
  have hle2 := (List.Nodup.subperm hnv hsub2).length_le
  simp only [List.length_map] at hle1 hle2
  rw [lenU, lenU]
  omega

theorem utilEq_of_ext (u v : Util) (hu : NodupKeys u) (hv : NodupKeys v)
    (h : ∀ k, getU u k = getU v k) : utilEq u v = true := by
  rw [utilEq, Bool.and_eq_true]
  constructor
  · rw [lenU_ext u v hu hv h]
    simp
  · rw [List.all_eq_true]
    intro p hp
    obtain ⟨k, l⟩ := p
    rcases (mem_itemsU v k l).mp hp with ⟨hmem, hne⟩
    have hgv : getU v k = l := getU_of_mem_nodup v k l hmem hv
    have hgu : getU u k = l := by rw [h k, hgv]
    show (isort isLe l == isort isLe (getU u k)) = true
    rw [hgu]
    simp

theorem regsLoaded_of_mem (oldL : List InstrState) (s : InstrState)
    (hs : s ∈ oldL) (hns : s.stalled ≠ DATA) :
    regsLoaded oldL s.instr = true := by
  rw [regsLoaded, List.any_eq_true]
  refine ⟨s, hs, ?_⟩
  rw [Bool.and_eq_true]
  exact ⟨beq_self_eq_true _, bne_iff_ne.mpr hns⟩

theorem stallSpec_of_loaded (locks : LockInfo) (oldL : List InstrState)
    (prog : List HwInstruction) (acc : AccQueues) (i : Nat)
    (h : regsLoaded oldL i = true) :
    stallSpec locks oldL prog acc i = STRUCTURAL := by
  rw [regsLoaded] at h
  rw [stallSpec, if_pos h]

theorem stallW_mark_le (locks : LockInfo) (oldL : List InstrState)
    (prog : List HwInstruction) (acc : AccQueues) (s : InstrState)
    (hs : s ∈ oldL) :
    stallW (stallSpec locks oldL prog acc s.instr) ≤ stallW s.stalled := by
  by_cases hd : s.stalled = DATA
  · rw [hd]
    cases stallSpec locks oldL prog acc s.instr <;> decide
  · rw [stallSpec_of_loaded locks oldL prog acc s.instr
      (regsLoaded_of_mem oldL s hs hd)]
    exact Nat.zero_le _

theorem stallW_mark_lt (locks : LockInfo) (oldL : List InstrState)
    (prog : List HwInstruction) (acc : AccQueues) (s : InstrState)
    (hs : s ∈ oldL)
    (hne : stallSpec locks oldL prog acc s.instr ≠ s.stalled) :
    stallW (stallSpec locks oldL prog acc s.instr) < stallW s.stalled := by
  by_cases hd : s.stalled = DATA
  · rw [hd] at hne ⊢
    cases hsp : stallSpec locks oldL prog acc s.instr with
    | NO_STALL => decide
    | STRUCTURAL => decide
    | DATA => rw [hsp] at hne; exact absurd rfl hne
  · have hstr := stallSpec_of_loaded locks oldL prog acc s.instr
      (regsLoaded_of_mem oldL s hs hd)
    rw [hstr] at hne ⊢
    cases hss : s.stalled with
    | NO_STALL => decide
    | STRUCTURAL => rw [hss] at hne; exact absurd rfl hne
    | DATA => exact absurd hss hd

theorem sum_map_le (f g : α → Nat) :
    ∀ l : List α, (∀ x ∈ l, f x ≤ g x) →
      (l.map f).sum ≤ (l.map g).sum := by
  intro l
  induction l with
  | nil => intro _; exact Nat.le_refl _
  | cons a rest ih =>
    intro h
    rw [List.map_cons, List.map_cons, List.sum_cons, List.sum_cons]
    have h1 := h a (List.mem_cons_self _ _)
    have h2 := ih (fun x hx => h x (List.mem_cons_of_mem _ hx))
    omega

theorem sum_map_lt (f g : α → Nat) :
    ∀ l : List α, (∀ x ∈ l, f x ≤ g x) →
      ∀ x0 ∈ l, f x0 < g x0 →
      (l.map f).sum < (l.map g).sum := by
  intro l
  induction l with
  | nil =>
    intro _ x0 hx0 _
    simp at hx0
  | cons a rest ih =>
    intro h x0 hx0 hlt
    rw [List.map_cons, List.map_cons, List.sum_cons, List.sum_cons]
    have h1 := h a (List.mem_cons_self _ _)
    rcases List.mem_cons.mp hx0 with he | hm
    · have hlt' : f a < g a := by rw [← he]; exact hlt
      have h2 := sum_map_le f g rest
        (fun x hx => h x (List.mem_cons_of_mem _ hx))
      omega
    · have h2 := ih (fun x hx => h x (List.mem_cons_of_mem _ hx)) x0 hm hlt
      omega

theorem map_mark_id (f : Nat → StallState) :
    ∀ l : List InstrState, (∀ s ∈ l, f s.instr = s.stalled) →
      l.map (fun s => (⟨s.instr, f s.instr⟩ : InstrState)) = l := by
  intro l
  induction l with
  | nil => intro _; rfl
  | cons s rest ih =>
    intro h
    have hs := h s (List.mem_cons_self _ _)
    rw [List.map_cons, hs, ih (fun x hx => h x (List.mem_cons_of_mem _ hx))]

theorem psi_name_le (old cp : Util) (numap : String → UnitModel)
    (prog : List HwInstruction) (acc : AccQueues)
    (hext : ∀ k, getU cp k = (getU old k).map (fun s =>
      (⟨s.instr, stallSpec (numap k).lock_info (getU old k) prog acc
        s.instr⟩ : InstrState))) (nm : String) :
    ((getU cp nm).map (fun s => stallW s.stalled)).sum ≤
      ((getU old nm).map (fun s => stallW s.stalled)).sum := by
  rw [hext nm, List.map_map]
  exact sum_map_le _ _ (getU old nm) (fun s hs =>
    stallW_mark_le (numap nm).lock_info (getU old nm) prog acc s hs)

theorem psi_name_lt (old cp : Util) (numap : String → UnitModel)
    (prog : List HwInstruction) (acc : AccQueues)
    (hext : ∀ k, getU cp k = (getU old k).map (fun s =>
      (⟨s.instr, stallSpec (numap k).lock_info (getU old k) prog acc
        s.instr⟩ : InstrState))) (nm0 : String) (s0 : InstrState)
    (hs0 : s0 ∈ getU old nm0)
    (hchg : stallSpec (numap nm0).lock_info (getU old nm0) prog acc
      s0.instr ≠ s0.stalled) :
    ((getU cp nm0).map (fun s => stallW s.stalled)).sum <
      ((getU old nm0).map (fun s => stallW s.stalled)).sum := by
  rw [hext nm0, List.map_map]
  exact sum_map_lt _ _ (getU old nm0)
    (fun s hs =>
      stallW_mark_le (numap nm0).lock_info (getU old nm0) prog acc s hs)
    s0 hs0
    (stallW_mark_lt (numap nm0).lock_info (getU old nm0) prog acc s0 hs0
      hchg)

theorem psi_mark_le (names : List String) (old cp : Util)
    (numap : String → UnitModel) (prog : List HwInstruction)
    (acc : AccQueues)
    (hext : ∀ k, getU cp k = (getU old k).map (fun s =>
      (⟨s.instr, stallSpec (numap k).lock_info (getU old k) prog acc
        s.instr⟩ : InstrState))) :
    Psi names cp ≤ Psi names old :=
  sum_map_le _ _ names
    (fun nm _ => psi_name_le old cp numap prog acc hext nm)

theorem psi_mark_lt (names : List String) (old cp : Util)
    (numap : String → UnitModel) (prog : List HwInstruction)
    (acc : AccQueues)
    (hext : ∀ k, getU cp k = (getU old k).map (fun s =>
      (⟨s.instr, stallSpec (numap k).lock_info (getU old k) prog acc
        s.instr⟩ : InstrState)))
    (nm0 : String) (hnm0 : nm0 ∈ names) (s0 : InstrState)
    (hs0 : s0 ∈ getU old nm0)
    (hchg : stallSpec (numap nm0).lock_info (getU old nm0) prog acc
      s0.instr ≠ s0.stalled) :
    Psi names cp < Psi names old :=
  sum_map_lt _ _ names
    (fun nm _ => psi_name_le old cp numap prog acc hext nm)
    nm0 hnm0 (psi_name_lt old cp numap prog acc hext nm0 s0 hs0 hchg)

theorem runCycle_decrease (proc : ProcessorDesc) (prog : List HwInstruction)
    (w : String → Nat) (hv : ValidProc proc w) (st st' : SimState)
    (h : runCycle proc prog st = .ok st') (hg : GoodSt proc prog st) :
    GoodSt proc prog st' ∧
    (st.entered < st'.entered ∨
      (st'.entered = st.entered ∧
        (Phi ((allModels proc).map (fun m => m.name)) w
            (st'.utilTbl.getLastD []) <
          Phi ((allModels proc).map (fun m => m.name)) w
            (st.utilTbl.getLastD []) ∨
         (Phi ((allModels proc).map (fun m => m.name)) w
            (st'.utilTbl.getLastD []) =
          Phi ((allModels proc).map (fun m => m.name)) w
            (st.utilTbl.getLastD []) ∧
          Psi ((allModels proc).map (fun m => m.name))
            (st'.utilTbl.getLastD []) <
          Psi ((allModels proc).map (fun m => m.name))
            (st.utilTbl.getLastD []))))) := by
  rw [runCycle_unfold] at h
  by_cases hstall : utilEq (computeCp proc prog st).1
      (st.utilTbl.getLastD []) = true
  · rw [if_pos hstall] at h
    exact absurd h (by simp)
  · rw [if_neg hstall] at h
    have htbl : st'.utilTbl =
        st.utilTbl ++ [(computeCp proc prog st).1] := by
      cases h
      rfl
    have hent : st'.entered = (computeCp proc prog st).2.2 := by
      cases h
      rfl
    have hlast : st'.utilTbl.getLastD [] = (computeCp proc prog st).1 := by
      rw [htbl, List.getLastD_concat]
    have hndF : NodupKeys (flushOutputs (getOutPorts proc)
        (st.utilTbl.getLastD [])) := nodup_flushOutputs _ _ hg.nodup
    have hndM : NodupKeys (movFlights (dstUnits proc) prog
        (flushOutputs (getOutPorts proc) (st.utilTbl.getLastD []))).1 :=
      nodup_movFlights _ _ _ hndF
    have hndI : NodupKeys (fillInputsAux (capUnitMap (inUnits proc)) prog
        (prog.length - st.entered)
        (movFlights (dstUnits proc) prog
          (flushOutputs (getOutPorts proc) (st.utilTbl.getLastD []))).1
        (movFlights (dstUnits proc) prog
          (flushOutputs (getOutPorts proc) (st.utilTbl.getLastD []))).2.1
        st.entered).1 :=
      nodup_fillInputsAux _ _ _ _ _ _ hndM
    have hndcp : NodupKeys (computeCp proc prog st).1 :=
      nodup_computeCp proc prog st hg.nodup
    have hkicp : KeysIn (computeCp proc prog st).1
        ((allModels proc).map (fun m => m.name)) :=
      keysIn_computeCp proc prog st hv.preds_names hg.keys
    have hmono : st.entered ≤ (computeCp proc prog st).2.2 :=
      fillInputsAux_mono (capUnitMap (inUnits proc)) prog
        (prog.length - st.entered)
        (movFlights (dstUnits proc) prog
          (flushOutputs (getOutPorts proc) (st.utilTbl.getLastD []))).1
        (movFlights (dstUnits proc) prog
          (flushOutputs (getOutPorts proc) (st.utilTbl.getLastD []))).2.1
        st.entered
    have hentle : (computeCp proc prog st).2.2 ≤ prog.length :=
      fillInputsAux_le (capUnitMap (inUnits proc)) prog
        (prog.length - st.entered)
        (movFlights (dstUnits proc) prog
          (flushOutputs (getOutPorts proc) (st.utilTbl.getLastD []))).1
        (movFlights (dstUnits proc) prog
          (flushOutputs (getOutPorts proc) (st.utilTbl.getLastD []))).2.1
        st.entered hg.entered_le
    have hg' : GoodSt proc prog st' := by
      refine ⟨?_, ?_, ?_⟩
      · rw [hlast]
        exact hndcp
      · rw [hlast]
        exact hkicp
      · rw [hent]
        exact hentle
    refine ⟨hg', ?_⟩
    by_cases hlt : st.entered < st'.entered
    · exact Or.inl hlt
    · have heq : st'.entered = st.entered := by
        rw [hent] at hlt ⊢
        omega
      refine Or.inr ⟨heq, ?_⟩
      rw [hlast]
      have hIid : (fillInputsAux (capUnitMap (inUnits proc)) prog
          (prog.length - st.entered)
          (movFlights (dstUnits proc) prog
            (flushOutputs (getOutPorts proc) (st.utilTbl.getLastD []))).1
          (movFlights (dstUnits proc) prog
            (flushOutputs (getOutPorts proc) (st.utilTbl.getLastD []))).2.1
          st.entered).1 =
          (movFlights (dstUnits proc) prog
            (flushOutputs (getOutPorts proc)
              (st.utilTbl.getLastD []))).1 := by
        apply fillInputsAux_no_issue
        rw [hent] at heq
        exact heq
      have hPhiCpI : Phi ((allModels proc).map (fun m => m.name)) w
          (computeCp proc prog st).1 =
          Phi ((allModels proc).map (fun m => m.name)) w
          (fillInputsAux (capUnitMap (inUnits proc)) prog
            (prog.length - st.entered)
            (movFlights (dstUnits proc) prog
              (flushOutputs (getOutPorts proc)
                (st.utilTbl.getLastD []))).1
            (movFlights (dstUnits proc) prog
              (flushOutputs (getOutPorts proc)
                (st.utilTbl.getLastD []))).2.1
            st.entered).1 :=
        phi_len_agree w _ _ _ (fun nm _ =>
          chkHazards_len (st.utilTbl.getLastD []) _ (nameUnitMap proc)
            prog st.acc hndI nm)
      have hPhiIM : Phi ((allModels proc).map (fun m => m.name)) w
          (fillInputsAux (capUnitMap (inUnits proc)) prog
            (prog.length - st.entered)
            (movFlights (dstUnits proc) prog
              (flushOutputs (getOutPorts proc)
                (st.utilTbl.getLastD []))).1
            (movFlights (dstUnits proc) prog
              (flushOutputs (getOutPorts proc)
                (st.utilTbl.getLastD []))).2.1
            st.entered).1 =
          Phi ((allModels proc).map (fun m => m.name)) w
          (movFlights (dstUnits proc) prog
            (flushOutputs (getOutPorts proc)
              (st.utilTbl.getLastD []))).1 := by
        rw [hIid]
      have hwpos : ∀ nm ∈ (allModels proc).map (fun m => m.name),
          0 < w nm := by
        intro nm hnm
        rcases List.mem_map.mp hnm with ⟨m, hm, he⟩
        rw [← he]
        exact hv.w_pos m hm
      have houts : ∀ o ∈ getOutPorts proc,
          o.name ∈ (allModels proc).map (fun m => m.name) := by
        intro o ho
        exact List.mem_map_of_mem (fun m => m.name)
          (getOutPorts_models proc o ho)
      have hflush := flush_phi ((allModels proc).map (fun m => m.name)) w
        hv.nodup_names hwpos (getOutPorts proc) (st.utilTbl.getLastD [])
        houts
      have hds : ∀ fu ∈ dstUnits proc,
          fu.model.name ∈ (allModels proc).map (fun m => m.name) ∧
          (∀ p ∈ fu.predecessors,
            p.name ∈ (allModels proc).map (fun m => m.name)) ∧
          (∀ p ∈ fu.predecessors, w fu.model.name < w p.name) ∧
          (fu.predecessors.map (fun p => p.name)).Nodup := by
        intro fu hfu
        exact ⟨List.mem_map_of_mem (fun m => m.name)
            (dstUnits_models proc fu hfu),
          hv.preds_names fu hfu, hv.w_dec fu hfu, hv.preds_nodup fu hfu⟩
      have hmov : ((movFlights (dstUnits proc) prog
            (flushOutputs (getOutPorts proc)
              (st.utilTbl.getLastD []))).1 =
          flushOutputs (getOutPorts proc) (st.utilTbl.getLastD [])) ∨
          Phi ((allModels proc).map (fun m => m.name)) w
            (movFlights (dstUnits proc) prog
              (flushOutputs (getOutPorts proc)
                (st.utilTbl.getLastD []))).1 <
          Phi ((allModels proc).map (fun m => m.name)) w
            (flushOutputs (getOutPorts proc) (st.utilTbl.getLastD [])) := by
        have hmovfold := movFlights_phi
          ((allModels proc).map (fun m => m.name)) w
          hv.nodup_names prog (dstUnits proc)
          (flushOutputs (getOutPorts proc) (st.utilTbl.getLastD []))
          false [] hds
        exact hmovfold
      rcases hmov with hMeq | hMlt
      · rcases hflush.1 with hFext | hFlt
        · have hextI : ∀ k, getU (fillInputsAux (capUnitMap (inUnits proc))
              prog (prog.length - st.entered)
              (movFlights (dstUnits proc) prog
                (flushOutputs (getOutPorts proc)
                  (st.utilTbl.getLastD []))).1
              (movFlights (dstUnits proc) prog
                (flushOutputs (getOutPorts proc)
                  (st.utilTbl.getLastD []))).2.1
              st.entered).1 k =
              getU (st.utilTbl.getLastD []) k := by
            intro k
            rw [hIid, hMeq]
            exact hFext k
          have hext : ∀ k, getU (computeCp proc prog st).1 k =
              (getU (st.utilTbl.getLastD []) k).map (fun s =>
                (⟨s.instr, stallSpec ((nameUnitMap proc) k).lock_info
                  (getU (st.utilTbl.getLastD []) k) prog st.acc
                  s.instr⟩ : InstrState)) := by
            intro k
            have h1 := chkHazards_getU (st.utilTbl.getLastD [])
              (fillInputsAux (capUnitMap (inUnits proc)) prog
                (prog.length - st.entered)
                (movFlights (dstUnits proc) prog
                  (flushOutputs (getOutPorts proc)
                    (st.utilTbl.getLastD []))).1
                (movFlights (dstUnits proc) prog
                  (flushOutputs (getOutPorts proc)
                    (st.utilTbl.getLastD []))).2.1
                st.entered).1
              (nameUnitMap proc) prog st.acc hndI k
            rw [hextI k] at h1
            exact h1
          have hPhiEq : Phi ((allModels proc).map (fun m => m.name)) w
              (computeCp proc prog st).1 =
              Phi ((allModels proc).map (fun m => m.name)) w
              (st.utilTbl.getLastD []) :=
            phi_len_agree w _ _ _ (fun nm _ => by
              rw [hext nm, List.length_map])
          refine Or.inr ⟨hPhiEq, ?_⟩
          have hwit : ∃ nm ∈ (allModels proc).map (fun m => m.name),
              ∃ s ∈ getU (st.utilTbl.getLastD []) nm,
                stallSpec ((nameUnitMap proc) nm).lock_info
                  (getU (st.utilTbl.getLastD []) nm) prog st.acc
                  s.instr ≠ s.stalled := by
            by_contra hno
            push_neg at hno
            apply hstall
            apply utilEq_of_ext _ _ hndcp hg.nodup
            intro k
            by_cases hk : k ∈ (allModels proc).map (fun m => m.name)
            · rw [hext k]
              exact map_mark_id _ (getU (st.utilTbl.getLastD []) k)
                (fun s hs => hno k hk s hs)
            · rw [hext k, getU_nil_of_keysIn (st.utilTbl.getLastD []) _
                hg.keys k hk]
              rfl
          rcases hwit with ⟨nm0, hnm0, s0, hs0, hchg⟩
          exact psi_mark_lt _ (st.utilTbl.getLastD [])
            (computeCp proc prog st).1 (nameUnitMap proc) prog st.acc
            hext nm0 hnm0 s0 hs0 hchg
        · refine Or.inl ?_
          have hPhiMF : Phi ((allModels proc).map (fun m => m.name)) w
              (movFlights (dstUnits proc) prog
                (flushOutputs (getOutPorts proc)
                  (st.utilTbl.getLastD []))).1 =
              Phi ((allModels proc).map (fun m => m.name)) w
              (flushOutputs (getOutPorts proc)
                (st.utilTbl.getLastD [])) := by
            rw [hMeq]
          omega
      · refine Or.inl ?_
        have hFle := hflush.2
        omega

theorem simSteps_term_aux (proc : ProcessorDesc)
    (prog : List HwInstruction) (w : String → Nat)
    (hv : ValidProc proc w) :
    ∀ (a b c : Nat) (st : SimState), GoodSt proc prog st →
      prog.length - st.entered = a →
      Phi ((allModels proc).map (fun m => m.name)) w
        (st.utilTbl.getLastD []) = b →
      Psi ((allModels proc).map (fun m => m.name))
        (st.utilTbl.getLastD []) = c →
      ∃ fuel, ranOut (simSteps proc prog fuel st) = false ∧
        ∀ stf, simSteps proc prog fuel st = .done stf →
          stf.entered = prog.length ∧ prog.length ≤ stf.exited := by
  intro a
  induction a using Nat.strong_induction_on with
  | _ a iha =>
  intro b
  induction b using Nat.strong_induction_on with
  | _ b ihb =>
  intro c
  induction c using Nat.strong_induction_on with
  | _ c ihc =>
  intro st hg ha hb hc
  by_cases hl : loopCond prog.length st = true
  · cases hrc : runCycle proc prog st with
    | error tbl =>
      refine ⟨1, ?_, ?_⟩
      · rw [show simSteps proc prog 1 st = .stalled tbl by
          rw [simSteps, if_pos hl, hrc]]
        rfl
      · intro stf hdone
        rw [show simSteps proc prog 1 st = .stalled tbl by
          rw [simSteps, if_pos hl, hrc]] at hdone
        cases hdone
    | ok st1 =>
      have hdec := runCycle_decrease proc prog w hv st st1 hrc hg
      rcases hdec with ⟨hg1, hcase⟩
      rcases hcase with hlt | ⟨heq, hsub⟩
      · have ha' : prog.length - st1.entered < a := by
          have := hg1.entered_le
          omega
        rcases iha (prog.length - st1.entered) ha'
            (Phi ((allModels proc).map (fun m => m.name)) w
              (st1.utilTbl.getLastD []))
            (Psi ((allModels proc).map (fun m => m.name))
              (st1.utilTbl.getLastD []))
            st1 hg1 rfl rfl rfl with ⟨fuel, hout, hdone⟩
        refine ⟨fuel + 1, ?_, ?_⟩
        · rw [simSteps, if_pos hl, hrc]
          exact hout
        · intro stf hdf
          rw [simSteps, if_pos hl, hrc] at hdf
          exact hdone stf hdf
      · rcases hsub with hplt | ⟨hpeq, hpsl⟩
        · have ha' : prog.length - st1.entered = a := by omega
          have hb' : Phi ((allModels proc).map (fun m => m.name)) w
              (st1.utilTbl.getLastD []) < b := by omega
          rcases ihb (Phi ((allModels proc).map (fun m => m.name)) w
              (st1.utilTbl.getLastD [])) hb'
              (Psi ((allModels proc).map (fun m => m.name))
                (st1.utilTbl.getLastD []))
              st1 hg1 ha' rfl rfl with ⟨fuel, hout, hdone⟩
          refine ⟨fuel + 1, ?_, ?_⟩
          · rw [simSteps, if_pos hl, hrc]
            exact hout
          · intro stf hdf
            rw [simSteps, if_pos hl, hrc] at hdf
            exact hdone stf hdf
        · have ha' : prog.length - st1.entered = a := by omega
          have hb' : Phi ((allModels proc).map (fun m => m.name)) w
              (st1.utilTbl.getLastD []) = b := by omega
          have hc' : Psi ((allModels proc).map (fun m => m.name))
              (st1.utilTbl.getLastD []) < c := by omega
          rcases ihc (Psi ((allModels proc).map (fun m => m.name))
              (st1.utilTbl.getLastD [])) hc'
              st1 hg1 ha' hb' rfl with ⟨fuel, hout, hdone⟩
          refine ⟨fuel + 1, ?_, ?_⟩
          · rw [simSteps, if_pos hl, hrc]
            exact hout
          · intro stf hdf
            rw [simSteps, if_pos hl, hrc] at hdf
            exact hdone stf hdf
  · refine ⟨0, ?_, ?_⟩
    · rw [show simSteps proc prog 0 st = .done st by
        rw [simSteps, if_neg hl]]
      rfl
    · intro stf hdone
      rw [show simSteps proc prog 0 st = .done st by
        rw [simSteps, if_neg hl]] at hdone
      have hstf : stf = st := (SimResult.done.inj hdone).symm
      subst hstf
      rw [loopCond] at hl
      simp only [Bool.or_eq_true, decide_eq_true_eq, not_or] at hl
      have hle := hg.entered_le
      exact ⟨by omega, by omega⟩

/-- C3: for every program of `n` instructions and every validated
processor — unit names unique, predecessors among the declared units and
duplicate-free, and the unit graph a DAG, witnessed by a weight function
`w` strictly decreasing along its edges — `simulate` terminates in
finitely many cycles: some finite fuel leaves its loop with fuel to
spare (the loop running while `entered < n` or instructions are in
flight), and it either raises `StallError` (a data-lock cycle) or
returns normally with all `n` instructions issued and retired. -/
theorem simulate_terminates (proc : ProcessorDesc)
    (prog : List HwInstruction) (w : String → Nat)
    (hv : ValidProc proc w) :
    ∃ fuel, ranOut (simulate proc prog fuel) = false ∧
      ∀ stf, simulate proc prog fuel = .done stf →
        stf.entered = prog.length ∧ prog.length ≤ stf.exited := by
  have hg0 : GoodSt proc prog (initState prog) := by
    refine ⟨?_, ?_, ?_⟩
    · simp [initState, NodupKeys]
    · intro p hp
      simp [initState] at hp
    · exact Nat.zero_le _
  have h := simSteps_term_aux proc prog w hv
    (prog.length - (initState prog).entered)
    (Phi ((allModels proc).map (fun m => m.name)) w
      ((initState prog).utilTbl.getLastD []))
    (Psi ((allModels proc).map (fun m => m.name))
      ((initState prog).utilTbl.getLastD []))
    (initState prog) hg0 rfl rfl rfl
  exact h

/-- Closed instance of `simulate_terminates`: the single-unit processor
(trivially acyclic) terminates on the one-instruction program. -/
theorem simulate_terminates_inst :
    ∃ fuel, ranOut (simulate procS1 progS1 fuel) = false ∧
      ∀ stf, simulate procS1 progS1 fuel = .done stf →
        stf.entered = progS1.length ∧ progS1.length ≤ stf.exited :=
  simulate_terminates procS1 progS1 (fun _ => 1)
    ⟨by decide, by decide, by decide, by decide, by decide⟩

end ProcSim
